import Mathlib

/-!
Verification development for the gpui-editor text-editing core.

The Rust sources are shallowly embedded: a Rust `String` / `&str` is a
`List Char` of Unicode scalar values, and `str::len()` is the UTF-8 byte
length of that list (`utf8Len`).  Byte-indexed `String` operations that
panic on a non-boundary index are embedded as `Option`-returning
functions (`none` models the panic).  The `GapBuffer` stores a `Vec<char>`,
so its buffer positions are plain list indices.
-/

set_option linter.unusedVariables false

/-- Number of UTF-8 code units of one scalar value, as in Rust's
`char::len_utf8`. -/
def charBytes (c : Char) : Nat :=
  if c.toNat < 0x80 then 1
  else if c.toNat < 0x800 then 2
  else if c.toNat < 0x10000 then 3
  else 4

/-- UTF-8 byte length of a string, Rust's `str::len()`. -/
def utf8Len (s : List Char) : Nat :=
  (s.map charBytes).sum

theorem charBytes_pos (c : Char) : 0 < charBytes c := by
  unfold charBytes
  split <;> [decide; split <;> [decide; split <;> decide]]

theorem utf8Len_nil : utf8Len [] = 0 := rfl

theorem utf8Len_cons (c : Char) (s : List Char) :
    utf8Len (c :: s) = charBytes c + utf8Len s := by
  simp [utf8Len]

theorem utf8Len_append (s t : List Char) :
    utf8Len (s ++ t) = utf8Len s + utf8Len t := by
  simp [utf8Len]

/-- Split a string at a UTF-8 byte index.  `none` when the index is not a
character boundary (where the Rust byte-slicing operations panic). -/
def byteSplit : List Char → Nat → Option (List Char × List Char)
  | s, 0 => some ([], s)
  | [], _ + 1 => none
  | c :: cs, n + 1 =>
    if n + 1 < charBytes c then none
    else (byteSplit cs (n + 1 - charBytes c)).map fun p => (c :: p.1, p.2)

theorem byteSplit_zero (s : List Char) : byteSplit s 0 = some ([], s) := by
  cases s <;> rfl

/-- Rust `&s[..i]`. -/
def byteTake (s : List Char) (i : Nat) : Option (List Char) :=
  (byteSplit s i).map fun p => p.1

/-- Rust `&s[i..]`. -/
def byteDrop (s : List Char) (i : Nat) : Option (List Char) :=
  (byteSplit s i).map fun p => p.2

/-- Rust `String::insert(idx, ch)`. -/
def byteInsert (s : List Char) (idx : Nat) (ch : Char) : Option (List Char) :=
  (byteSplit s idx).map fun p => p.1 ++ ch :: p.2

/-- Rust `String::remove(idx)` (dropping the returned character). -/
def byteRemoveAt (s : List Char) (idx : Nat) : Option (List Char) :=
  match byteSplit s idx with
  | some (a, _ :: b) => some (a ++ b)
  | _ => none

/-- Rust `&s[a..b]`. -/
def byteSlice (s : List Char) (a b : Nat) : Option (List Char) :=
  if a ≤ b then
    match byteSplit s a with
    | some (_, rest) => byteTake rest (b - a)
    | none => none
  else none

/-- All characters are single-byte, i.e. the string is ASCII. -/
def asciiStr (s : List Char) : Bool :=
  s.all fun c => charBytes c = 1

theorem utf8Len_of_ascii {s : List Char} (h : asciiStr s = true) :
    utf8Len s = s.length := by
  induction s with
  | nil => rfl
  | cons c cs ih =>
    simp [asciiStr] at h
    have h2 : asciiStr cs = true := by simp [asciiStr]; exact h.2
    rw [utf8Len_cons, h.1, ih h2]
    simp [Nat.add_comm]

theorem byteSplit_of_ascii {s : List Char} (h : asciiStr s = true)
    {i : Nat} (hi : i ≤ s.length) :
    byteSplit s i = some (s.take i, s.drop i) := by
  induction s generalizing i with
  | nil =>
    have : i = 0 := by simpa using hi
    subst this
    rfl
  | cons c cs ih =>
    simp [asciiStr] at h
    have h2 : asciiStr cs = true := by simp [asciiStr]; exact h.2
    cases i with
    | zero => rfl
    | succ n =>
      rw [byteSplit]
      rw [h.1]
      simp only [Nat.add_sub_cancel]
      have : ¬ n + 1 < 1 := by omega
      rw [if_neg this]
      rw [ih h2 (by simpa using hi)]
      simp

/-- Rust `str::split('\n')` collected to a vector: splitting on a
separator character, always yielding at least one (possibly empty) piece. -/
def splitOnChar (sep : Char) : List Char → List (List Char)
  | [] => [[]]
  | c :: cs =>
    if c = sep then [] :: splitOnChar sep cs
    else
      match splitOnChar sep cs with
      | [] => [[c]]
      | l :: ls => (c :: l) :: ls

theorem splitOnChar_ne_nil (sep : Char) (s : List Char) :
    splitOnChar sep s ≠ [] := by
  induction s with
  | nil => simp [splitOnChar]
  | cons c cs ih =>
    rw [splitOnChar]
    split
    · simp
    · cases h : splitOnChar sep cs <;> simp

/-- Rust `Vec::join(sep)` for a one-character separator (also the inverse
of `splitOnChar`). -/
def joinSep (sep : Char) : List (List Char) → List Char
  | [] => []
  | [l] => l
  | l :: ls => l ++ sep :: joinSep sep ls

theorem joinSep_cons_cons (sep : Char) (l m : List Char) (ls : List (List Char)) :
    joinSep sep (l :: m :: ls) = l ++ sep :: joinSep sep (m :: ls) := rfl

theorem joinSep_splitOnChar (sep : Char) (s : List Char) :
    joinSep sep (splitOnChar sep s) = s := by
  induction s with
  | nil => rfl
  | cons c cs ih =>
    rw [splitOnChar]
    by_cases hc : c = sep
    · rw [if_pos hc]
      have h2 : joinSep sep ([] :: splitOnChar sep cs)
          = sep :: joinSep sep (splitOnChar sep cs) := by
        cases h : splitOnChar sep cs with
        | nil => exact absurd h (splitOnChar_ne_nil sep cs)
        | cons l ls => rfl
      rw [h2, ih, hc]
    · rw [if_neg hc]
      cases h : splitOnChar sep cs with
      | nil => exact absurd h (splitOnChar_ne_nil sep cs)
      | cons l ls =>
        cases ls with
        | nil =>
          have ih2 : l = cs := by rw [h] at ih; exact ih
          show joinSep sep [c :: l] = c :: cs
          rw [show joinSep sep [c :: l] = c :: l from rfl, ih2]
        | cons m ms =>
          have ih2 : l ++ sep :: joinSep sep (m :: ms) = cs := by
            rw [h] at ih
            rw [joinSep_cons_cons] at ih
            exact ih
          rw [joinSep_cons_cons]
          simp only [List.cons_append]
          rw [ih2]

/-!
The gap buffer (`src/gap_buffer.rs`).  The backing store is a `Vec<char>`,
embedded as a `List Char`; `gap_start`/`gap_end` delimit the unused gap.
The in-place copy loops of `move_gap_to` and `grow_gap` are embedded by
the list each loop leaves in the backing store, built from
`List.take`/`List.drop` of the regions the loop reads and writes.
-/

structure GapBuffer where
  buffer : List Char
  gap_start : Nat
  gap_end : Nat
deriving DecidableEq

namespace GapBuffer

/-- `GapBuffer::new()`. -/
def new : GapBuffer :=
  { buffer := List.replicate 64 '\x00', gap_start := 0, gap_end := 64 }

/-- `GapBuffer::from_text`: the text goes to the front of the backing
store, the gap (`'\0'`-filled) after it. -/
def from_text (text : List Char) : GapBuffer :=
  let text_len := text.length
  let gap_size := max 64 (text_len / 4)
  let total_size := text_len + gap_size
  { buffer := text ++ List.replicate gap_size '\x00'
    gap_start := text_len
    gap_end := total_size }

/-- `GapBuffer::gap_size`. -/
def gap_size (gb : GapBuffer) : Nat := gb.gap_end - gb.gap_start

/-- `GapBuffer::len`: content length, excluding the gap. -/
def len (gb : GapBuffer) : Nat := gb.buffer.length - gb.gap_size

/-- `GapBuffer::move_gap_to`.  Moving left copies
`buffer[text_pos .. gap_start)` onto `buffer[gap_end - move_count .. gap_end)`
(right to left); moving right copies `buffer[gap_end .. gap_end + move_count)`
onto `buffer[gap_start .. gap_start + move_count)`. -/
def move_gap_to (gb : GapBuffer) (pos : Nat) : GapBuffer :=
  let text_pos := min pos gb.len
  if text_pos = gb.gap_start then gb
  else if text_pos < gb.gap_start then
    let move_count := gb.gap_start - text_pos
    { buffer := gb.buffer.take (gb.gap_end - move_count)
        ++ (gb.buffer.drop text_pos).take move_count
        ++ gb.buffer.drop gb.gap_end
      gap_start := gb.gap_start - move_count
      gap_end := gb.gap_end - move_count }
  else
    let buffer_pos := text_pos + gb.gap_size
    let move_count := buffer_pos - gb.gap_end
    { buffer := gb.buffer.take gb.gap_start
        ++ (gb.buffer.drop gb.gap_end).take move_count
        ++ gb.buffer.drop (gb.gap_start + move_count)
      gap_start := gb.gap_start + move_count
      gap_end := gb.gap_end + move_count }

/-- `GapBuffer::grow_gap`: reallocate with a larger gap; the pre-gap text
keeps its place, the post-gap text moves to the end of the new gap, and
the rest of the fresh allocation stays `'\0'`. -/
def grow_gap (gb : GapBuffer) : GapBuffer :=
  let new_gap_size := max 64 (gb.buffer.length / 4)
  let old_size := gb.buffer.length
  let text_after_gap := old_size - gb.gap_end
  { buffer := gb.buffer.take gb.gap_start
      ++ List.replicate new_gap_size '\x00'
      ++ (gb.buffer.drop gb.gap_end).take text_after_gap
      ++ List.replicate
          (old_size + new_gap_size - (gb.gap_start + new_gap_size + text_after_gap))
          '\x00'
    gap_start := gb.gap_start
    gap_end := gb.gap_start + new_gap_size }

/-- `GapBuffer::insert_char`. -/
def insert_char (gb : GapBuffer) (ch : Char) : GapBuffer :=
  let gb := if gb.gap_size = 0 then gb.grow_gap else gb
  { buffer := gb.buffer.set gb.gap_start ch
    gap_start := gb.gap_start + 1
    gap_end := gb.gap_end }

/-- `GapBuffer::insert`. -/
def insert (gb : GapBuffer) (pos : Nat) (text : List Char) : GapBuffer :=
  text.foldl insert_char (gb.move_gap_to pos)

/-- `GapBuffer::delete_backward`. -/
def delete_backward (gb : GapBuffer) : GapBuffer :=
  if 0 < gb.gap_start then
    { gb with gap_start := gb.gap_start - 1 }
  else gb

/-- `GapBuffer::delete_forward`. -/
def delete_forward (gb : GapBuffer) : GapBuffer :=
  if gb.gap_end < gb.buffer.length then
    { gb with gap_end := gb.gap_end + 1 }
  else gb

/-- `GapBuffer::delete_range`. -/
def delete_range (gb : GapBuffer) (start stop : Nat) : GapBuffer :=
  let start := min start gb.len
  let stop := min stop gb.len
  if start ≥ stop then gb
  else
    let gb := gb.move_gap_to start
    let delete_count := stop - start
    { gb with gap_end := min (gb.gap_end + delete_count) gb.buffer.length }

/-- `GapBuffer::to_string`: pre-gap text then post-gap text. -/
def to_string (gb : GapBuffer) : List Char :=
  gb.buffer.take gb.gap_start ++ gb.buffer.drop gb.gap_end

/-- `GapBuffer::from_lines`. -/
def from_lines (lines : List (List Char)) : GapBuffer :=
  from_text (joinSep '\n' lines)

/-- `GapBuffer::to_lines`. -/
def to_lines (gb : GapBuffer) : List (List Char) :=
  let text := gb.to_string
  if text = [] then [[]]
  else
    let lines := splitOnChar '\n' text
    if lines = [] then [[]] else lines

/-- Loop body of `GapBuffer::cursor_to_position`: walk the split lines,
returning at the target row, adding each earlier line's byte length plus
one for every newline that is not after the last line. -/
def ctpLoop (lines : List (List Char)) (row col pos : Nat) : Nat :=
  match lines with
  | [] => pos
  | line :: rest =>
    if row = 0 then pos + min col (utf8Len line)
    else ctpLoop rest (row - 1) col
      (pos + utf8Len line + if rest = [] then 0 else 1)

/-- `GapBuffer::cursor_to_position`. -/
def cursor_to_position (gb : GapBuffer) (row col : Nat) : Nat :=
  ctpLoop (splitOnChar '\n' gb.to_string) row col 0

/-- Loop body of `GapBuffer::position_to_cursor`; `none` when the loop
falls through to the after-loop fallback. -/
def ptcLoop (lines : List (List Char)) (row current_pos pos : Nat) :
    Option (Nat × Nat) :=
  match lines with
  | [] => none
  | line :: rest =>
    let line_end := current_pos + utf8Len line
    if pos ≤ line_end then some (row, pos - current_pos)
    else ptcLoop rest (row + 1)
      (line_end + if rest = [] then 0 else 1) pos

/-- `GapBuffer::position_to_cursor`. -/
def position_to_cursor (gb : GapBuffer) (pos : Nat) : Nat × Nat :=
  let text := gb.to_string
  let pos := min pos (utf8Len text)
  let lines := splitOnChar '\n' text
  match ptcLoop lines 0 0 pos with
  | some rc => rc
  | none =>
    if lines = [] then (0, 0)
    else (lines.length - 1, ((lines.getLast?).map utf8Len).getD 0)

/-- `<GapBuffer as TextBuffer>::line_count`. -/
def line_count (gb : GapBuffer) : Nat :=
  let text := gb.to_string
  if text = [] then 1
  else max (splitOnChar '\n' text).length 1

/-- `<GapBuffer as TextBuffer>::all_lines`. -/
def all_lines (gb : GapBuffer) : List (List Char) := gb.to_lines

/-- `<GapBuffer as TextBuffer>::line_len` (the trait's default, through
`all_lines`; a row beyond bounds yields 0). -/
def line_len (gb : GapBuffer) (line_idx : Nat) : Nat :=
  ((gb.all_lines.get? line_idx).map utf8Len).getD 0

/-- `<GapBuffer as TextBuffer>::insert_at`. -/
def insert_at (gb : GapBuffer) (row col : Nat) (text : List Char) : GapBuffer :=
  gb.insert (gb.cursor_to_position row col) text

/-- `<GapBuffer as TextBuffer>::delete_at`. -/
def delete_at (gb : GapBuffer) (row col : Nat) : GapBuffer :=
  (gb.move_gap_to (gb.cursor_to_position row col)).delete_forward

/-- `<GapBuffer as TextBuffer>::backspace_at`. -/
def backspace_at (gb : GapBuffer) (row col : Nat) : GapBuffer :=
  (gb.move_gap_to (gb.cursor_to_position row col)).delete_backward

/-- The gap structural invariant: `gap_start ≤ gap_end ≤ capacity`. -/
def WF (gb : GapBuffer) : Prop :=
  gb.gap_start ≤ gb.gap_end ∧ gb.gap_end ≤ gb.buffer.length

instance (gb : GapBuffer) : Decidable gb.WF := by
  unfold WF
  infer_instance

end GapBuffer

namespace GapBuffer

/-- Branch equation: `move_gap_to` when the clamped target is already the
gap start. -/
theorem move_gap_to_eq_self (gb : GapBuffer) (p : Nat)
    (h : min p gb.len = gb.gap_start) :
    gb.move_gap_to p = gb := by
  simp only [move_gap_to]
  rw [if_pos h]

/-- Branch equation: `move_gap_to` moving the gap left. -/
theorem move_gap_to_left_eq (gb : GapBuffer) (p : Nat)
    (hlt : min p gb.len < gb.gap_start) :
    gb.move_gap_to p =
      { buffer := gb.buffer.take (gb.gap_end - (gb.gap_start - min p gb.len))
          ++ (gb.buffer.drop (min p gb.len)).take (gb.gap_start - min p gb.len)
          ++ gb.buffer.drop gb.gap_end
        gap_start := gb.gap_start - (gb.gap_start - min p gb.len)
        gap_end := gb.gap_end - (gb.gap_start - min p gb.len) } := by
  have hne : ¬ (min p gb.len = gb.gap_start) := by omega
  simp only [move_gap_to]
  rw [if_neg hne, if_pos hlt]

/-- Branch equation: `move_gap_to` moving the gap right. -/
theorem move_gap_to_right_eq (gb : GapBuffer) (p : Nat)
    (hne : ¬ (min p gb.len = gb.gap_start))
    (hnlt : ¬ (min p gb.len < gb.gap_start)) :
    gb.move_gap_to p =
      { buffer := gb.buffer.take gb.gap_start
          ++ (gb.buffer.drop gb.gap_end).take
              (min p gb.len + gb.gap_size - gb.gap_end)
          ++ gb.buffer.drop
              (gb.gap_start + (min p gb.len + gb.gap_size - gb.gap_end))
        gap_start := gb.gap_start + (min p gb.len + gb.gap_size - gb.gap_end)
        gap_end := gb.gap_end + (min p gb.len + gb.gap_size - gb.gap_end) } := by
  simp only [move_gap_to]
  rw [if_neg hne, if_neg hnlt]

end GapBuffer

/-- Net effect of the leftward gap-move copy loop on the regions that
`to_string` reads. -/
theorem gapMoveLeft_eq (B : List Char) (p k ge : Nat)
    (hpk : p + k ≤ ge) (hge : ge ≤ B.length) :
    (B.take (ge - k) ++ (B.drop p).take k ++ B.drop ge).take p
      ++ (B.take (ge - k) ++ (B.drop p).take k ++ B.drop ge).drop (ge - k)
      = B.take (p + k) ++ B.drop ge ∧
    (B.take (ge - k) ++ (B.drop p).take k ++ B.drop ge).length = B.length := by
  have hlen1 : (B.take (ge - k)).length = ge - k := by
    rw [List.length_take]
    omega
  have hlen2 : ((B.drop p).take k).length = k := by
    rw [List.length_take, List.length_drop]
    omega
  constructor
  · rw [List.append_assoc]
    have e1 : (B.take (ge - k) ++ ((B.drop p).take k ++ B.drop ge)).take p
        = B.take p := by
      rw [List.take_append_of_le_length (by omega)]
      rw [List.take_take]
      rw [Nat.min_eq_left (by omega)]
    have e2 : (B.take (ge - k) ++ ((B.drop p).take k ++ B.drop ge)).drop (ge - k)
        = (B.drop p).take k ++ B.drop ge := List.drop_left' hlen1
    rw [e1, e2, List.take_add, List.append_assoc]
  · simp only [List.length_append, hlen1, hlen2, List.length_drop]
    omega

/-- Net effect of the rightward gap-move copy loop on the regions that
`to_string` reads. -/
theorem gapMoveRight_eq (B : List Char) (gs k ge : Nat)
    (hgs : gs ≤ ge) (hk : ge + k ≤ B.length) :
    (B.take gs ++ (B.drop ge).take k ++ B.drop (gs + k)).take (gs + k)
      ++ (B.take gs ++ (B.drop ge).take k ++ B.drop (gs + k)).drop (ge + k)
      = B.take gs ++ B.drop ge ∧
    (B.take gs ++ (B.drop ge).take k ++ B.drop (gs + k)).length = B.length := by
  have hlen1 : (B.take gs).length = gs := by
    rw [List.length_take]
    omega
  have hlen2 : ((B.drop ge).take k).length = k := by
    rw [List.length_take, List.length_drop]
    omega
  have hlen12 : (B.take gs ++ (B.drop ge).take k).length = gs + k := by
    rw [List.length_append, hlen1, hlen2]
  constructor
  · have e1 : ((B.take gs ++ (B.drop ge).take k) ++ B.drop (gs + k)).take (gs + k)
        = B.take gs ++ (B.drop ge).take k := List.take_left' hlen12
    have e2 : ((B.take gs ++ (B.drop ge).take k) ++ B.drop (gs + k)).drop (ge + k)
        = B.drop (ge + k) := by
      rw [List.drop_append_eq_append_drop, hlen12]
      rw [List.drop_eq_nil_of_le (by omega)]
      rw [List.nil_append, List.drop_drop]
      rw [show gs + k + (ge + k - (gs + k)) = ge + k from by omega]
    rw [e1, e2, List.append_assoc]
    congr 1
    have e3 : B.drop (ge + k) = (B.drop ge).drop k := by
      rw [List.drop_drop]
    rw [e3, List.take_append_drop]
  · simp only [List.length_append, hlen1, hlen2, List.length_drop]
    omega

namespace GapBuffer

/-- `move_gap_to` on a well-formed buffer: the invariant is preserved, the
content, capacity and gap size are unchanged, and the gap lands at
`min pos len`. -/
theorem move_gap_to_spec (gb : GapBuffer) (p : Nat) (h : gb.WF) :
    (gb.move_gap_to p).to_string = gb.to_string ∧
    (gb.move_gap_to p).WF ∧
    (gb.move_gap_to p).gap_start = min p gb.len ∧
    (gb.move_gap_to p).buffer.length = gb.buffer.length ∧
    (gb.move_gap_to p).gap_end - (gb.move_gap_to p).gap_start
      = gb.gap_end - gb.gap_start := by
  obtain ⟨h1, h2⟩ := h
  have hple : min p gb.len ≤ gb.len := min_le_right _ _
  have hlen : gb.len = gb.buffer.length - (gb.gap_end - gb.gap_start) := rfl
  by_cases he : min p gb.len = gb.gap_start
  · rw [move_gap_to_eq_self gb p he]
    exact ⟨rfl, ⟨h1, h2⟩, he.symm, rfl, rfl⟩
  · by_cases hlt : min p gb.len < gb.gap_start
    · rw [move_gap_to_left_eq gb p hlt]
      have hpk : min p gb.len + (gb.gap_start - min p gb.len) ≤ gb.gap_end := by
        omega
      obtain ⟨hc, hl⟩ := gapMoveLeft_eq gb.buffer (min p gb.len)
        (gb.gap_start - min p gb.len) gb.gap_end hpk h2
      have hl2 : (gb.buffer.take (gb.gap_end - (gb.gap_start - min p gb.len))
          ++ (gb.buffer.drop (min p gb.len)).take (gb.gap_start - min p gb.len)
          ++ gb.buffer.drop gb.gap_end).length = gb.buffer.length := hl
      refine ⟨?_, ⟨?_, ?_⟩, ?_, ?_, ?_⟩
      · show (gb.buffer.take (gb.gap_end - (gb.gap_start - min p gb.len))
            ++ (gb.buffer.drop (min p gb.len)).take (gb.gap_start - min p gb.len)
            ++ gb.buffer.drop gb.gap_end).take
              (gb.gap_start - (gb.gap_start - min p gb.len))
          ++ (gb.buffer.take (gb.gap_end - (gb.gap_start - min p gb.len))
            ++ (gb.buffer.drop (min p gb.len)).take (gb.gap_start - min p gb.len)
            ++ gb.buffer.drop gb.gap_end).drop
              (gb.gap_end - (gb.gap_start - min p gb.len))
          = gb.to_string
        rw [show gb.gap_start - (gb.gap_start - min p gb.len) = min p gb.len
          from by omega]
        rw [hc]
        rw [show min p gb.len + (gb.gap_start - min p gb.len) = gb.gap_start
          from by omega]
        rfl
      · show gb.gap_start - (gb.gap_start - min p gb.len)
          ≤ gb.gap_end - (gb.gap_start - min p gb.len)
        omega
      · show gb.gap_end - (gb.gap_start - min p gb.len)
          ≤ (gb.buffer.take (gb.gap_end - (gb.gap_start - min p gb.len))
            ++ (gb.buffer.drop (min p gb.len)).take (gb.gap_start - min p gb.len)
            ++ gb.buffer.drop gb.gap_end).length
        rw [hl2]
        omega
      · show gb.gap_start - (gb.gap_start - min p gb.len) = min p gb.len
        omega
      · exact hl2
      · show gb.gap_end - (gb.gap_start - min p gb.len)
          - (gb.gap_start - (gb.gap_start - min p gb.len))
          = gb.gap_end - gb.gap_start
        omega
    · rw [move_gap_to_right_eq gb p he hlt]
      have hgap : gb.gap_size = gb.gap_end - gb.gap_start := rfl
      have hke : gb.gap_end + (min p gb.len + gb.gap_size - gb.gap_end)
          ≤ gb.buffer.length := by
        rw [hgap]
        omega
      obtain ⟨hc, hl⟩ := gapMoveRight_eq gb.buffer gb.gap_start
        (min p gb.len + gb.gap_size - gb.gap_end) gb.gap_end h1 hke
      have hl2 : (gb.buffer.take gb.gap_start
          ++ (gb.buffer.drop gb.gap_end).take
              (min p gb.len + gb.gap_size - gb.gap_end)
          ++ gb.buffer.drop
              (gb.gap_start + (min p gb.len + gb.gap_size - gb.gap_end))).length
          = gb.buffer.length := hl
      refine ⟨?_, ⟨?_, ?_⟩, ?_, ?_, ?_⟩
      · show (gb.buffer.take gb.gap_start
            ++ (gb.buffer.drop gb.gap_end).take
                (min p gb.len + gb.gap_size - gb.gap_end)
            ++ gb.buffer.drop
                (gb.gap_start + (min p gb.len + gb.gap_size - gb.gap_end))).take
              (gb.gap_start + (min p gb.len + gb.gap_size - gb.gap_end))
          ++ (gb.buffer.take gb.gap_start
            ++ (gb.buffer.drop gb.gap_end).take
                (min p gb.len + gb.gap_size - gb.gap_end)
            ++ gb.buffer.drop
                (gb.gap_start + (min p gb.len + gb.gap_size - gb.gap_end))).drop
              (gb.gap_end + (min p gb.len + gb.gap_size - gb.gap_end))
          = gb.to_string
        rw [hc]
        rfl
      · show gb.gap_start + (min p gb.len + gb.gap_size - gb.gap_end)
          ≤ gb.gap_end + (min p gb.len + gb.gap_size - gb.gap_end)
        omega
      · show gb.gap_end + (min p gb.len + gb.gap_size - gb.gap_end)
          ≤ (gb.buffer.take gb.gap_start
            ++ (gb.buffer.drop gb.gap_end).take
                (min p gb.len + gb.gap_size - gb.gap_end)
            ++ gb.buffer.drop
                (gb.gap_start + (min p gb.len + gb.gap_size - gb.gap_end))).length
        rw [hl2]
        rw [hgap] at *
        omega
      · show gb.gap_start + (min p gb.len + gb.gap_size - gb.gap_end) = min p gb.len
        rw [hgap]
        omega
      · exact hl2
      · show gb.gap_end + (min p gb.len + gb.gap_size - gb.gap_end)
          - (gb.gap_start + (min p gb.len + gb.gap_size - gb.gap_end))
          = gb.gap_end - gb.gap_start
        omega

end GapBuffer

namespace GapBuffer

theorem to_string_take_gap (gb : GapBuffer) (h : gb.WF) :
    gb.to_string.take gb.gap_start = gb.buffer.take gb.gap_start := by
  obtain ⟨h1, h2⟩ := h
  have hl : (gb.buffer.take gb.gap_start).length = gb.gap_start := by
    rw [List.length_take]
    omega
  exact (List.take_left' hl)

theorem to_string_drop_gap (gb : GapBuffer) (h : gb.WF) :
    gb.to_string.drop gb.gap_start = gb.buffer.drop gb.gap_end := by
  obtain ⟨h1, h2⟩ := h
  have hl : (gb.buffer.take gb.gap_start).length = gb.gap_start := by
    rw [List.length_take]
    omega
  exact (List.drop_left' hl)

theorem gap_start_le_len (gb : GapBuffer) (h : gb.WF) : gb.gap_start ≤ gb.len := by
  obtain ⟨h1, h2⟩ := h
  show gb.gap_start ≤ gb.buffer.length - (gb.gap_end - gb.gap_start)
  omega

theorem length_to_string (gb : GapBuffer) (h : gb.WF) :
    gb.to_string.length = gb.len := by
  obtain ⟨h1, h2⟩ := h
  show (gb.buffer.take gb.gap_start ++ gb.buffer.drop gb.gap_end).length
    = gb.buffer.length - (gb.gap_end - gb.gap_start)
  rw [List.length_append, List.length_take, List.length_drop]
  omega

/-- `grow_gap` preserves the structural invariant. -/
theorem grow_gap_wf (gb : GapBuffer) (h : gb.WF) : gb.grow_gap.WF := by
  obtain ⟨h1, h2⟩ := h
  constructor
  · show gb.gap_start ≤ gb.gap_start + max 64 (gb.buffer.length / 4)
    omega
  · show gb.gap_start + max 64 (gb.buffer.length / 4)
      ≤ (gb.buffer.take gb.gap_start
        ++ List.replicate (max 64 (gb.buffer.length / 4)) '\x00'
        ++ (gb.buffer.drop gb.gap_end).take (gb.buffer.length - gb.gap_end)
        ++ List.replicate
            (gb.buffer.length + max 64 (gb.buffer.length / 4)
              - (gb.gap_start + max 64 (gb.buffer.length / 4)
                 + (gb.buffer.length - gb.gap_end)))
            '\x00').length
    simp only [List.length_append, List.length_take, List.length_replicate,
      List.length_drop]
    omega

/-- `grow_gap` on a buffer whose gap is exhausted (the only state in which
`insert_char` invokes it): content and gap start are unchanged, and the
fresh gap is non-empty. -/
theorem grow_gap_spec_zero (gb : GapBuffer) (h : gb.WF) (hz : gb.gap_size = 0) :
    gb.grow_gap.WF ∧
    gb.grow_gap.to_string = gb.to_string ∧
    gb.grow_gap.gap_start = gb.gap_start ∧
    gb.grow_gap.gap_end = gb.gap_start + max 64 (gb.buffer.length / 4) ∧
    gb.grow_gap.gap_size ≠ 0 := by
  obtain ⟨h1, h2⟩ := h
  have hge : gb.gap_end = gb.gap_start := by
    have : gb.gap_end - gb.gap_start = 0 := hz
    omega
  refine ⟨grow_gap_wf gb ⟨h1, h2⟩, ?_, rfl, rfl, ?_⟩
  · show (gb.buffer.take gb.gap_start
        ++ List.replicate (max 64 (gb.buffer.length / 4)) '\x00'
        ++ (gb.buffer.drop gb.gap_end).take (gb.buffer.length - gb.gap_end)
        ++ List.replicate
            (gb.buffer.length + max 64 (gb.buffer.length / 4)
              - (gb.gap_start + max 64 (gb.buffer.length / 4)
                 + (gb.buffer.length - gb.gap_end)))
            '\x00').take gb.gap_start
      ++ (gb.buffer.take gb.gap_start
        ++ List.replicate (max 64 (gb.buffer.length / 4)) '\x00'
        ++ (gb.buffer.drop gb.gap_end).take (gb.buffer.length - gb.gap_end)
        ++ List.replicate
            (gb.buffer.length + max 64 (gb.buffer.length / 4)
              - (gb.gap_start + max 64 (gb.buffer.length / 4)
                 + (gb.buffer.length - gb.gap_end)))
            '\x00').drop (gb.gap_start + max 64 (gb.buffer.length / 4))
      = gb.to_string
    rw [hge]
    have hjunk : gb.buffer.length + max 64 (gb.buffer.length / 4)
        - (gb.gap_start + max 64 (gb.buffer.length / 4)
           + (gb.buffer.length - gb.gap_start)) = 0 := by
      omega
    rw [hjunk]
    have htag : (gb.buffer.drop gb.gap_start).take
        (gb.buffer.length - gb.gap_start) = gb.buffer.drop gb.gap_start := by
      apply List.take_of_length_le
      rw [List.length_drop]
    rw [htag]
    simp only [List.replicate_zero, List.append_nil]
    have hl1 : (gb.buffer.take gb.gap_start).length = gb.gap_start := by
      rw [List.length_take]
      omega
    have hl2 : (gb.buffer.take gb.gap_start
        ++ List.replicate (max 64 (gb.buffer.length / 4)) '\x00').length
        = gb.gap_start + max 64 (gb.buffer.length / 4) := by
      rw [List.length_append, hl1, List.length_replicate]
    rw [List.append_assoc, List.take_append_of_le_length (by omega),
      List.take_take, Nat.min_self]
    rw [← List.append_assoc, List.drop_left' hl2]
    show _ = gb.buffer.take gb.gap_start ++ gb.buffer.drop gb.gap_end
    rw [hge]
  · show gb.gap_start + max 64 (gb.buffer.length / 4) - gb.gap_start ≠ 0
    omega

/-- Writing into the gap slot and advancing `gap_start`: the regions
`to_string` reads afterwards. -/
theorem set_insert_regions (B : List Char) (gs ge : Nat) (ch : Char)
    (h1 : gs < ge) (h2 : ge ≤ B.length) :
    (B.set gs ch).take (gs + 1) = B.take gs ++ [ch] ∧
    (B.set gs ch).drop ge = B.drop ge := by
  have hset : B.set gs ch = B.take gs ++ ch :: B.drop (gs + 1) := by
    rw [List.set_eq_take_append_cons_drop]
    rw [if_pos (by omega)]
  have hl1 : (B.take gs).length = gs := by
    rw [List.length_take]
    omega
  constructor
  · rw [hset, List.take_append_eq_append_take, hl1]
    rw [List.take_take, Nat.min_eq_right (by omega)]
    rw [show gs + 1 - gs = 1 from by omega]
    rfl
  · rw [hset, List.drop_append_eq_append_drop, hl1]
    rw [List.drop_eq_nil_of_le (by omega), List.nil_append]
    rw [show ge - gs = (ge - gs - 1) + 1 from by omega]
    rw [List.drop_succ_cons, List.drop_drop]
    rw [show gs + 1 + (ge - gs - 1) = ge from by omega]

/-- Branch equation: `insert_char` when the gap is not exhausted. -/
theorem insert_char_eq_of_nz (gb : GapBuffer) (ch : Char)
    (hz : ¬ (gb.gap_size = 0)) :
    gb.insert_char ch =
      { buffer := gb.buffer.set gb.gap_start ch
        gap_start := gb.gap_start + 1
        gap_end := gb.gap_end } := by
  unfold insert_char
  rw [if_neg hz]

/-- Branch equation: `insert_char` when the gap is exhausted and must grow. -/
theorem insert_char_eq_of_z (gb : GapBuffer) (ch : Char)
    (hz : gb.gap_size = 0) :
    gb.insert_char ch =
      { buffer := gb.grow_gap.buffer.set gb.grow_gap.gap_start ch
        gap_start := gb.grow_gap.gap_start + 1
        gap_end := gb.grow_gap.gap_end } := by
  unfold insert_char
  rw [if_pos hz]

/-- `insert_char` on a well-formed buffer: the character lands at the edit
point (`gap_start`), which advances by one. -/
theorem insert_char_spec (gb : GapBuffer) (ch : Char) (h : gb.WF) :
    (gb.insert_char ch).WF ∧
    (gb.insert_char ch).to_string
      = gb.to_string.take gb.gap_start ++ ch :: gb.to_string.drop gb.gap_start ∧
    (gb.insert_char ch).gap_start = gb.gap_start + 1 := by
  have main : ∀ g : GapBuffer, g.WF → g.gap_size ≠ 0 →
      ({ buffer := g.buffer.set g.gap_start ch
         gap_start := g.gap_start + 1
         gap_end := g.gap_end } : GapBuffer).WF ∧
      ({ buffer := g.buffer.set g.gap_start ch
         gap_start := g.gap_start + 1
         gap_end := g.gap_end } : GapBuffer).to_string
        = g.to_string.take g.gap_start ++ ch :: g.to_string.drop g.gap_start := by
    intro g hg hz
    obtain ⟨hg1, hg2⟩ := hg
    have hlt : g.gap_start < g.gap_end := by
      have : g.gap_end - g.gap_start ≠ 0 := hz
      omega
    obtain ⟨e1, e2⟩ := set_insert_regions g.buffer g.gap_start g.gap_end ch hlt hg2
    refine ⟨⟨?_, ?_⟩, ?_⟩
    · show g.gap_start + 1 ≤ g.gap_end
      omega
    · show g.gap_end ≤ (g.buffer.set g.gap_start ch).length
      rw [List.length_set]
      omega
    · show (g.buffer.set g.gap_start ch).take (g.gap_start + 1)
          ++ (g.buffer.set g.gap_start ch).drop g.gap_end = _
      rw [e1, e2, to_string_take_gap g ⟨hg1, hg2⟩, to_string_drop_gap g ⟨hg1, hg2⟩]
      rw [List.append_assoc]
      rfl
  by_cases hz : gb.gap_size = 0
  · obtain ⟨hw, hts, hgs, hge, hnz⟩ := grow_gap_spec_zero gb h hz
    obtain ⟨m1, m2⟩ := main gb.grow_gap hw hnz
    rw [insert_char_eq_of_z gb ch hz]
    refine ⟨m1, ?_, ?_⟩
    · rw [m2, hts, hgs]
    · show gb.grow_gap.gap_start + 1 = gb.gap_start + 1
      rw [hgs]
  · obtain ⟨m1, m2⟩ := main gb h hz
    rw [insert_char_eq_of_nz gb ch hz]
    exact ⟨m1, m2, rfl⟩

end GapBuffer

namespace GapBuffer

/-- The insertion loop of `insert`: each character is written at the edit
point, so the whole text is spliced in at the starting `gap_start`. -/
theorem foldl_insert_char_spec (text : List Char) (gb : GapBuffer) (h : gb.WF) :
    (text.foldl insert_char gb).WF ∧
    (text.foldl insert_char gb).to_string
      = gb.to_string.take gb.gap_start ++ text ++ gb.to_string.drop gb.gap_start ∧
    (text.foldl insert_char gb).gap_start = gb.gap_start + text.length := by
  induction text generalizing gb with
  | nil =>
    refine ⟨h, ?_, rfl⟩
    show gb.to_string = _
    rw [List.append_nil, List.take_append_drop]
  | cons c cs ih =>
    obtain ⟨w1, w2, w3⟩ := insert_char_spec gb c h
    obtain ⟨i1, i2, i3⟩ := ih (gb.insert_char c) w1
    obtain ⟨h1, h2⟩ := h
    have hgs : gb.gap_start ≤ gb.to_string.length := by
      rw [length_to_string gb ⟨h1, h2⟩]
      exact gap_start_le_len gb ⟨h1, h2⟩
    have hl : (gb.to_string.take gb.gap_start).length = gb.gap_start := by
      rw [List.length_take]
      omega
    have e1 : (gb.to_string.take gb.gap_start
        ++ c :: gb.to_string.drop gb.gap_start).take (gb.gap_start + 1)
        = gb.to_string.take gb.gap_start ++ [c] := by
      rw [List.take_append_eq_append_take, hl]
      rw [List.take_take, Nat.min_eq_right (by omega)]
      rw [show gb.gap_start + 1 - gb.gap_start = 1 from by omega]
      rfl
    have e2 : (gb.to_string.take gb.gap_start
        ++ c :: gb.to_string.drop gb.gap_start).drop (gb.gap_start + 1)
        = gb.to_string.drop gb.gap_start := by
      rw [List.drop_append_eq_append_drop, hl]
      rw [List.drop_eq_nil_of_le (by omega), List.nil_append]
      rw [show gb.gap_start + 1 - gb.gap_start = 1 from by omega]
      rfl
    refine ⟨i1, ?_, ?_⟩
    · rw [List.foldl_cons, i2, w2, w3, e1, e2]
      simp [List.append_assoc]
    · rw [List.foldl_cons, i3, w3, List.length_cons]
      omega

/-- `insert` on a well-formed buffer splices the text in at the clamped
offset. -/
theorem insert_spec (gb : GapBuffer) (pos : Nat) (text : List Char)
    (h : gb.WF) :
    (gb.insert pos text).WF ∧
    (gb.insert pos text).to_string
      = gb.to_string.take (min pos gb.len) ++ text
        ++ gb.to_string.drop (min pos gb.len) ∧
    (gb.insert pos text).gap_start = min pos gb.len + text.length := by
  obtain ⟨m1, m2, m3, m4, m5⟩ := move_gap_to_spec gb pos h
  obtain ⟨f1, f2, f3⟩ := foldl_insert_char_spec text (gb.move_gap_to pos) m2
  refine ⟨f1, ?_, ?_⟩
  · show (text.foldl insert_char (gb.move_gap_to pos)).to_string = _
    rw [f2, m1, m3]
  · show (text.foldl insert_char (gb.move_gap_to pos)).gap_start = _
    rw [f3, m3]

/-- `delete_backward` preserves the invariant; with the gap away from
offset 0 it removes the character before the edit point. -/
theorem delete_backward_spec (gb : GapBuffer) (h : gb.WF) :
    (gb.delete_backward).WF ∧
    (gb.delete_backward).to_string
      = (if 0 < gb.gap_start then
          gb.to_string.take (gb.gap_start - 1) ++ gb.to_string.drop gb.gap_start
        else gb.to_string) ∧
    (gb.delete_backward).gap_start
      = (if 0 < gb.gap_start then gb.gap_start - 1 else gb.gap_start) := by
  obtain ⟨h1, h2⟩ := h
  unfold delete_backward
  by_cases hz : 0 < gb.gap_start
  · rw [if_pos hz, if_pos hz, if_pos hz]
    refine ⟨⟨show gb.gap_start - 1 ≤ gb.gap_end from by omega, h2⟩, ?_, rfl⟩
    show gb.buffer.take (gb.gap_start - 1) ++ gb.buffer.drop gb.gap_end = _
    have ha : gb.to_string.take (gb.gap_start - 1)
        = gb.buffer.take (gb.gap_start - 1) := by
      show (gb.buffer.take gb.gap_start ++ gb.buffer.drop gb.gap_end).take
        (gb.gap_start - 1) = _
      rw [List.take_append_of_le_length (by rw [List.length_take]; omega)]
      rw [List.take_take, Nat.min_eq_left (by omega)]
    rw [ha, to_string_drop_gap gb ⟨h1, h2⟩]
  · rw [if_neg hz, if_neg hz, if_neg hz]
    exact ⟨⟨h1, h2⟩, rfl, rfl⟩

end GapBuffer

namespace GapBuffer

/-- `delete_forward` preserves the invariant; with text after the gap it
removes the character at the edit point. -/
theorem delete_forward_spec (gb : GapBuffer) (h : gb.WF) :
    (gb.delete_forward).WF ∧
    (gb.delete_forward).to_string
      = (if gb.gap_end < gb.buffer.length then
          gb.to_string.take gb.gap_start ++ gb.to_string.drop (gb.gap_start + 1)
        else gb.to_string) ∧
    (gb.delete_forward).gap_start = gb.gap_start := by
  obtain ⟨h1, h2⟩ := h
  have hl : (gb.buffer.take gb.gap_start).length = gb.gap_start := by
    rw [List.length_take]
    omega
  unfold delete_forward
  by_cases hz : gb.gap_end < gb.buffer.length
  · rw [if_pos hz]
    refine ⟨⟨show gb.gap_start ≤ gb.gap_end + 1 from by omega,
      show gb.gap_end + 1 ≤ gb.buffer.length from by omega⟩, ?_, rfl⟩
    show gb.buffer.take gb.gap_start ++ gb.buffer.drop (gb.gap_end + 1) = _
    have hb : gb.to_string.drop (gb.gap_start + 1)
        = gb.buffer.drop (gb.gap_end + 1) := by
      show (gb.buffer.take gb.gap_start ++ gb.buffer.drop gb.gap_end).drop
        (gb.gap_start + 1) = _
      rw [List.drop_append_eq_append_drop, hl]
      rw [List.drop_eq_nil_of_le (by omega), List.nil_append]
      rw [show gb.gap_start + 1 - gb.gap_start = 1 from by omega]
      rw [List.drop_drop]
    rw [to_string_take_gap gb ⟨h1, h2⟩, hb, if_pos hz]
  · rw [if_neg hz]
    refine ⟨⟨h1, h2⟩, ?_, rfl⟩
    rw [if_neg hz]

/-- `delete_range` preserves the invariant. -/
theorem delete_range_wf (gb : GapBuffer) (a b : Nat) (h : gb.WF) :
    (gb.delete_range a b).WF := by
  simp only [delete_range]
  by_cases hc : min a gb.len ≥ min b gb.len
  · rw [if_pos hc]
    exact h
  · rw [if_neg hc]
    obtain ⟨m1, ⟨w1, w2⟩, m3, m4, m5⟩ := move_gap_to_spec gb (min a gb.len) h
    constructor
    · show (gb.move_gap_to (min a gb.len)).gap_start
        ≤ min ((gb.move_gap_to (min a gb.len)).gap_end
            + (min b gb.len - min a gb.len))
          (gb.move_gap_to (min a gb.len)).buffer.length
      omega
    · show min ((gb.move_gap_to (min a gb.len)).gap_end
            + (min b gb.len - min a gb.len))
          (gb.move_gap_to (min a gb.len)).buffer.length
        ≤ (gb.move_gap_to (min a gb.len)).buffer.length
      omega

/-- `new` satisfies the invariant. -/
theorem new_wf : GapBuffer.new.WF := by
  constructor
  · show 0 ≤ 64
    omega
  · show 64 ≤ (List.replicate 64 '\x00').length
    rw [List.length_replicate]

/-- `from_text` satisfies the invariant. -/
theorem from_text_wf (text : List Char) : (GapBuffer.from_text text).WF := by
  constructor
  · show text.length ≤ text.length + max 64 (text.length / 4)
    omega
  · show text.length + max 64 (text.length / 4)
      ≤ (text ++ List.replicate (max 64 (text.length / 4)) '\x00').length
    rw [List.length_append, List.length_replicate]

/-- `from_lines` satisfies the invariant. -/
theorem from_lines_wf (lines : List (List Char)) :
    (GapBuffer.from_lines lines).WF :=
  from_text_wf _

/-- `insert_char` preserves the invariant. -/
theorem insert_char_wf (gb : GapBuffer) (ch : Char) (h : gb.WF) :
    (gb.insert_char ch).WF :=
  (insert_char_spec gb ch h).1

/-- `insert` preserves the invariant. -/
theorem insert_wf (gb : GapBuffer) (p : Nat) (text : List Char) (h : gb.WF) :
    (gb.insert p text).WF :=
  (insert_spec gb p text h).1

end GapBuffer

/-- Byte offset of the start of row `r` within the joined line list: each
earlier line contributes its length plus one newline (the newline is
omitted only after the last line). -/
def preLen : List (List Char) → Nat → Nat
  | _, 0 => 0
  | [], _ + 1 => 0
  | l :: ls, r + 1 => utf8Len l + (if ls = [] then 0 else 1) + preLen ls r

theorem ctpLoop_eq (ls : List (List Char)) (r c pos : Nat) (h : r < ls.length) :
    GapBuffer.ctpLoop ls r c pos
      = pos + preLen ls r + min c (utf8Len (ls.getD r [])) := by
  induction ls generalizing r pos with
  | nil => simp at h
  | cons l rest ih =>
    cases r with
    | zero =>
      show GapBuffer.ctpLoop (l :: rest) 0 c pos = _
      rw [GapBuffer.ctpLoop]
      rw [if_pos rfl]
      show pos + min c (utf8Len l) = pos + preLen (l :: rest) 0 + min c (utf8Len l)
      rw [show preLen (l :: rest) 0 = 0 from rfl]
      omega
    | succ rr =>
      have hr : rr < rest.length := by simpa using h
      rw [GapBuffer.ctpLoop]
      rw [if_neg (by omega)]
      rw [show rr + 1 - 1 = rr from by omega]
      rw [ih rr _ hr]
      rw [show preLen (l :: rest) (rr + 1)
        = utf8Len l + (if rest = [] then 0 else 1) + preLen rest rr from rfl]
      rw [show (l :: rest).getD (rr + 1) [] = rest.getD rr [] from rfl]
      omega

theorem ptcLoop_eq (ls : List (List Char)) (r c row0 cur : Nat)
    (h : r < ls.length) :
    GapBuffer.ptcLoop ls row0 cur
        (cur + preLen ls r + min c (utf8Len (ls.getD r [])))
      = some (row0 + r, min c (utf8Len (ls.getD r []))) := by
  induction ls generalizing r row0 cur with
  | nil => simp at h
  | cons l rest ih =>
    cases r with
    | zero =>
      rw [GapBuffer.ptcLoop]
      rw [show (l :: rest).getD 0 [] = l from rfl]
      rw [show preLen (l :: rest) 0 = 0 from rfl]
      rw [if_pos (by omega)]
      rw [show cur + 0 + min c (utf8Len l) - cur = min c (utf8Len l) from by omega]
      rw [Nat.add_zero]
    | succ rr =>
      have hr : rr < rest.length := by simpa using h
      have hrest : rest ≠ [] := by
        intro hx
        rw [hx] at hr
        simp at hr
      rw [show (l :: rest).getD (rr + 1) [] = rest.getD rr [] from rfl]
      rw [show preLen (l :: rest) (rr + 1)
        = utf8Len l + (if rest = [] then 0 else 1) + preLen rest rr from rfl]
      rw [if_neg hrest]
      rw [GapBuffer.ptcLoop]
      rw [if_neg (by omega)]
      rw [if_neg hrest]
      have hpos : cur + (utf8Len l + 1 + preLen rest rr)
            + min c (utf8Len (rest.getD rr []))
          = (cur + utf8Len l + 1) + preLen rest rr
            + min c (utf8Len (rest.getD rr [])) := by
        omega
      rw [hpos]
      rw [ih rr (row0 + 1) (cur + utf8Len l + 1) hr]
      rw [show row0 + 1 + rr = row0 + (rr + 1) from by omega]

theorem utf8Len_joinSep_cons (l : List Char) (rest : List (List Char)) :
    utf8Len (joinSep '\n' (l :: rest))
      = utf8Len l + (if rest = [] then 0 else 1 + utf8Len (joinSep '\n' rest)) := by
  cases rest with
  | nil =>
    rw [if_pos rfl]
    show utf8Len l = utf8Len l + 0
    omega
  | cons m ms =>
    rw [if_neg (by simp)]
    rw [joinSep_cons_cons, utf8Len_append, utf8Len_cons]
    rw [show charBytes '\n' = 1 from rfl]

theorem preLen_add_le (ls : List (List Char)) (r : Nat) (h : r < ls.length) :
    preLen ls r + utf8Len (ls.getD r []) ≤ utf8Len (joinSep '\n' ls) := by
  induction ls generalizing r with
  | nil => simp at h
  | cons l rest ih =>
    rw [utf8Len_joinSep_cons]
    cases r with
    | zero =>
      rw [show preLen (l :: rest) 0 = 0 from rfl]
      rw [show (l :: rest).getD 0 [] = l from rfl]
      split <;> omega
    | succ rr =>
      have hr : rr < rest.length := by simpa using h
      have hrest : rest ≠ [] := by
        intro hx
        rw [hx] at hr
        simp at hr
      rw [show preLen (l :: rest) (rr + 1)
        = utf8Len l + (if rest = [] then 0 else 1) + preLen rest rr from rfl]
      rw [show (l :: rest).getD (rr + 1) [] = rest.getD rr [] from rfl]
      rw [if_neg hrest, if_neg hrest]
      have := ih rr hr
      omega

namespace GapBuffer

theorem to_lines_eq_split (gb : GapBuffer) :
    gb.to_lines = splitOnChar '\n' gb.to_string := by
  unfold to_lines
  by_cases ht : gb.to_string = []
  · rw [if_pos ht, ht]
    rfl
  · rw [if_neg ht]
    rw [if_neg (splitOnChar_ne_nil '\n' gb.to_string)]

theorem line_count_eq_split (gb : GapBuffer) :
    gb.line_count = (splitOnChar '\n' gb.to_string).length := by
  unfold line_count
  by_cases ht : gb.to_string = []
  · rw [if_pos ht, ht]
    rfl
  · rw [if_neg ht]
    have h1 : 1 ≤ (splitOnChar '\n' gb.to_string).length := by
      cases hx : splitOnChar '\n' gb.to_string with
      | nil => exact absurd hx (splitOnChar_ne_nil '\n' gb.to_string)
      | cons a b => simp
    omega

theorem line_len_eq_split (gb : GapBuffer) (r : Nat)
    (h : r < (splitOnChar '\n' gb.to_string).length) :
    gb.line_len r = utf8Len ((splitOnChar '\n' gb.to_string).getD r []) := by
  unfold line_len all_lines
  rw [to_lines_eq_split]
  rw [List.get?_eq_getElem?]
  rw [List.getElem?_eq_getElem h]
  rw [List.getD_eq_getElem?_getD, List.getElem?_eq_getElem h]
  rfl

end GapBuffer

namespace GapBuffer

/-- C2: round-trip law of the line index: for every `GapBuffer`, every row
`r < line_count` and every column `c`,
`position_to_cursor (cursor_to_position r c) = (r, min c (line_len r))` —
the forward map clamps the column to the row's byte length and each line
boundary contributes exactly one newline unit. -/
theorem c2_roundtrip (gb : GapBuffer) (r c : Nat) (h : r < gb.line_count) :
    gb.position_to_cursor (gb.cursor_to_position r c)
      = (r, min c (gb.line_len r)) := by
  have hr : r < (splitOnChar '\n' gb.to_string).length := by
    rw [← line_count_eq_split]
    exact h
  have hc : gb.cursor_to_position r c
      = preLen (splitOnChar '\n' gb.to_string) r
        + min c (utf8Len ((splitOnChar '\n' gb.to_string).getD r [])) := by
    unfold cursor_to_position
    rw [ctpLoop_eq _ r c 0 hr]
    omega
  have hb : gb.cursor_to_position r c ≤ utf8Len gb.to_string := by
    rw [hc]
    have h2 := preLen_add_le (splitOnChar '\n' gb.to_string) r hr
    have h3 : utf8Len (joinSep '\n' (splitOnChar '\n' gb.to_string))
        = utf8Len gb.to_string := by
      rw [joinSep_splitOnChar]
    omega
  have key : ptcLoop (splitOnChar '\n' gb.to_string) 0 0
        (preLen (splitOnChar '\n' gb.to_string) r
          + min c (utf8Len ((splitOnChar '\n' gb.to_string).getD r [])))
      = some (r, min c (utf8Len ((splitOnChar '\n' gb.to_string).getD r []))) := by
    have h4 := ptcLoop_eq (splitOnChar '\n' gb.to_string) r c 0 0 hr
    simpa using h4
  simp only [position_to_cursor]
  rw [Nat.min_eq_left hb]
  rw [hc, key]
  show (r, min c (utf8Len ((splitOnChar '\n' gb.to_string).getD r [])))
    = (r, min c (gb.line_len r))
  rw [line_len_eq_split gb r hr]

/-- C2 witness at a concrete buffer, row and column. -/
theorem c2_roundtrip_witness :
    (GapBuffer.from_text ['a', '\n', 'b', 'b']).position_to_cursor
        ((GapBuffer.from_text ['a', '\n', 'b', 'b']).cursor_to_position 1 7)
      = (1, min 7 ((GapBuffer.from_text ['a', '\n', 'b', 'b']).line_len 1)) :=
  c2_roundtrip (GapBuffer.from_text ['a', '\n', 'b', 'b']) 1 7 (by decide)

/-- C3: content preservation under gap movement: for a well-formed buffer,
`move_gap_to p` never changes `to_string`, lands the gap at
`min p len` (clamping an offset beyond the content length), and is the
identity when `p` already equals `gap_start`. -/
theorem c3_move_gap_content (gb : GapBuffer) (p : Nat) (h : gb.WF) :
    (gb.move_gap_to p).to_string = gb.to_string ∧
    (gb.move_gap_to p).gap_start = min p gb.len ∧
    (p = gb.gap_start → gb.move_gap_to p = gb) := by
  obtain ⟨m1, m2, m3, m4, m5⟩ := move_gap_to_spec gb p h
  refine ⟨m1, m3, ?_⟩
  intro hp
  apply move_gap_to_eq_self
  rw [hp]
  exact Nat.min_eq_left (gap_start_le_len gb h)

/-- C3 witness at a concrete buffer and offset (an offset past the end,
exercising the clamp). -/
theorem c3_move_gap_content_witness :
    ((GapBuffer.from_text ['a', 'b', 'c']).move_gap_to 99).to_string
        = (GapBuffer.from_text ['a', 'b', 'c']).to_string ∧
    ((GapBuffer.from_text ['a', 'b', 'c']).move_gap_to 99).gap_start
        = min 99 (GapBuffer.from_text ['a', 'b', 'c']).len ∧
    (99 = (GapBuffer.from_text ['a', 'b', 'c']).gap_start →
      (GapBuffer.from_text ['a', 'b', 'c']).move_gap_to 99
        = GapBuffer.from_text ['a', 'b', 'c']) :=
  c3_move_gap_content (GapBuffer.from_text ['a', 'b', 'c']) 99
    (from_text_wf ['a', 'b', 'c'])

/-- C4: the gap structural invariant `gap_start ≤ gap_end ≤ capacity`
holds for every constructor and is preserved by every operation (including
the internal `grow_gap`), and the concatenation of the pre-gap and
post-gap regions is exactly the document content `to_string`. -/
theorem c4_gap_invariant :
    GapBuffer.new.WF ∧
    (∀ text, (GapBuffer.from_text text).WF) ∧
    (∀ lines, (GapBuffer.from_lines lines).WF) ∧
    (∀ gb : GapBuffer, gb.WF → ∀ p, (gb.move_gap_to p).WF) ∧
    (∀ gb : GapBuffer, gb.WF → ∀ ch, (gb.insert_char ch).WF) ∧
    (∀ gb : GapBuffer, gb.WF → ∀ p text, (gb.insert p text).WF) ∧
    (∀ gb : GapBuffer, gb.WF → gb.delete_backward.WF) ∧
    (∀ gb : GapBuffer, gb.WF → gb.delete_forward.WF) ∧
    (∀ gb : GapBuffer, gb.WF → ∀ a b, (gb.delete_range a b).WF) ∧
    (∀ gb : GapBuffer, gb.WF → gb.grow_gap.WF) ∧
    (∀ gb : GapBuffer,
      gb.to_string = gb.buffer.take gb.gap_start ++ gb.buffer.drop gb.gap_end) := by
  refine ⟨new_wf, from_text_wf, from_lines_wf, ?_, ?_, ?_, ?_, ?_, ?_, ?_, ?_⟩
  · intro gb h p
    exact (move_gap_to_spec gb p h).2.1
  · intro gb h ch
    exact insert_char_wf gb ch h
  · intro gb h p text
    exact insert_wf gb p text h
  · intro gb h
    exact (delete_backward_spec gb h).1
  · intro gb h
    exact (delete_forward_spec gb h).1
  · intro gb h a b
    exact delete_range_wf gb a b h
  · intro gb h
    exact grow_gap_wf gb h
  · intro gb
    rfl

/-- C4 witness: the invariant clauses applied at a concrete buffer and
operation. -/
theorem c4_gap_invariant_witness :
    ((GapBuffer.from_text ['x', 'y']).insert 1 ['z']).WF :=
  c4_gap_invariant.2.2.2.2.2.1 (GapBuffer.from_text ['x', 'y'])
    (GapBuffer.from_text_wf ['x', 'y']) 1 ['z']

end GapBuffer

/-!
`SimpleBuffer` (`src/text_buffer.rs`): a `Vec<String>` of lines, kept
non-empty by the constructor.  Its byte-indexed edit operations can panic
on a non-boundary or out-of-range byte index, so they return `Option`.
-/

structure SimpleBuffer where
  lines : List (List Char)
deriving DecidableEq

namespace SimpleBuffer

/-- `SimpleBuffer::new`: ensures at least one line. -/
def new (lines : List (List Char)) : SimpleBuffer :=
  if lines = [] then { lines := [[]] } else { lines := lines }

/-- The CRLF stripping of Rust `str::lines()`: a piece that was
terminated by `'\n'` loses a final `'\r'`. -/
def stripCr (l : List Char) : List Char :=
  if l.getLast? = some '\r' then l.dropLast else l

/-- Rust `str::lines()` collected to a vector: splits on `'\n'`, strips a
`'\r'` that immediately preceded each `'\n'` (CRLF line endings), and
drops the final empty piece left by a trailing newline.  The last piece
was not terminated by `'\n'`, so it keeps a final `'\r'`. -/
def rustLines (s : List Char) : List (List Char) :=
  let ps := splitOnChar '\n' s
  let ls := ps.dropLast.map stripCr ++ [ps.getLast?.getD []]
  if ls.getLast? = some [] then ls.dropLast else ls

/-- `SimpleBuffer::from_text`. -/
def from_text (text : List Char) : SimpleBuffer :=
  new (rustLines text)

/-- `<SimpleBuffer as TextBuffer>::line_count`. -/
def line_count (sb : SimpleBuffer) : Nat := sb.lines.length

/-- `<SimpleBuffer as TextBuffer>::get_line`. -/
def get_line (sb : SimpleBuffer) (line_idx : Nat) : Option (List Char) :=
  sb.lines.get? line_idx

/-- `<SimpleBuffer as TextBuffer>::line_len` (trait default through
`get_line`). -/
def line_len (sb : SimpleBuffer) (line_idx : Nat) : Nat :=
  ((sb.get_line line_idx).map utf8Len).getD 0

/-- `<SimpleBuffer as TextBuffer>::all_lines`. -/
def all_lines (sb : SimpleBuffer) : List (List Char) := sb.lines

/-- `<SimpleBuffer as TextBuffer>::insert_at`.  A multi-line text is split
on `'\n'`; the successive `Vec::insert` calls of the loop leave exactly
the spliced line list built here.  `none` models a byte-boundary panic in
the slicing; a row out of range returns the buffer unchanged. -/
def insert_at (sb : SimpleBuffer) (row col : Nat) (text : List Char) :
    Option SimpleBuffer :=
  if row < sb.lines.length then do
    let line := sb.lines.getD row []
    let col := min col (utf8Len line)
    if text.contains '\n' then do
      let new_lines := splitOnChar '\n' text
      let first_part ← byteTake line col
      let last_part ← byteDrop line col
      let mid := (new_lines.drop 1).dropLast
      let lastNew := new_lines.getLast?.getD []
      pure { lines := sb.lines.take row
          ++ [first_part ++ new_lines.headI]
          ++ mid
          ++ [lastNew ++ last_part]
          ++ sb.lines.drop (row + 1) }
    else do
      let line2 ← (byteSplit line col).map fun p => p.1 ++ text ++ p.2
      pure { lines := sb.lines.set row line2 }
  else pure sb

/-- `<SimpleBuffer as TextBuffer>::delete_at`. -/
def delete_at (sb : SimpleBuffer) (row col : Nat) : Option SimpleBuffer :=
  if row < sb.lines.length then
    let line := sb.lines.getD row []
    if col < utf8Len line then do
      let line2 ← byteRemoveAt line col
      pure { lines := sb.lines.set row line2 }
    else if row < sb.lines.length - 1 then
      let next_line := sb.lines.getD (row + 1) []
      pure { lines := (sb.lines.eraseIdx (row + 1)).set row (line ++ next_line) }
    else pure sb
  else pure sb

/-- `<SimpleBuffer as TextBuffer>::backspace_at`. -/
def backspace_at (sb : SimpleBuffer) (row col : Nat) : Option SimpleBuffer :=
  if row < sb.lines.length then
    let line := sb.lines.getD row []
    if 0 < col then do
      let line2 ← byteRemoveAt line (col - 1)
      pure { lines := sb.lines.set row line2 }
    else if 0 < row then
      let prev := sb.lines.getD (row - 1) []
      pure { lines := (sb.lines.eraseIdx row).set (row - 1) (prev ++ line) }
    else pure sb
  else pure sb

end SimpleBuffer

/-!
The editor (`src/editor.rs`).  Only the fields the editing/cursor logic
reads are embedded: the `SimpleBuffer`, the cursor, the optional goal
column and selection anchor, the language name, and the highlighter state.
`EditorConfig`, the GPUI element id and font data never feed back into
these operations.  Panicking paths (row indexing, byte slicing) are
`Option`-returning.
-/

structure CursorPosition where
  row : Nat
  col : Nat
deriving DecidableEq

/-- Modelled from the spec: `SyntaxHighlighter::clear_state_from_line` and
`SyntaxHighlighter::reset_state` are called throughout `editor.rs` but
their definitions are not in the sources; per the spec the highlight
cache "holds the lexer state and colorizer state as they existed at the
start of a given line", keyed by language, and an edit on row `r`
"discards all cached states associated with rows ≥ r for the active
language".  The cache is therefore modelled as entries keyed by
(language, row) with values of an abstract state type `σ`. -/
abbrev HCache (σ : Type) : Type := List ((String × Nat) × σ)

/-- Modelled from the spec: `clear_state_from_line(line_index, language)`
discards every cached state of this language associated with a row
`≥ line_index`; entries of other languages or earlier rows are kept. -/
def clear_state_from_line {σ : Type} (cache : HCache σ) (line_index : Nat)
    (language : String) : HCache σ :=
  cache.filter fun e => decide ¬ (e.1.1 = language ∧ line_index ≤ e.1.2)

/-- Modelled from the spec: `reset_state` discards all cached states
("bulk content replacement: discards all cached states"). -/
def reset_state {σ : Type} (_cache : HCache σ) : HCache σ := []

structure Editor (σ : Type) where
  buffer : SimpleBuffer
  cursor_position : CursorPosition
  goal_column : Option Nat
  selection_anchor : Option CursorPosition
  language : String
  cache : HCache σ

namespace Editor

variable {σ : Type}

/-- `Editor::new` (the GPUI id, config and fonts are not modelled; the
language is the syntect auto-detection result, passed through as a
value since syntect is external). -/
def new (lines : List (List Char)) (language : String) : Editor σ :=
  { buffer := SimpleBuffer.new lines
    cursor_position := ⟨0, 0⟩
    goal_column := none
    selection_anchor := none
    language := language
    cache := [] }

/-- `Editor::set_cursor_position`: stores the position unclamped and
resets the goal column. -/
def set_cursor_position (e : Editor σ) (position : CursorPosition) : Editor σ :=
  { e with cursor_position := position, goal_column := none }

/-- `Editor::clear_selection`. -/
def clear_selection (e : Editor σ) : Editor σ :=
  { e with selection_anchor := none, goal_column := none }

/-- `Editor::update_buffer`: replaces the buffer wholesale and resets the
highlighter state. -/
def update_buffer (e : Editor σ) (lines : List (List Char)) : Editor σ :=
  { e with buffer := SimpleBuffer.new lines, cache := reset_state e.cache }

/-- `Editor::update_line`. -/
def update_line (e : Editor σ) (line_index : Nat) (new_content : List Char) :
    Editor σ :=
  if line_index < e.buffer.lines.length then
    { e with buffer := SimpleBuffer.new (e.buffer.lines.set line_index new_content)
             cache := clear_state_from_line e.cache line_index e.language }
  else e

/-- The anchor-handling prelude shared by the four movement methods:
holding shift starts a selection at the current cursor if none exists;
without shift the anchor is cleared. -/
def handleAnchor (e : Editor σ) (shift_held : Bool) : Editor σ :=
  if shift_held ∧ e.selection_anchor = none then
    { e with selection_anchor := some e.cursor_position }
  else if ¬ shift_held then
    { e with selection_anchor := none }
  else e

/-- `Editor::move_left`. -/
def move_left (e : Editor σ) (shift_held : Bool) : Editor σ :=
  let e := handleAnchor e shift_held
  let e := { e with goal_column := none }
  if 0 < e.cursor_position.col then
    { e with cursor_position :=
        ⟨e.cursor_position.row, e.cursor_position.col - 1⟩ }
  else if 0 < e.cursor_position.row then
    { e with cursor_position :=
        ⟨e.cursor_position.row - 1,
         e.buffer.line_len (e.cursor_position.row - 1)⟩ }
  else e

/-- `Editor::move_right`. -/
def move_right (e : Editor σ) (shift_held : Bool) : Editor σ :=
  let e := handleAnchor e shift_held
  let e := { e with goal_column := none }
  let current_line_len := e.buffer.line_len e.cursor_position.row
  if e.cursor_position.col < current_line_len then
    { e with cursor_position :=
        ⟨e.cursor_position.row, e.cursor_position.col + 1⟩ }
  else if e.cursor_position.row < e.buffer.line_count - 1 then
    { e with cursor_position := ⟨e.cursor_position.row + 1, 0⟩ }
  else e

/-- `Editor::move_up`. -/
def move_up (e : Editor σ) (shift_held : Bool) : Editor σ :=
  let e := handleAnchor e shift_held
  if 0 < e.cursor_position.row then
    let e := if e.goal_column = none then
        { e with goal_column := some e.cursor_position.col }
      else e
    let row := e.cursor_position.row - 1
    let line_len := e.buffer.line_len row
    { e with cursor_position :=
        ⟨row, min (e.goal_column.getD e.cursor_position.col) line_len⟩ }
  else e

/-- `Editor::move_down`. -/
def move_down (e : Editor σ) (shift_held : Bool) : Editor σ :=
  let e := handleAnchor e shift_held
  if e.cursor_position.row < e.buffer.line_count - 1 then
    let e := if e.goal_column = none then
        { e with goal_column := some e.cursor_position.col }
      else e
    let row := e.cursor_position.row + 1
    let line_len := e.buffer.line_len row
    { e with cursor_position :=
        ⟨row, min (e.goal_column.getD e.cursor_position.col) line_len⟩ }
  else e

/-- `Editor::select_all`. -/
def select_all (e : Editor σ) : Editor σ :=
  let last_row := e.buffer.line_count - 1
  { e with goal_column := none
           selection_anchor := some ⟨0, 0⟩
           cursor_position := ⟨last_row, e.buffer.line_len last_row⟩ }

/-- `Editor::has_selection`. -/
def has_selection (e : Editor σ) : Bool :=
  e.selection_anchor.isSome

/-- `Editor::get_selection_range`: the anchor and live cursor ordered in
document order (row-major, then column). -/
def get_selection_range (e : Editor σ) :
    Option (CursorPosition × CursorPosition) :=
  e.selection_anchor.map fun anchor =>
    if anchor.row < e.cursor_position.row
        ∨ (anchor.row = e.cursor_position.row
           ∧ anchor.col < e.cursor_position.col) then
      (anchor, e.cursor_position)
    else
      (e.cursor_position, anchor)

/-- `Editor::delete_selection`.  Returns the updated editor and the `bool`
the Rust method returns; `none` models a panic (row out of range or a
byte index off a character boundary). -/
def delete_selection (e : Editor σ) : Option (Editor σ × Bool) :=
  match e.get_selection_range with
  | none => some (e, false)
  | some (s, en) =>
    if s.row = en.row then do
      let line ← e.buffer.lines.get? s.row
      let a ← byteTake line (min s.col (utf8Len line))
      let b ← byteDrop line (min en.col (utf8Len line))
      let lines := e.buffer.lines.set s.row (a ++ b)
      pure ({ e with buffer := SimpleBuffer.new lines
                     cursor_position := s
                     selection_anchor := none
                     goal_column := none
                     cache := clear_state_from_line e.cache s.row e.language },
            true)
    else do
      let first_line ← e.buffer.lines.get? s.row
      let last_line ← e.buffer.lines.get? en.row
      let a ← byteTake first_line (min s.col (utf8Len first_line))
      let b ← byteDrop last_line (min en.col (utf8Len last_line))
      let lines := e.buffer.lines.take s.row
        ++ [a ++ b] ++ e.buffer.lines.drop (en.row + 1)
      pure ({ e with buffer := SimpleBuffer.new lines
                     cursor_position := s
                     selection_anchor := none
                     goal_column := none
                     cache := clear_state_from_line e.cache s.row e.language },
            true)

/-- `Editor::get_selected_text`. -/
def get_selected_text (e : Editor σ) : Option (List Char) :=
  match e.get_selection_range with
  | none => some []
  | some (s, en) =>
    if s.row = en.row then do
      let line ← e.buffer.lines.get? s.row
      byteSlice line (min s.col (utf8Len line)) (min en.col (utf8Len line))
    else
      if en.row < e.buffer.lines.length then do
        let first_line := e.buffer.lines.getD s.row []
        let last_line := e.buffer.lines.getD en.row []
        let a ← byteDrop first_line (min s.col (utf8Len first_line))
        let b ← byteTake last_line (min en.col (utf8Len last_line))
        let mids := (e.buffer.lines.drop (s.row + 1)).take (en.row - (s.row + 1))
        pure (a ++ '\n' :: (mids.foldr (fun l acc => l ++ '\n' :: acc) b))
      else none

/-- `Editor::insert_char`. -/
def insert_char (e : Editor σ) (ch : Char) : Option (Editor σ) := do
  let (e, _) ← e.delete_selection
  let line ← e.buffer.lines.get? e.cursor_position.row
  let insert_pos := min e.cursor_position.col (utf8Len line)
  let line2 ← byteInsert line insert_pos ch
  let lines := e.buffer.lines.set e.cursor_position.row line2
  pure { e with buffer := SimpleBuffer.new lines
                cursor_position :=
                  ⟨e.cursor_position.row, e.cursor_position.col + 1⟩
                goal_column := none
                cache := clear_state_from_line e.cache
                  e.cursor_position.row e.language }

/-- `Editor::insert_newline`.  The cache is cleared from
`row.saturating_sub(1)` computed after the row increment, i.e. from the
original row. -/
def insert_newline (e : Editor σ) : Option (Editor σ) := do
  let (e, _) ← e.delete_selection
  let current_line ← e.buffer.lines.get? e.cursor_position.row
  let (before, after) ← byteSplit current_line
    (min e.cursor_position.col (utf8Len current_line))
  let lines := e.buffer.lines.set e.cursor_position.row before
  let lines := lines.insertIdx (e.cursor_position.row + 1) after
  pure { e with buffer := SimpleBuffer.new lines
                cursor_position := ⟨e.cursor_position.row + 1, 0⟩
                goal_column := none
                cache := clear_state_from_line e.cache
                  (e.cursor_position.row + 1 - 1) e.language }

/-- `Editor::backspace`. -/
def backspace (e : Editor σ) : Option (Editor σ) := do
  let (e1, deleted) ← e.delete_selection
  if deleted then
    pure e1
  else if 0 < e1.cursor_position.col then do
    let line ← e1.buffer.lines.get? e1.cursor_position.row
    let line2 ← if e1.cursor_position.col ≤ utf8Len line then
        byteRemoveAt line (e1.cursor_position.col - 1)
      else pure line
    let lines := e1.buffer.lines.set e1.cursor_position.row line2
    pure { e1 with buffer := SimpleBuffer.new lines
                   cursor_position :=
                     ⟨e1.cursor_position.row, e1.cursor_position.col - 1⟩
                   goal_column := none
                   cache := clear_state_from_line e1.cache
                     e1.cursor_position.row e1.language }
  else if 0 < e1.cursor_position.row then do
    let current_line ← e1.buffer.lines.get? e1.cursor_position.row
    let lines := e1.buffer.lines.eraseIdx e1.cursor_position.row
    let prev ← lines.get? (e1.cursor_position.row - 1)
    let prev_line_len := utf8Len prev
    let lines := lines.set (e1.cursor_position.row - 1) (prev ++ current_line)
    pure { e1 with buffer := SimpleBuffer.new lines
                   cursor_position :=
                     ⟨e1.cursor_position.row - 1, prev_line_len⟩
                   goal_column := none
                   cache := clear_state_from_line e1.cache
                     (e1.cursor_position.row - 1) e1.language }
  else
    pure { e1 with goal_column := none }

/-- `Editor::delete`. -/
def delete (e : Editor σ) : Option (Editor σ) := do
  let (e1, deleted) ← e.delete_selection
  if deleted then
    pure e1
  else
    let current_line_len := e1.buffer.line_len e1.cursor_position.row
    if e1.cursor_position.col < current_line_len then do
      let line ← e1.buffer.lines.get? e1.cursor_position.row
      let line2 ← if e1.cursor_position.col < utf8Len line then
          byteRemoveAt line e1.cursor_position.col
        else pure line
      let lines := e1.buffer.lines.set e1.cursor_position.row line2
      pure { e1 with buffer := SimpleBuffer.new lines
                     goal_column := none
                     cache := clear_state_from_line e1.cache
                       e1.cursor_position.row e1.language }
    else if e1.cursor_position.row < e1.buffer.line_count - 1 then do
      let next_line ← e1.buffer.lines.get? (e1.cursor_position.row + 1)
      let lines := e1.buffer.lines.eraseIdx (e1.cursor_position.row + 1)
      let cur ← lines.get? e1.cursor_position.row
      let lines := lines.set e1.cursor_position.row (cur ++ next_line)
      pure { e1 with buffer := SimpleBuffer.new lines
                     goal_column := none
                     cache := clear_state_from_line e1.cache
                       e1.cursor_position.row e1.language }
    else
      pure { e1 with goal_column := none }

end Editor

namespace Editor

/-- Characterization of `move_up`: the anchor prelude never touches the
cursor or goal column; off the first row the goal column is captured (if
unset) and the column clamps to the target row's length. -/
theorem move_up_spec (σ : Type) (e : Editor σ) (shift : Bool) :
    ((e.move_up shift).cursor_position, (e.move_up shift).goal_column)
      = if 0 < e.cursor_position.row then
          (⟨e.cursor_position.row - 1,
            min (e.goal_column.getD e.cursor_position.col)
                (e.buffer.line_len (e.cursor_position.row - 1))⟩,
           some (e.goal_column.getD e.cursor_position.col))
        else (e.cursor_position, e.goal_column) := by
  simp only [Editor.move_up, Editor.handleAnchor]
  cases hgoal : e.goal_column with
  | none => split_ifs <;> simp_all
  | some g => split_ifs <;> simp_all

/-- Characterization of `move_down`, symmetric to `move_up_spec`. -/
theorem move_down_spec (σ : Type) (e : Editor σ) (shift : Bool) :
    ((e.move_down shift).cursor_position, (e.move_down shift).goal_column)
      = if e.cursor_position.row < e.buffer.line_count - 1 then
          (⟨e.cursor_position.row + 1,
            min (e.goal_column.getD e.cursor_position.col)
                (e.buffer.line_len (e.cursor_position.row + 1))⟩,
           some (e.goal_column.getD e.cursor_position.col))
        else (e.cursor_position, e.goal_column) := by
  simp only [Editor.move_down, Editor.handleAnchor]
  cases hgoal : e.goal_column with
  | none => split_ifs <;> simp_all
  | some g => split_ifs <;> simp_all

end Editor

/-- The scenario editor of C8: document `"a\nbb\nccc"` with the cursor
placed at (2,2). -/
def eDemoC8 : Editor Nat :=
  (Editor.new [['a'], ['b', 'b'], ['c', 'c', 'c']] "Rust").set_cursor_position
    ⟨2, 2⟩

/-- C8: vertical movement with goal column.  Off the first (resp. last)
row, `move_up` (resp. `move_down`) captures the current column as the goal
column if none is set, moves exactly one row, and clamps the column to
`min (goal column) (target row length)`; at the boundary row the cursor is
unchanged.  On `"a\nbb\nccc"` with cursor (2,2), `move_up` yields (1,2)
and a second `move_up` yields (0,1). -/
theorem c8_vertical_goal_column :
    (∀ (σ : Type) (e : Editor σ) (shift : Bool), 0 < e.cursor_position.row →
      (e.move_up shift).cursor_position
        = ⟨e.cursor_position.row - 1,
           min (e.goal_column.getD e.cursor_position.col)
               (e.buffer.line_len (e.cursor_position.row - 1))⟩ ∧
      (e.move_up shift).goal_column
        = some (e.goal_column.getD e.cursor_position.col)) ∧
    (∀ (σ : Type) (e : Editor σ) (shift : Bool), e.cursor_position.row = 0 →
      (e.move_up shift).cursor_position = e.cursor_position) ∧
    (∀ (σ : Type) (e : Editor σ) (shift : Bool),
      e.cursor_position.row < e.buffer.line_count - 1 →
      (e.move_down shift).cursor_position
        = ⟨e.cursor_position.row + 1,
           min (e.goal_column.getD e.cursor_position.col)
               (e.buffer.line_len (e.cursor_position.row + 1))⟩ ∧
      (e.move_down shift).goal_column
        = some (e.goal_column.getD e.cursor_position.col)) ∧
    (∀ (σ : Type) (e : Editor σ) (shift : Bool),
      ¬ (e.cursor_position.row < e.buffer.line_count - 1) →
      (e.move_down shift).cursor_position = e.cursor_position) ∧
    (eDemoC8.move_up false).cursor_position = ⟨1, 2⟩ ∧
    ((eDemoC8.move_up false).move_up false).cursor_position = ⟨0, 1⟩ := by
  refine ⟨?_, ?_, ?_, ?_, by decide, by decide⟩
  · intro σ e shift h
    have hs := Editor.move_up_spec σ e shift
    rw [if_pos h] at hs
    simp only [Prod.mk.injEq] at hs
    exact hs
  · intro σ e shift h
    have hs := Editor.move_up_spec σ e shift
    rw [if_neg (by omega)] at hs
    simp only [Prod.mk.injEq] at hs
    exact hs.1
  · intro σ e shift h
    have hs := Editor.move_down_spec σ e shift
    rw [if_pos h] at hs
    simp only [Prod.mk.injEq] at hs
    exact hs
  · intro σ e shift h
    have hs := Editor.move_down_spec σ e shift
    rw [if_neg h] at hs
    simp only [Prod.mk.injEq] at hs
    exact hs.1

/-- C8 witness: the general clause applied at the scenario editor. -/
theorem c8_vertical_goal_column_witness :
    (eDemoC8.move_up false).cursor_position
      = ⟨eDemoC8.cursor_position.row - 1,
         min (eDemoC8.goal_column.getD eDemoC8.cursor_position.col)
             (eDemoC8.buffer.line_len (eDemoC8.cursor_position.row - 1))⟩ ∧
    (eDemoC8.move_up false).goal_column
      = some (eDemoC8.goal_column.getD eDemoC8.cursor_position.col) :=
  c8_vertical_goal_column.1 Nat eDemoC8 false (by decide)

/-- All lines of a line list are ASCII. -/
def asciiLines (ls : List (List Char)) : Bool := ls.all asciiStr

theorem asciiStr_take {s : List Char} (h : asciiStr s = true) (i : Nat) :
    asciiStr (s.take i) = true := by
  simp only [asciiStr, List.all_eq_true, decide_eq_true_eq] at *
  intro c hc
  exact h c (List.mem_of_mem_take hc)

theorem asciiStr_drop {s : List Char} (h : asciiStr s = true) (i : Nat) :
    asciiStr (s.drop i) = true := by
  simp only [asciiStr, List.all_eq_true, decide_eq_true_eq] at *
  intro c hc
  exact h c (List.mem_of_mem_drop hc)

theorem asciiStr_append {s t : List Char} (hs : asciiStr s = true)
    (ht : asciiStr t = true) : asciiStr (s ++ t) = true := by
  simp only [asciiStr, List.all_eq_true, decide_eq_true_eq] at *
  intro c hc
  rcases List.mem_append.mp hc with h | h
  · exact hs c h
  · exact ht c h

theorem asciiLines_getD {ls : List (List Char)} (h : asciiLines ls = true)
    (r : Nat) : asciiStr (ls.getD r []) = true := by
  by_cases hr : r < ls.length
  · simp only [asciiLines, List.all_eq_true] at h
    rw [List.getD_eq_getElem?_getD, List.getElem?_eq_getElem hr]
    exact h _ (List.getElem_mem hr)
  · rw [List.getD_eq_getElem?_getD, List.getElem?_eq_none (by omega)]
    rfl

theorem asciiLines_set {ls : List (List Char)} (h : asciiLines ls = true)
    (r : Nat) {v : List Char} (hv : asciiStr v = true) :
    asciiLines (ls.set r v) = true := by
  simp only [asciiLines, List.all_eq_true] at *
  intro l hl
  rcases List.mem_or_eq_of_mem_set hl with h2 | h2
  · exact h l h2
  · rw [h2]
    exact hv

theorem asciiLines_take {ls : List (List Char)} (h : asciiLines ls = true)
    (i : Nat) : asciiLines (ls.take i) = true := by
  simp only [asciiLines, List.all_eq_true] at *
  intro l hl
  exact h l (List.mem_of_mem_take hl)

theorem asciiLines_drop {ls : List (List Char)} (h : asciiLines ls = true)
    (i : Nat) : asciiLines (ls.drop i) = true := by
  simp only [asciiLines, List.all_eq_true] at *
  intro l hl
  exact h l (List.mem_of_mem_drop hl)

theorem asciiLines_append {ls ms : List (List Char)}
    (h1 : asciiLines ls = true) (h2 : asciiLines ms = true) :
    asciiLines (ls ++ ms) = true := by
  simp only [asciiLines, List.all_eq_true] at *
  intro l hl
  rcases List.mem_append.mp hl with h | h
  · exact h1 l h
  · exact h2 l h

theorem get?_eq_some_getD {α : Type} [Inhabited α] {ls : List α} {r : Nat}
    (h : r < ls.length) : ls.get? r = some (ls.getD r default) := by
  rw [List.get?_eq_getElem?, List.getElem?_eq_getElem h,
    List.getD_eq_getElem?_getD, List.getElem?_eq_getElem h]
  rfl

namespace Editor

variable {σ : Type}

/-- Well-formedness for the amended C1: all lines ASCII, the cursor row in
range, and any anchor row in range (the cursor invariant of the spec's
data model, restricted to single-byte text where byte and character
columns coincide). -/
def WfA (e : Editor σ) : Prop :=
  asciiLines e.buffer.lines = true ∧
  e.cursor_position.row < e.buffer.lines.length ∧
  ∀ a, e.selection_anchor = some a → a.row < e.buffer.lines.length

end Editor

namespace Editor

/-- `get_selection_range` with an anchor present: the returned pair is the
anchor and the live cursor in document order. -/
theorem get_selection_range_cases (σ : Type) (e : Editor σ) (a : CursorPosition)
    (ha : e.selection_anchor = some a) :
    ∃ s en, e.get_selection_range = some (s, en) ∧
      ((s = a ∧ en = e.cursor_position) ∨ (s = e.cursor_position ∧ en = a)) ∧
      s.row ≤ en.row ∧ (s.row = en.row → s.col ≤ en.col) := by
  unfold get_selection_range
  rw [ha, Option.map_some']
  by_cases hc : a.row < e.cursor_position.row
      ∨ (a.row = e.cursor_position.row ∧ a.col < e.cursor_position.col)
  · refine ⟨a, e.cursor_position, by rw [if_pos hc], Or.inl ⟨rfl, rfl⟩, ?_, ?_⟩
    · rcases hc with h | ⟨h, _⟩ <;> omega
    · intro hr
      rcases hc with h | ⟨_, h⟩ <;> omega
  · refine ⟨e.cursor_position, a, by rw [if_neg hc], Or.inr ⟨rfl, rfl⟩, ?_, ?_⟩
    · push_neg at hc
      omega
    · intro hr
      push_neg at hc
      exact hc.2 hr.symm

/-- `delete_selection` without an anchor is a no-op returning `false`. -/
theorem delete_selection_none (σ : Type) (e : Editor σ)
    (ha : e.selection_anchor = none) :
    e.delete_selection = some (e, false) := by
  unfold delete_selection get_selection_range
  rw [ha]
  rfl

/-- Value of `delete_selection` on a single-row selection, once the row
lookup and the two byte slicings are known to succeed. -/
theorem ds_single_eq (σ : Type) (e : Editor σ) (s en : CursorPosition)
    (hsr : e.get_selection_range = some (s, en)) (hre : s.row = en.row)
    (line ta db : List Char)
    (hline : e.buffer.lines.get? s.row = some line)
    (hta : byteTake line (min s.col (utf8Len line)) = some ta)
    (hdb : byteDrop line (min en.col (utf8Len line)) = some db) :
    e.delete_selection = some
      ({ e with buffer := SimpleBuffer.new (e.buffer.lines.set s.row (ta ++ db))
                cursor_position := s
                selection_anchor := none
                goal_column := none
                cache := clear_state_from_line e.cache s.row e.language },
       true) := by
  unfold delete_selection
  simp only [hsr]
  rw [if_pos hre]
  simp only [hline, hta, hdb, Option.bind_eq_bind, Option.some_bind,
    Option.pure_def]

/-- Value of `delete_selection` on a multi-row selection: the rows of the
range are spliced out and replaced by the joined boundary fragments. -/
theorem ds_multi_eq (σ : Type) (e : Editor σ) (s en : CursorPosition)
    (hsr : e.get_selection_range = some (s, en)) (hre : ¬ s.row = en.row)
    (first_line last_line ta db : List Char)
    (hfirst : e.buffer.lines.get? s.row = some first_line)
    (hlast : e.buffer.lines.get? en.row = some last_line)
    (hta : byteTake first_line (min s.col (utf8Len first_line)) = some ta)
    (hdb : byteDrop last_line (min en.col (utf8Len last_line)) = some db) :
    e.delete_selection = some
      ({ e with buffer := SimpleBuffer.new (e.buffer.lines.take s.row
                  ++ [ta ++ db] ++ e.buffer.lines.drop (en.row + 1))
                cursor_position := s
                selection_anchor := none
                goal_column := none
                cache := clear_state_from_line e.cache s.row e.language },
       true) := by
  unfold delete_selection
  simp only [hsr]
  rw [if_neg hre]
  simp only [hfirst, hlast, hta, hdb, Option.bind_eq_bind, Option.some_bind,
    Option.pure_def]

/-- On a well-formed ASCII editor, `delete_selection` always returns
normally and preserves well-formedness. -/
theorem delete_selection_wfA (σ : Type) (e : Editor σ) (h : e.WfA) :
    ∃ (e1 : Editor σ) (b : Bool), e.delete_selection = some (e1, b) ∧ e1.WfA := by
  obtain ⟨hasc, hrow, hanc⟩ := h
  cases ha : e.selection_anchor with
  | none =>
    exact ⟨e, false, delete_selection_none σ e ha, hasc, hrow, hanc⟩
  | some a =>
    have haR : a.row < e.buffer.lines.length := hanc a ha
    obtain ⟨s, en, hsr, hcase, hord, hcol⟩ := get_selection_range_cases σ e a ha
    have hsR : s.row < e.buffer.lines.length := by
      rcases hcase with ⟨h1, _⟩ | ⟨h1, _⟩ <;> rw [h1] <;> assumption
    have henR : en.row < e.buffer.lines.length := by
      rcases hcase with ⟨_, h1⟩ | ⟨_, h1⟩ <;> rw [h1] <;> assumption
    have hlineS : e.buffer.lines.get? s.row
        = some (e.buffer.lines.getD s.row []) := get?_eq_some_getD hsR
    have hlineE : e.buffer.lines.get? en.row
        = some (e.buffer.lines.getD en.row []) := get?_eq_some_getD henR
    have hascS : asciiStr (e.buffer.lines.getD s.row []) = true :=
      asciiLines_getD hasc s.row
    have hascE : asciiStr (e.buffer.lines.getD en.row []) = true :=
      asciiLines_getD hasc en.row
    have hlenS : utf8Len (e.buffer.lines.getD s.row [])
        = (e.buffer.lines.getD s.row []).length := utf8Len_of_ascii hascS
    have hlenE : utf8Len (e.buffer.lines.getD en.row [])
        = (e.buffer.lines.getD en.row []).length := utf8Len_of_ascii hascE
    have htaS : byteTake (e.buffer.lines.getD s.row [])
        (min s.col (utf8Len (e.buffer.lines.getD s.row [])))
        = some ((e.buffer.lines.getD s.row []).take
            (min s.col (utf8Len (e.buffer.lines.getD s.row [])))) := by
      unfold byteTake
      rw [byteSplit_of_ascii hascS (by rw [hlenS]; omega)]
      rfl
    by_cases hre : s.row = en.row
    · have hdbS : byteDrop (e.buffer.lines.getD s.row [])
          (min en.col (utf8Len (e.buffer.lines.getD s.row [])))
          = some ((e.buffer.lines.getD s.row []).drop
              (min en.col (utf8Len (e.buffer.lines.getD s.row [])))) := by
        unfold byteDrop
        rw [byteSplit_of_ascii hascS (by rw [hlenS]; omega)]
        rfl
      have hds := ds_single_eq σ e s en hsr hre _ _ _ hlineS htaS hdbS
      have hset : ∀ v : List Char, e.buffer.lines.set s.row v ≠ [] := by
        intro v hx
        have h2 := congrArg List.length hx
        rw [List.length_set, List.length_nil] at h2
        omega
      refine ⟨_, true, hds, ?_, ?_, ?_⟩
      · show asciiLines (SimpleBuffer.new _).lines = true
        unfold SimpleBuffer.new
        rw [if_neg (hset _)]
        exact asciiLines_set hasc s.row
          (asciiStr_append (asciiStr_take hascS _) (asciiStr_drop hascS _))
      · show s.row < (SimpleBuffer.new _).lines.length
        unfold SimpleBuffer.new
        rw [if_neg (hset _)]
        show s.row < (e.buffer.lines.set _ _).length
        rw [List.length_set]
        exact hsR
      · intro a2 ha2
        exact absurd ha2 (by simp)
    · have hdbE : byteDrop (e.buffer.lines.getD en.row [])
          (min en.col (utf8Len (e.buffer.lines.getD en.row [])))
          = some ((e.buffer.lines.getD en.row []).drop
              (min en.col (utf8Len (e.buffer.lines.getD en.row [])))) := by
        unfold byteDrop
        rw [byteSplit_of_ascii hascE (by rw [hlenE]; omega)]
        rfl
      have hds := ds_multi_eq σ e s en hsr hre _ _ _ _ hlineS hlineE htaS hdbE
      have hne : (e.buffer.lines.take s.row
          ++ [(e.buffer.lines.getD s.row []).take
                (min s.col (utf8Len (e.buffer.lines.getD s.row [])))
              ++ (e.buffer.lines.getD en.row []).drop
                (min en.col (utf8Len (e.buffer.lines.getD en.row [])))]
          ++ e.buffer.lines.drop (en.row + 1)) ≠ [] := by
        intro hx
        have h2 := congrArg List.length hx
        simp at h2
      refine ⟨_, true, hds, ?_, ?_, ?_⟩
      · show asciiLines (SimpleBuffer.new _).lines = true
        unfold SimpleBuffer.new
        rw [if_neg hne]
        refine asciiLines_append (asciiLines_append (asciiLines_take hasc _) ?_)
          (asciiLines_drop hasc _)
        simp only [asciiLines, List.all_cons, List.all_nil, Bool.and_true]
        exact asciiStr_append (asciiStr_take hascS _) (asciiStr_drop hascE _)
      · show s.row < (SimpleBuffer.new _).lines.length
        unfold SimpleBuffer.new
        rw [if_neg hne]
        simp only [List.length_append, List.length_take, List.length_cons,
          List.length_nil]
        omega
      · intro a2 ha2
        exact absurd ha2 (by simp)

end Editor

theorem byteRemoveAt_ascii {s : List Char} (h : asciiStr s = true) {i : Nat}
    (hi : i < s.length) :
    byteRemoveAt s i = some (s.take i ++ s.drop (i + 1)) := by
  unfold byteRemoveAt
  rw [byteSplit_of_ascii h (le_of_lt hi)]
  rw [List.drop_eq_getElem_cons hi]

namespace Editor

theorem insert_char_isSome (σ : Type) (e : Editor σ) (h : e.WfA) (ch : Char) :
    (e.insert_char ch).isSome = true := by
  obtain ⟨e1, b, hds, hw1⟩ := delete_selection_wfA σ e h
  obtain ⟨hasc1, hrow1, hanc1⟩ := hw1
  have hline : e1.buffer.lines.get? e1.cursor_position.row
      = some (e1.buffer.lines.getD e1.cursor_position.row []) :=
    get?_eq_some_getD hrow1
  have hascL : asciiStr (e1.buffer.lines.getD e1.cursor_position.row []) = true :=
    asciiLines_getD hasc1 _
  have hlen : utf8Len (e1.buffer.lines.getD e1.cursor_position.row [])
      = (e1.buffer.lines.getD e1.cursor_position.row []).length :=
    utf8Len_of_ascii hascL
  have hins : byteInsert (e1.buffer.lines.getD e1.cursor_position.row [])
      (min e1.cursor_position.col
        (utf8Len (e1.buffer.lines.getD e1.cursor_position.row []))) ch
      = some ((e1.buffer.lines.getD e1.cursor_position.row []).take
            (min e1.cursor_position.col
              (utf8Len (e1.buffer.lines.getD e1.cursor_position.row [])))
          ++ ch :: (e1.buffer.lines.getD e1.cursor_position.row []).drop
            (min e1.cursor_position.col
              (utf8Len (e1.buffer.lines.getD e1.cursor_position.row [])))) := by
    unfold byteInsert
    rw [byteSplit_of_ascii hascL (by rw [hlen]; omega)]
    rfl
  unfold insert_char
  simp only [hds, Option.bind_eq_bind, Option.some_bind, hline, hins,
    Option.pure_def]
  rfl

theorem insert_newline_isSome (σ : Type) (e : Editor σ) (h : e.WfA) :
    (e.insert_newline).isSome = true := by
  obtain ⟨e1, b, hds, hw1⟩ := delete_selection_wfA σ e h
  obtain ⟨hasc1, hrow1, hanc1⟩ := hw1
  have hline : e1.buffer.lines.get? e1.cursor_position.row
      = some (e1.buffer.lines.getD e1.cursor_position.row []) :=
    get?_eq_some_getD hrow1
  have hascL : asciiStr (e1.buffer.lines.getD e1.cursor_position.row []) = true :=
    asciiLines_getD hasc1 _
  have hlen : utf8Len (e1.buffer.lines.getD e1.cursor_position.row [])
      = (e1.buffer.lines.getD e1.cursor_position.row []).length :=
    utf8Len_of_ascii hascL
  have hsp : byteSplit (e1.buffer.lines.getD e1.cursor_position.row [])
      (min e1.cursor_position.col
        (utf8Len (e1.buffer.lines.getD e1.cursor_position.row [])))
      = some ((e1.buffer.lines.getD e1.cursor_position.row []).take
            (min e1.cursor_position.col
              (utf8Len (e1.buffer.lines.getD e1.cursor_position.row []))),
          (e1.buffer.lines.getD e1.cursor_position.row []).drop
            (min e1.cursor_position.col
              (utf8Len (e1.buffer.lines.getD e1.cursor_position.row [])))) :=
    byteSplit_of_ascii hascL (by rw [hlen]; omega)
  unfold insert_newline
  simp only [hds, Option.bind_eq_bind, Option.some_bind, hline, hsp,
    Option.pure_def]
  rfl

theorem backspace_isSome (σ : Type) (e : Editor σ) (h : e.WfA) :
    (e.backspace).isSome = true := by
  obtain ⟨e1, b, hds, hw1⟩ := delete_selection_wfA σ e h
  obtain ⟨hasc1, hrow1, hanc1⟩ := hw1
  unfold backspace
  simp only [hds, Option.bind_eq_bind, Option.some_bind]
  cases b with
  | true => simp
  | false =>
    simp only [Bool.false_eq_true, if_false]
    have hline : e1.buffer.lines.get? e1.cursor_position.row
        = some (e1.buffer.lines.getD e1.cursor_position.row []) :=
      get?_eq_some_getD hrow1
    have hascL : asciiStr (e1.buffer.lines.getD e1.cursor_position.row [])
        = true := asciiLines_getD hasc1 _
    have hlen : utf8Len (e1.buffer.lines.getD e1.cursor_position.row [])
        = (e1.buffer.lines.getD e1.cursor_position.row []).length :=
      utf8Len_of_ascii hascL
    by_cases hcol : 0 < e1.cursor_position.col
    · rw [if_pos hcol]
      by_cases hc2 : e1.cursor_position.col
          ≤ utf8Len (e1.buffer.lines.getD e1.cursor_position.row [])
      · have hrm : byteRemoveAt (e1.buffer.lines.getD e1.cursor_position.row [])
            (e1.cursor_position.col - 1)
            = some ((e1.buffer.lines.getD e1.cursor_position.row []).take
                  (e1.cursor_position.col - 1)
                ++ (e1.buffer.lines.getD e1.cursor_position.row []).drop
                  (e1.cursor_position.col - 1 + 1)) :=
          byteRemoveAt_ascii hascL (by rw [← hlen]; omega)
        simp only [hline, Option.bind_eq_bind, Option.some_bind, if_pos hc2,
          hrm, Option.pure_def]
        rfl
      · simp only [hline, Option.bind_eq_bind, Option.some_bind, if_neg hc2,
          Option.pure_def, Option.some_bind]
        rfl
    · rw [if_neg hcol]
      by_cases hrw : 0 < e1.cursor_position.row
      · rw [if_pos hrw]
        have hprev : (e1.buffer.lines.eraseIdx e1.cursor_position.row).get?
            (e1.cursor_position.row - 1)
            = some ((e1.buffer.lines.eraseIdx e1.cursor_position.row).getD
                (e1.cursor_position.row - 1) []) := by
          apply get?_eq_some_getD
          rw [List.length_eraseIdx_of_lt hrow1]
          omega
        simp only [hline, Option.bind_eq_bind, Option.some_bind, hprev,
          Option.pure_def]
        rfl
      · rw [if_neg hrw]
        rfl

theorem delete_isSome (σ : Type) (e : Editor σ) (h : e.WfA) :
    (e.delete).isSome = true := by
  obtain ⟨e1, b, hds, hw1⟩ := delete_selection_wfA σ e h
  obtain ⟨hasc1, hrow1, hanc1⟩ := hw1
  unfold delete
  simp only [hds, Option.bind_eq_bind, Option.some_bind]
  cases b with
  | true => simp
  | false =>
    simp only [Bool.false_eq_true, if_false]
    have hline : e1.buffer.lines.get? e1.cursor_position.row
        = some (e1.buffer.lines.getD e1.cursor_position.row []) :=
      get?_eq_some_getD hrow1
    have hascL : asciiStr (e1.buffer.lines.getD e1.cursor_position.row [])
        = true := asciiLines_getD hasc1 _
    have hlen : utf8Len (e1.buffer.lines.getD e1.cursor_position.row [])
        = (e1.buffer.lines.getD e1.cursor_position.row []).length :=
      utf8Len_of_ascii hascL
    by_cases hcol : e1.cursor_position.col
        < e1.buffer.line_len e1.cursor_position.row
    · rw [if_pos hcol]
      have hll : e1.buffer.line_len e1.cursor_position.row
          = utf8Len (e1.buffer.lines.getD e1.cursor_position.row []) := by
        unfold SimpleBuffer.line_len SimpleBuffer.get_line
        rw [get?_eq_some_getD hrow1]
        rfl
      by_cases hc2 : e1.cursor_position.col
          < utf8Len (e1.buffer.lines.getD e1.cursor_position.row [])
      · have hrm : byteRemoveAt (e1.buffer.lines.getD e1.cursor_position.row [])
            e1.cursor_position.col
            = some ((e1.buffer.lines.getD e1.cursor_position.row []).take
                  e1.cursor_position.col
                ++ (e1.buffer.lines.getD e1.cursor_position.row []).drop
                  (e1.cursor_position.col + 1)) :=
          byteRemoveAt_ascii hascL (by rw [← hlen]; omega)
        simp only [hline, Option.bind_eq_bind, Option.some_bind, if_pos hc2,
          hrm, Option.pure_def]
        rfl
      · rw [hll] at hcol
        exact absurd hcol hc2
    · rw [if_neg hcol]
      by_cases hrw : e1.cursor_position.row < e1.buffer.line_count - 1
      · rw [if_pos hrw]
        have hLC : e1.buffer.line_count = e1.buffer.lines.length := rfl
        have hnext : e1.buffer.lines.get? (e1.cursor_position.row + 1)
            = some (e1.buffer.lines.getD (e1.cursor_position.row + 1) []) := by
          apply get?_eq_some_getD
          rw [hLC] at hrw
          omega
        have hcur : (e1.buffer.lines.eraseIdx (e1.cursor_position.row + 1)).get?
            e1.cursor_position.row
            = some ((e1.buffer.lines.eraseIdx (e1.cursor_position.row + 1)).getD
                e1.cursor_position.row []) := by
          apply get?_eq_some_getD
          rw [List.length_eraseIdx_of_lt (by rw [hLC] at hrw; omega)]
          rw [hLC] at hrw
          omega
        simp only [hnext, Option.bind_eq_bind, Option.some_bind, hcur,
          Option.pure_def]
        rfl
      · rw [if_neg hrw]
        rfl

end Editor

namespace Editor

theorem get_selected_text_isSome (σ : Type) (e : Editor σ) (h : e.WfA) :
    (e.get_selected_text).isSome = true := by
  obtain ⟨hasc, hrow, hanc⟩ := h
  cases ha : e.selection_anchor with
  | none =>
    unfold get_selected_text get_selection_range
    rw [ha]
    rfl
  | some a =>
    have haR : a.row < e.buffer.lines.length := hanc a ha
    obtain ⟨s, en, hsr, hcase, hord, hcol⟩ := get_selection_range_cases σ e a ha
    have hsR : s.row < e.buffer.lines.length := by
      rcases hcase with ⟨h1, _⟩ | ⟨h1, _⟩ <;> rw [h1] <;> assumption
    have henR : en.row < e.buffer.lines.length := by
      rcases hcase with ⟨_, h1⟩ | ⟨_, h1⟩ <;> rw [h1] <;> assumption
    have hascS : asciiStr (e.buffer.lines.getD s.row []) = true :=
      asciiLines_getD hasc s.row
    have hascE : asciiStr (e.buffer.lines.getD en.row []) = true :=
      asciiLines_getD hasc en.row
    have hlenS : utf8Len (e.buffer.lines.getD s.row [])
        = (e.buffer.lines.getD s.row []).length := utf8Len_of_ascii hascS
    have hlenE : utf8Len (e.buffer.lines.getD en.row [])
        = (e.buffer.lines.getD en.row []).length := utf8Len_of_ascii hascE
    unfold get_selected_text
    simp only [hsr]
    by_cases hre : s.row = en.row
    · rw [if_pos hre]
      have hline : e.buffer.lines.get? s.row
          = some (e.buffer.lines.getD s.row []) := get?_eq_some_getD hsR
      have hcc : s.col ≤ en.col := hcol hre
      have hbs1 : byteSplit (e.buffer.lines.getD s.row [])
          (min s.col (utf8Len (e.buffer.lines.getD s.row [])))
          = some ((e.buffer.lines.getD s.row []).take
                (min s.col (utf8Len (e.buffer.lines.getD s.row []))),
              (e.buffer.lines.getD s.row []).drop
                (min s.col (utf8Len (e.buffer.lines.getD s.row [])))) :=
        byteSplit_of_ascii hascS (by rw [hlenS]; omega)
      have hslice : (byteSlice (e.buffer.lines.getD s.row [])
          (min s.col (utf8Len (e.buffer.lines.getD s.row [])))
          (min en.col (utf8Len (e.buffer.lines.getD s.row [])))).isSome
          = true := by
        unfold byteSlice
        rw [if_pos (by omega)]
        simp only [hbs1]
        unfold byteTake
        rw [byteSplit_of_ascii (asciiStr_drop hascS _)
          (by rw [List.length_drop]; omega)]
        rfl
      simp only [Option.bind_eq_bind, Option.some_bind, hline]
      exact hslice
    · rw [if_neg hre]
      rw [if_pos henR]
      have hdropS : byteDrop (e.buffer.lines.getD s.row [])
          (min s.col (utf8Len (e.buffer.lines.getD s.row [])))
          = some ((e.buffer.lines.getD s.row []).drop
              (min s.col (utf8Len (e.buffer.lines.getD s.row [])))) := by
        unfold byteDrop
        rw [byteSplit_of_ascii hascS (by rw [hlenS]; omega)]
        rfl
      have htakeE : byteTake (e.buffer.lines.getD en.row [])
          (min en.col (utf8Len (e.buffer.lines.getD en.row [])))
          = some ((e.buffer.lines.getD en.row []).take
              (min en.col (utf8Len (e.buffer.lines.getD en.row [])))) := by
        unfold byteTake
        rw [byteSplit_of_ascii hascE (by rw [hlenE]; omega)]
        rfl
      simp only [hdropS, htakeE, Option.bind_eq_bind, Option.some_bind,
        Option.pure_def]
      rfl

end Editor

/-- An editor whose cursor has been placed past the last row through the
public `set_cursor_position`. -/
def eDemoC1a : Editor Nat :=
  (Editor.new [['a']] "Rust").set_cursor_position ⟨1, 0⟩

/-- An editor over the one-line document `"é"` after one `move_right`:
the column counts bytes, so the cursor sits inside the two-byte
character. -/
def eDemoC1b : Editor Nat :=
  (Editor.new [['é']] "Rust").move_right false

/-- C1 counterexample: the public interface is not total.
`set_cursor_position` stores an arbitrary row unclamped and `insert_char`
indexes `lines[row]`, which fails (panics) for `row ≥ line_count`; and on
a multi-byte line one `move_right` lands the byte-indexed column inside a
character, where `String::insert` panics. -/
theorem c1_totality_counterexample :
    eDemoC1a.insert_char 'x' = none ∧
    eDemoC1b.insert_char 'x' = none := by
  constructor
  · rfl
  · rfl

/-- C1 (amended): totality holds on well-formed states, not on all
reachable ones.  The four moves, `select_all`, `set_cursor_position`,
`clear_selection` and `get_selection_range` are total by construction;
the editing operations and the selected-text query return normally on
every state whose cursor and anchor rows are within the document and
whose lines are single-byte (ASCII) — but rows are never clamped, and on
multi-byte lines the byte-indexed columns can fall inside a character, so
outside these states `insert_char`, `insert_newline`, `backspace` and
`delete_selection` fail (see the counterexample). -/
theorem c1_amended_totality :
    ∀ (σ : Type) (e : Editor σ), e.WfA →
      (∀ ch, (e.insert_char ch).isSome = true) ∧
      (e.insert_newline).isSome = true ∧
      (e.backspace).isSome = true ∧
      (e.delete).isSome = true ∧
      (e.get_selected_text).isSome = true ∧
      (∃ r, e.delete_selection = some r) := by
  intro σ e h
  obtain ⟨e1, b, hds, _⟩ := Editor.delete_selection_wfA σ e h
  exact ⟨Editor.insert_char_isSome σ e h,
    Editor.insert_newline_isSome σ e h,
    Editor.backspace_isSome σ e h,
    Editor.delete_isSome σ e h,
    Editor.get_selected_text_isSome σ e h,
    ⟨(e1, b), hds⟩⟩

/-- C1 amended witness: the editing operations return normally on the
concrete scenario editor. -/
theorem c1_amended_totality_witness :
    ((eDemoC8.insert_char 'z').isSome = true) ∧
    ((eDemoC8.backspace).isSome = true) := by
  have hwf : eDemoC8.WfA := by
    refine ⟨by decide, by decide, ?_⟩
    intro a ha
    simp [eDemoC8, Editor.set_cursor_position, Editor.new] at ha
  exact ⟨(c1_amended_totality Nat eDemoC8 hwf).1 'z',
    (c1_amended_totality Nat eDemoC8 hwf).2.2.1⟩

theorem byteSplit_cons_pos (c : Char) (cs : List Char) (n : Nat) (h : 0 < n) :
    byteSplit (c :: cs) n
      = if n < charBytes c then none
        else (byteSplit cs (n - charBytes c)).map fun p => (c :: p.1, p.2) := by
  cases n with
  | zero => omega
  | succ m => rfl

theorem byteSplit_append_left (A B : List Char) (k : Nat) (t d : List Char)
    (h : byteSplit A k = some (t, d)) :
    byteSplit (A ++ B) k = some (t, d ++ B) := by
  induction A generalizing k t d with
  | nil =>
    cases k with
    | zero =>
      rw [show byteSplit [] 0 = some ([], []) from rfl] at h
      injection h with h2
      injection h2 with h3 h4
      subst h3
      subst h4
      rw [List.nil_append]
      exact byteSplit_zero B
    | succ m =>
      exact absurd h (by rw [byteSplit]; simp)
  | cons c A ih =>
    cases k with
    | zero =>
      rw [show byteSplit (c :: A) 0 = some ([], c :: A) from rfl] at h
      injection h with h2
      injection h2 with h3 h4
      subst h3
      subst h4
      rfl
    | succ m =>
      rw [byteSplit] at h
      by_cases hcb : m + 1 < charBytes c
      · rw [if_pos hcb] at h
        exact absurd h (by simp)
      · rw [if_neg hcb] at h
        obtain ⟨⟨t', d'⟩, hsp, heq⟩ := Option.map_eq_some'.mp h
        simp only at heq
        injection heq with h3 h4
        show byteSplit (c :: (A ++ B)) (m + 1) = _
        rw [byteSplit, if_neg hcb]
        rw [ih _ _ _ hsp]
        rw [Option.map_some']
        rw [← h3, h4]

theorem byteSplit_append_right (A B : List Char) (k : Nat) :
    byteSplit (A ++ B) (utf8Len A + k)
      = (byteSplit B k).map fun p => (A ++ p.1, p.2) := by
  induction A with
  | nil =>
    rw [utf8Len_nil, Nat.zero_add, List.nil_append]
    cases h : byteSplit B k with
    | none => rfl
    | some p =>
      rw [Option.map_some']
      cases p
      simp
  | cons c A ih =>
    have hpos : 0 < charBytes c + utf8Len A + k := by
      have := charBytes_pos c
      omega
    rw [utf8Len_cons, List.cons_append]
    rw [show charBytes c + utf8Len A + k
      = charBytes c + (utf8Len A + k) from by omega] at hpos
    rw [show charBytes c + utf8Len A + k
      = charBytes c + (utf8Len A + k) from by omega]
    rw [byteSplit_cons_pos c (A ++ B) _ hpos]
    rw [if_neg (by have := charBytes_pos c; omega)]
    rw [show charBytes c + (utf8Len A + k) - charBytes c = utf8Len A + k
      from by omega]
    rw [ih]
    cases h : byteSplit B k with
    | none => rfl
    | some p =>
      rw [Option.map_some', Option.map_some', Option.map_some']
      rfl

/-- Each line followed by one newline, the shape of a join prefix before a
given row. -/
def joinNlAll : List (List Char) → List Char
  | [] => []
  | l :: ls => l ++ '\n' :: joinNlAll ls

theorem preLen_eq_joinNlAll (ls : List (List Char)) (r : Nat)
    (h : r < ls.length) :
    preLen ls r = utf8Len (joinNlAll (ls.take r)) := by
  induction ls generalizing r with
  | nil => simp at h
  | cons l rest ih =>
    cases r with
    | zero => rfl
    | succ rr =>
      have hr : rr < rest.length := by simpa using h
      have hrest : rest ≠ [] := by
        intro hx
        rw [hx] at hr
        simp at hr
      rw [show preLen (l :: rest) (rr + 1)
        = utf8Len l + (if rest = [] then 0 else 1) + preLen rest rr from rfl]
      rw [if_neg hrest, ih rr hr]
      rw [show (l :: rest).take (rr + 1) = l :: rest.take rr from rfl]
      rw [show joinNlAll (l :: rest.take rr)
        = l ++ '\n' :: joinNlAll (rest.take rr) from rfl]
      rw [utf8Len_append, utf8Len_cons]
      rw [show charBytes '\n' = 1 from rfl]
      omega

theorem joinSep_cons_of_ne_nil (l : List Char) (ls : List (List Char))
    (h : ls ≠ []) :
    joinSep '\n' (l :: ls) = l ++ '\n' :: joinSep '\n' ls := by
  cases ls with
  | nil => exact absurd rfl h
  | cons m ms => rfl

theorem joinSep_decomp (X : List (List Char)) (m : List Char)
    (Y : List (List Char)) :
    joinSep '\n' (X ++ m :: Y)
      = joinNlAll X ++ m
        ++ (if Y = [] then [] else '\n' :: joinSep '\n' Y) := by
  induction X with
  | nil =>
    cases Y with
    | nil =>
      rw [if_pos rfl]
      show joinSep '\n' [m] = [] ++ m ++ []
      rw [show joinSep '\n' [m] = m from rfl]
      simp
    | cons y ys =>
      rw [if_neg (by simp)]
      rw [List.nil_append, joinSep_cons_cons]
      rw [show joinNlAll [] = [] from rfl, List.nil_append]
  | cons x X ih =>
    rw [List.cons_append]
    rw [joinSep_cons_of_ne_nil x (X ++ m :: Y) (by simp)]
    rw [ih]
    rw [show joinNlAll (x :: X) = x ++ '\n' :: joinNlAll X from rfl]
    simp [List.append_assoc]

theorem list_decomp_at {α : Type} [Inhabited α] (ls : List α) (r : Nat)
    (h : r < ls.length) :
    ls = ls.take r ++ ls.getD r default :: ls.drop (r + 1) := by
  conv_lhs => rw [← List.take_append_drop r ls]
  rw [List.drop_eq_getElem_cons h]
  rw [List.getD_eq_getElem?_getD, List.getElem?_eq_getElem h]
  rfl

/-- Splitting the joined document at the byte offset of position
(`r`, column measured by `c'`): the split cuts row `r` exactly where
`byteSplit` cuts the line. -/
theorem byteSplit_doc (lines : List (List Char)) (r : Nat)
    (h : r < lines.length) (c' : Nat) (t d : List Char)
    (hsplit : byteSplit (lines.getD r []) c' = some (t, d)) :
    byteSplit (joinSep '\n' lines) (preLen lines r + c')
      = some (joinNlAll (lines.take r) ++ t,
          d ++ (if lines.drop (r + 1) = [] then []
                else '\n' :: joinSep '\n' (lines.drop (r + 1)))) := by
  have hdoc : joinSep '\n' lines
      = joinNlAll (lines.take r)
        ++ ((lines.getD r [])
          ++ (if lines.drop (r + 1) = [] then []
              else '\n' :: joinSep '\n' (lines.drop (r + 1)))) := by
    conv_lhs => rw [list_decomp_at lines r h]
    rw [joinSep_decomp]
    rw [List.append_assoc]
    rfl
  rw [hdoc, preLen_eq_joinNlAll lines r h]
  rw [byteSplit_append_right]
  rw [byteSplit_append_left _ _ c' t d hsplit]
  rw [Option.map_some']

theorem sbNew_lines (ls : List (List Char)) (h : ls ≠ []) :
    (SimpleBuffer.new ls).lines = ls := by
  unfold SimpleBuffer.new
  rw [if_neg h]

namespace Editor

variable {σ : Type}

/-- The whole document as one string, rows joined by newlines. -/
def docText (e : Editor σ) : List Char := joinSep '\n' e.buffer.lines

/-- Byte offset of a cursor position in the joined document, with the
column clamped to the row's byte length (the forward line-index map). -/
def cpOffset (lines : List (List Char)) (p : CursorPosition) : Nat :=
  preLen lines p.row + min p.col (utf8Len (lines.getD p.row []))

theorem backspace_of_deleted (σ : Type) (e e' : Editor σ)
    (hds : e.delete_selection = some (e', true)) : e.backspace = some e' := by
  unfold backspace
  simp only [hds, Option.bind_eq_bind, Option.some_bind]
  simp

theorem delete_of_deleted (σ : Type) (e e' : Editor σ)
    (hds : e.delete_selection = some (e', true)) : e.delete = some e' := by
  unfold delete
  simp only [hds, Option.bind_eq_bind, Option.some_bind]
  simp

end Editor

/-- C9: with a selection anchor set (an anchor equal to the cursor
included), `backspace()` and `delete()` agree: both remove exactly the
byte range `[start, end)` of the ordered selection from the document and
nothing more — the new document text is the old text with that range
spliced out, the cursor collapses to the selection start, and the anchor
is cleared.  Hypotheses: the anchor and cursor rows are in range and their
clamped columns sit on character boundaries (the cursor invariant of the
spec's data model). -/
theorem c9_selection_exact_removal (σ : Type) (e : Editor σ)
    (a : CursorPosition)
    (ha : e.selection_anchor = some a)
    (haR : a.row < e.buffer.lines.length)
    (hcR : e.cursor_position.row < e.buffer.lines.length)
    (hbA : (byteSplit (e.buffer.lines.getD a.row [])
        (min a.col (utf8Len (e.buffer.lines.getD a.row [])))).isSome = true)
    (hbC : (byteSplit (e.buffer.lines.getD e.cursor_position.row [])
        (min e.cursor_position.col
          (utf8Len (e.buffer.lines.getD e.cursor_position.row [])))).isSome
        = true) :
    ∃ (s en : CursorPosition) (e' : Editor σ) (pre post : List Char),
      e.get_selection_range = some (s, en) ∧
      e.backspace = some e' ∧
      e.delete = some e' ∧
      byteTake e.docText (Editor.cpOffset e.buffer.lines s) = some pre ∧
      byteDrop e.docText (Editor.cpOffset e.buffer.lines en) = some post ∧
      e'.docText = pre ++ post ∧
      e'.cursor_position = s ∧
      e'.selection_anchor = none := by
  obtain ⟨s, en, hsr, hcase, hord, hcol⟩ :=
    Editor.get_selection_range_cases σ e a ha
  have hsR : s.row < e.buffer.lines.length := by
    rcases hcase with ⟨h1, _⟩ | ⟨h1, _⟩ <;> rw [h1] <;> assumption
  have henR : en.row < e.buffer.lines.length := by
    rcases hcase with ⟨_, h1⟩ | ⟨_, h1⟩ <;> rw [h1] <;> assumption
  have hbS : (byteSplit (e.buffer.lines.getD s.row [])
      (min s.col (utf8Len (e.buffer.lines.getD s.row [])))).isSome = true := by
    rcases hcase with ⟨h1, _⟩ | ⟨h1, _⟩ <;> rw [h1] <;> assumption
  have hbE : (byteSplit (e.buffer.lines.getD en.row [])
      (min en.col (utf8Len (e.buffer.lines.getD en.row [])))).isSome = true := by
    rcases hcase with ⟨_, h1⟩ | ⟨_, h1⟩ <;> rw [h1] <;> assumption
  obtain ⟨⟨ts, ds2⟩, hts⟩ := Option.isSome_iff_exists.mp hbS
  obtain ⟨⟨te, de⟩, hte⟩ := Option.isSome_iff_exists.mp hbE
  have hlineS : e.buffer.lines.get? s.row
      = some (e.buffer.lines.getD s.row []) := get?_eq_some_getD hsR
  have hlineE : e.buffer.lines.get? en.row
      = some (e.buffer.lines.getD en.row []) := get?_eq_some_getD henR
  have htake : byteTake (e.buffer.lines.getD s.row [])
      (min s.col (utf8Len (e.buffer.lines.getD s.row []))) = some ts := by
    unfold byteTake
    rw [hts]
    rfl
  have hpre := byteSplit_doc e.buffer.lines s.row hsR
    (min s.col (utf8Len (e.buffer.lines.getD s.row []))) ts ds2 hts
  have hpost := byteSplit_doc e.buffer.lines en.row henR
    (min en.col (utf8Len (e.buffer.lines.getD en.row []))) te de hte
  by_cases hre : s.row = en.row
  · have hdrop : byteDrop (e.buffer.lines.getD s.row [])
        (min en.col (utf8Len (e.buffer.lines.getD s.row []))) = some de := by
      unfold byteDrop
      rw [hre, hte]
      rfl
    have hds := Editor.ds_single_eq σ e s en hsr hre _ _ _ hlineS htake hdrop
    have hset_ne : e.buffer.lines.set s.row (ts ++ de) ≠ [] := by
      intro hx
      have h2 := congrArg List.length hx
      rw [List.length_set, List.length_nil] at h2
      omega
    refine ⟨s, en, _, joinNlAll (e.buffer.lines.take s.row) ++ ts,
      de ++ (if e.buffer.lines.drop (s.row + 1) = [] then []
             else '\n' :: joinSep '\n' (e.buffer.lines.drop (s.row + 1))),
      hsr, Editor.backspace_of_deleted σ e _ hds,
      Editor.delete_of_deleted σ e _ hds, ?_, ?_, ?_, rfl, rfl⟩
    · unfold byteTake Editor.docText Editor.cpOffset
      rw [hpre]
      rfl
    · unfold byteDrop Editor.docText Editor.cpOffset
      rw [← hre] at hpost
      rw [← hre]
      rw [hpost]
      rfl
    · show joinSep '\n' (SimpleBuffer.new
        (e.buffer.lines.set s.row (ts ++ de))).lines = _
      rw [sbNew_lines _ hset_ne]
      have hsetd : e.buffer.lines.set s.row (ts ++ de)
          = e.buffer.lines.take s.row
            ++ (ts ++ de) :: e.buffer.lines.drop (s.row + 1) := by
        rw [List.set_eq_take_append_cons_drop]
        rw [if_pos hsR]
      rw [hsetd, joinSep_decomp]
      simp [List.append_assoc]
  · have hds := Editor.ds_multi_eq σ e s en hsr hre _ _ _ _ hlineS hlineE htake
      (by unfold byteDrop; rw [hte]; rfl)
    have happ_ne : e.buffer.lines.take s.row
        ++ [ts ++ de] ++ e.buffer.lines.drop (en.row + 1) ≠ [] := by
      intro hx
      have h2 := congrArg List.length hx
      simp at h2
    refine ⟨s, en, _, joinNlAll (e.buffer.lines.take s.row) ++ ts,
      de ++ (if e.buffer.lines.drop (en.row + 1) = [] then []
             else '\n' :: joinSep '\n' (e.buffer.lines.drop (en.row + 1))),
      hsr, Editor.backspace_of_deleted σ e _ hds,
      Editor.delete_of_deleted σ e _ hds, ?_, ?_, ?_, rfl, rfl⟩
    · unfold byteTake Editor.docText Editor.cpOffset
      rw [hpre]
      rfl
    · unfold byteDrop Editor.docText Editor.cpOffset
      rw [hpost]
      rfl
    · show joinSep '\n' (SimpleBuffer.new
        (e.buffer.lines.take s.row
          ++ [ts ++ de] ++ e.buffer.lines.drop (en.row + 1))).lines = _
      rw [sbNew_lines _ happ_ne]
      rw [show e.buffer.lines.take s.row
          ++ [ts ++ de] ++ e.buffer.lines.drop (en.row + 1)
          = e.buffer.lines.take s.row
            ++ (ts ++ de) :: e.buffer.lines.drop (en.row + 1) from by simp]
      rw [joinSep_decomp]
      simp [List.append_assoc]

/-- The C9 witness editor: document `"ab\ncd"`, cursor placed at (0,1),
then a shift-`move_down` that anchors the selection at (0,1) and leaves
the cursor at (1,1). -/
def eDemoC9 : Editor Nat :=
  ((Editor.new [['a', 'b'], ['c', 'd']] "Rust").set_cursor_position
    ⟨0, 1⟩).move_down true

/-- C9 witness at the concrete selection. -/
theorem c9_selection_exact_removal_witness :
    ∃ (s en : CursorPosition) (e' : Editor Nat) (pre post : List Char),
      eDemoC9.get_selection_range = some (s, en) ∧
      eDemoC9.backspace = some e' ∧
      eDemoC9.delete = some e' ∧
      byteTake eDemoC9.docText (Editor.cpOffset eDemoC9.buffer.lines s)
        = some pre ∧
      byteDrop eDemoC9.docText (Editor.cpOffset eDemoC9.buffer.lines en)
        = some post ∧
      e'.docText = pre ++ post ∧
      e'.cursor_position = s ∧
      e'.selection_anchor = none :=
  c9_selection_exact_removal Nat eDemoC9 ⟨0, 1⟩ (by decide) (by decide)
    (by decide) (by decide) (by decide)

/-!
The incremental highlighter (`src/syntax_highlighter.rs`).  syntect is an
external crate: its parser and highlighter are abstracted as a
`SyntectIface` of opaque state types, and theorems assume only the
documented property they need (the iterator's pieces concatenate to the
input line).  Colors are carried as the raw `rgba` words the module
builds; the gpui `Hsla` conversion is an injective re-encoding and the
font data (family, size) never influences run boundaries, so neither is
modelled.
-/

/-- A syntect `Style`: foreground/background colors and font flags. -/
structure Style where
  foreground : Nat
  background : Nat
  bold : Bool
  italic : Bool
  underline : Bool
deriving DecidableEq

/-- A gpui `TextRun`, restricted to the fields `highlight_line` computes
(`strikethrough` is always `None` and the font carries no information). -/
structure TextRun where
  len : Nat
  bold : Bool
  italic : Bool
  color : Nat
  background_color : Option Nat
  underline : Bool
deriving DecidableEq

/-- The external syntect behavior: syntax lookup, resumable parse states,
resumable highlight states and the highlight iterator. -/
structure SyntectIface (PState HState Ops : Type) where
  has_syntax : String → Bool
  parse_new : String → PState
  parse_line : PState → List Char → Option (Ops × PState)
  ops_default : Ops
  highlight_new : String → HState
  highlight_iter : HState → Ops → List Char → List (Style × List Char) × HState

/-- `HashMap` as an association list with unique keys: lookup. -/
def alLookup {β : Type} : List (String × β) → String → Option β
  | [], _ => none
  | (k2, v) :: rest, k => if k2 = k then some v else alLookup rest k

/-- `HashMap::insert` (replace an existing binding). -/
def alInsert {β : Type} : List (String × β) → String → β → List (String × β)
  | [], k, v => [(k, v)]
  | (k2, v2) :: rest, k, v =>
    if k2 = k then (k, v) :: rest else (k2, v2) :: alInsert rest k v

/-- `HashMap::remove`. -/
def alRemove {β : Type} : List (String × β) → String → List (String × β)
  | [], _ => []
  | (k2, v2) :: rest, k =>
    if k2 = k then rest else (k2, v2) :: alRemove rest k

theorem alLookup_alInsert {β : Type} (l : List (String × β)) (k : String)
    (v : β) : alLookup (alInsert l k v) k = some v := by
  induction l with
  | nil => simp [alInsert, alLookup]
  | cons p rest ih =>
    obtain ⟨k2, v2⟩ := p
    by_cases hk : k2 = k
    · rw [alInsert, if_pos hk, alLookup, if_pos rfl]
    · rw [alInsert, if_neg hk, alLookup, if_neg hk]
      exact ih

/-- `SyntaxHighlighterInner`: the current theme and the two rolling state
caches, keyed by language (lexer) and language-theme (colorizer). -/
structure SyntaxHighlighterInner (PState HState : Type) where
  current_theme : String
  parse_states : List (String × PState)
  highlight_states : List (String × HState)

/-- The plain single-run fallback (unrecognized language, or no nonzero
ranges): one run covering `line.len()` bytes in the default style. -/
def plainRun (line : List Char) : TextRun :=
  { len := utf8Len line
    bold := false
    italic := false
    color := 0xcccccc
    background_color := none
    underline := false }

/-- One styled run from a `(style, start, end)` range of length `len`:
`background_color` only when visually distinct from the foreground,
underline from the lexical style. -/
def mkRun (style : Style) (len : Nat) : TextRun :=
  { len := len
    bold := style.bold
    italic := style.italic
    color := style.foreground
    background_color :=
      if style.background ≠ style.foreground then some style.background
      else none
    underline := style.underline }

/-- The run-construction block of `highlight_line`: the `(style, start,
end)` ranges are the iterator pieces with cumulative byte positions (the
difference `end - start` is the piece's byte length), zero-length ranges
are skipped, and an empty result falls back to one plain run over the
line. -/
def runsFromPieces (line : List Char) (pieces : List (Style × List Char)) :
    List TextRun :=
  let ranges := pieces.map fun p => (p.1, utf8Len p.2)
  let text_runs :=
    (ranges.filter fun r => decide (r.2 ≠ 0)).map fun r => mkRun r.1 r.2
  if text_runs = [] then [plainRun line] else text_runs

/-- `SyntaxHighlighter::highlight_line`.  The `(style, start, end)` ranges
built from the iterator carry cumulative byte positions whose differences
are the piece byte lengths, so the ranges are embedded directly by their
lengths.  The parse state is parsed over the line a second time before
being stored (`parse_state.parse_line(line, ...).map(|_| parse_state.clone())`),
an error in that second parse storing a fresh state instead. -/
def highlight_line {PState HState Ops : Type}
    (sy : SyntectIface PState HState Ops)
    (inner : SyntaxHighlighterInner PState HState)
    (line : List Char) (language : String) (line_number : Nat) :
    List TextRun × SyntaxHighlighterInner PState HState :=
  if sy.has_syntax language = false then
    ([plainRun line], inner)
  else
    let cache_key := language ++ "-" ++ inner.current_theme
    let parse_state_key := language
    let inner :=
      if line_number = 0 then
        { inner with
            parse_states := alRemove inner.parse_states parse_state_key
            highlight_states := alRemove inner.highlight_states cache_key }
      else inner
    let parse_state :=
      if line_number = 0 then sy.parse_new language
      else
        match alLookup inner.parse_states parse_state_key with
        | some st => st
        | none => sy.parse_new language
    let opsAndState :=
      match sy.parse_line parse_state line with
      | some r => r
      | none => (sy.ops_default, parse_state)
    let ops := opsAndState.1
    let parse_state1 := opsAndState.2
    let highlight_state :=
      if line_number = 0 then sy.highlight_new inner.current_theme
      else
        match alLookup inner.highlight_states cache_key with
        | some st => st
        | none => sy.highlight_new inner.current_theme
    let iterOut := sy.highlight_iter highlight_state ops line
    let text_runs := runsFromPieces line iterOut.1
    let new_parse_state :=
      match sy.parse_line parse_state1 line with
      | some r => r.2
      | none => sy.parse_new language
    (text_runs,
     { inner with
         parse_states := alInsert inner.parse_states parse_state_key
           new_parse_state
         highlight_states := alInsert inner.highlight_states cache_key
           iterOut.2 })

theorem utf8Len_flatten (ls : List (List Char)) :
    utf8Len ls.flatten = (ls.map utf8Len).sum := by
  induction ls with
  | nil => rfl
  | cons l rest ih =>
    rw [List.flatten_cons, utf8Len_append, List.map_cons, List.sum_cons, ih]

theorem filter_nonzero_sum (rs : List (Style × Nat)) :
    (((rs.filter fun r => decide (r.2 ≠ 0)).map fun r => mkRun r.1 r.2).map
        TextRun.len).sum
      = (rs.map fun r => r.2).sum := by
  induction rs with
  | nil => rfl
  | cons r rest ih =>
    by_cases hz : r.2 ≠ 0
    · rw [List.filter_cons_of_pos (by simpa using hz)]
      rw [List.map_cons, List.map_cons, List.sum_cons, List.map_cons,
        List.sum_cons, ih]
      rfl
    · rw [List.filter_cons_of_neg (by simpa using hz)]
      rw [List.map_cons, List.sum_cons, ih]
      omega

/-- The run block always yields a non-empty list whose byte lengths sum to
the line's byte length, whenever the pieces concatenate to the line. -/
theorem runsFromPieces_sum (line : List Char)
    (pieces : List (Style × List Char))
    (hj : (pieces.map Prod.snd).flatten = line) :
    ((runsFromPieces line pieces).map TextRun.len).sum = utf8Len line ∧
    runsFromPieces line pieces ≠ [] := by
  have hsum : ((pieces.map fun p => (p.1, utf8Len p.2)).map fun r => r.2).sum
      = utf8Len line := by
    rw [← hj, utf8Len_flatten]
    rw [List.map_map, List.map_map]
    rfl
  unfold runsFromPieces
  by_cases hz : ((pieces.map fun p => (p.1, utf8Len p.2)).filter
      fun r => decide (r.2 ≠ 0)).map (fun r => mkRun r.1 r.2) = []
  · rw [if_pos hz]
    constructor
    · show (plainRun line).len + 0 = utf8Len line
      show utf8Len line + 0 = utf8Len line
      omega
    · simp
  · rw [if_neg hz]
    refine ⟨?_, hz⟩
    rw [filter_nonzero_sum]
    exact hsum

/-- The runs of `highlight_line` for a recognized language come from the
run block applied to the iterator's pieces (for some resumed states). -/
theorem highlight_line_runs_eq {PState HState Ops : Type}
    (sy : SyntectIface PState HState Ops)
    (inner : SyntaxHighlighterInner PState HState)
    (line : List Char) (language : String) (line_number : Nat)
    (h : ¬ sy.has_syntax language = false) :
    ∃ hs ops, (highlight_line sy inner line language line_number).1
      = runsFromPieces line (sy.highlight_iter hs ops line).1 := by
  unfold highlight_line
  rw [if_neg h]
  exact ⟨_, _, rfl⟩

/-- A concrete syntect model with no recognized languages, exercising the
fully in-source fallback path of `highlight_line`. -/
def syNoLang : SyntectIface Unit Unit Unit :=
  { has_syntax := fun _ => false
    parse_new := fun _ => ()
    parse_line := fun p _ => some ((), p)
    ops_default := ()
    highlight_new := fun _ => ()
    highlight_iter := fun h _ l => ([(⟨0, 0, false, false, false⟩, l)], h) }

/-- A fresh highlighter state. -/
def innerFresh : SyntaxHighlighterInner Unit Unit :=
  { current_theme := "Monokai", parse_states := [], highlight_states := [] }

/-- C5 counterexample: run lengths are UTF-8 byte lengths, not character
counts.  For the one-character line `"é"` under an unrecognized language,
the single fallback run has `len = line.len() = 2` bytes, not the
character length 1. -/
theorem c5_run_length_counterexample :
    (((highlight_line syNoLang innerFresh ['é'] "Rust" 0).1.map
        TextRun.len).sum = 2) ∧
    (['é'] : List Char).length = 1 ∧
    ¬ (((highlight_line syNoLang innerFresh ['é'] "Rust" 0).1.map
        TextRun.len).sum = (['é'] : List Char).length) := by
  refine ⟨rfl, rfl, ?_⟩
  intro h
  rw [show (List.map TextRun.len
    (highlight_line syNoLang innerFresh ['é'] "Rust" 0).1).sum = 2 from rfl] at h
  simp at h

/-- C5 (amended): for every line, language, line number and highlighter
state, `highlight_line` returns a non-empty sequence of runs whose
lengths sum to the line's UTF-8 byte length (`line.len()`), equal to the
character length only when the line is ASCII.  For a recognized language
this assumes the syntect iterator property that its pieces concatenate to
the input line; the unrecognized-language path needs no assumption. -/
theorem c5_amended_run_lengths :
    ∀ (PState HState Ops : Type) (sy : SyntectIface PState HState Ops),
      (∀ (hs : HState) (ops : Ops) (l : List Char),
        ((sy.highlight_iter hs ops l).1.map Prod.snd).flatten = l) →
      ∀ (inner : SyntaxHighlighterInner PState HState) (line : List Char)
        (language : String) (line_number : Nat),
        ((highlight_line sy inner line language line_number).1.map
            TextRun.len).sum = utf8Len line ∧
        (highlight_line sy inner line language line_number).1 ≠ [] ∧
        (asciiStr line = true → utf8Len line = line.length) := by
  intro PState HState Ops sy hjoin inner line language line_number
  by_cases hsx : sy.has_syntax language = false
  · unfold highlight_line
    rw [if_pos hsx]
    refine ⟨?_, by simp, utf8Len_of_ascii⟩
    show (plainRun line).len + 0 = utf8Len line
    show utf8Len line + 0 = utf8Len line
    omega
  · obtain ⟨hs, ops, heq⟩ :=
      highlight_line_runs_eq sy inner line language line_number hsx
    rw [heq]
    obtain ⟨h1, h2⟩ := runsFromPieces_sum line _ (hjoin hs ops line)
    exact ⟨h1, h2, utf8Len_of_ascii⟩

/-- A concrete syntect model whose behavior the counterexample can
compute: one recognized language, parse states counting how many lines
they have consumed. -/
def syCount : SyntectIface Nat Nat Unit :=
  { has_syntax := fun _ => true
    parse_new := fun _ => 0
    parse_line := fun p _ => some ((), p + 1)
    ops_default := ()
    highlight_new := fun _ => 0
    highlight_iter := fun h _ l => ([(⟨0, 0, false, false, false⟩, l)], h + 1) }

/-- A fresh highlighter state for `syCount`. -/
def innerFreshN : SyntaxHighlighterInner Nat Nat :=
  { current_theme := "Monokai", parse_states := [], highlight_states := [] }

/-- C5 witness: the amended claim applied at `syCount` (the iterator
yields one piece equal to the line, so the concatenation hypothesis holds
by `rfl`) on a concrete line. -/
theorem c5_amended_run_lengths_witness :
    (((highlight_line syCount innerFreshN ['a', 'é'] "Rust" 0).1.map
        TextRun.len).sum = utf8Len ['a', 'é'] ∧
     (highlight_line syCount innerFreshN ['a', 'é'] "Rust" 0).1 ≠ [] ∧
     (asciiStr ['a', 'é'] = true → utf8Len ['a', 'é'] = (['a', 'é']).length)) :=
  c5_amended_run_lengths Nat Nat Unit syCount
    (fun hs ops l => by simp [syCount]) innerFreshN ['a', 'é'] "Rust" 0

/-- The lexer state `highlight_line` resumes from: fresh for line 0,
otherwise the cached state for the language (fresh on a miss). -/
def hlParseResumed {PState HState Ops : Type}
    (sy : SyntectIface PState HState Ops)
    (inner : SyntaxHighlighterInner PState HState)
    (language : String) (line_number : Nat) : PState :=
  if line_number = 0 then sy.parse_new language
  else
    match alLookup inner.parse_states language with
    | some st => st
    | none => sy.parse_new language

/-- The colorizer state `highlight_line` resumes from: fresh for line 0,
otherwise the cached state for language-theme (fresh on a miss). -/
def hlHighlightResumed {PState HState Ops : Type}
    (sy : SyntectIface PState HState Ops)
    (inner : SyntaxHighlighterInner PState HState)
    (language : String) (line_number : Nat) : HState :=
  if line_number = 0 then sy.highlight_new inner.current_theme
  else
    match alLookup inner.highlight_states
        (language ++ "-" ++ inner.current_theme) with
    | some st => st
    | none => sy.highlight_new inner.current_theme

/-- Advancing a lexer state over one line (the ops-producing call keeps
the state unchanged on a parse error). -/
def parseOnce {PState HState Ops : Type}
    (sy : SyntectIface PState HState Ops) (st : PState) (line : List Char) :
    PState :=
  match sy.parse_line st line with
  | some r => r.2
  | none => st

/-- The ops of the first parse of the line. -/
def opsOf {PState HState Ops : Type}
    (sy : SyntectIface PState HState Ops) (st : PState) (line : List Char) :
    Ops :=
  match sy.parse_line st line with
  | some r => r.1
  | none => sy.ops_default

/-- The state-storing call: the line is parsed again from the given
(already advanced) state; an error stores a fresh state. -/
def parseStored {PState HState Ops : Type}
    (sy : SyntectIface PState HState Ops) (language : String) (st : PState)
    (line : List Char) : PState :=
  match sy.parse_line st line with
  | some r => r.2
  | none => sy.parse_new language

/-- Characterization of the cache effect of `highlight_line` for a
recognized language: the stored lexer state comes from parsing the line
TWICE from the resumed state; the stored colorizer state is the resumed
state advanced once by the iterator. -/
theorem highlight_line_state_eq {PState HState Ops : Type}
    (sy : SyntectIface PState HState Ops)
    (inner : SyntaxHighlighterInner PState HState)
    (line : List Char) (language : String) (line_number : Nat)
    (h : ¬ sy.has_syntax language = false) :
    (highlight_line sy inner line language line_number).2
      = { current_theme := inner.current_theme
          parse_states := alInsert
            (if line_number = 0 then alRemove inner.parse_states language
             else inner.parse_states)
            language
            (parseStored sy language
              (parseOnce sy (hlParseResumed sy inner language line_number) line)
              line)
          highlight_states := alInsert
            (if line_number = 0 then
              alRemove inner.highlight_states
                (language ++ "-" ++ inner.current_theme)
             else inner.highlight_states)
            (language ++ "-" ++ inner.current_theme)
            ((sy.highlight_iter
                (hlHighlightResumed sy inner language line_number)
                (opsOf sy (hlParseResumed sy inner language line_number) line)
                line).2) } := by
  unfold highlight_line hlParseResumed hlHighlightResumed parseOnce opsOf
    parseStored
  rw [if_neg h]
  by_cases hn : line_number = 0
  · simp only [if_pos hn]
    cases hpl : sy.parse_line (sy.parse_new language) line with
    | none => rfl
    | some r => rfl
  · simp only [if_neg hn]
    cases hal : alLookup inner.parse_states language with
    | none =>
      cases hpl : sy.parse_line (sy.parse_new language) line with
      | none => rfl
      | some r => rfl
    | some st =>
      cases hpl : sy.parse_line st line with
      | none => rfl
      | some r => rfl

/-- C6 counterexample: the cached lexer state reflects parsing the same
line twice.  In the counting model (`parse_line` increments the state),
highlighting line 0 stores parse state 2, while advancing the fresh state
by that single line once yields 1. -/
theorem c6_state_chaining_counterexample :
    alLookup (highlight_line syCount innerFreshN ['x'] "L" 0).2.parse_states
        "L" = some 2 ∧
    (syCount.parse_line (syCount.parse_new "L") ['x']).map Prod.snd
        = some 1 ∧
    (2 : Nat) ≠ 1 := by
  refine ⟨rfl, rfl, by decide⟩

/-- C6 (amended): line 0 always resumes from fresh lexer and colorizer
states and a cache miss falls back to a fresh state; after processing,
the colorizer state stored back is the resumed state advanced once by the
line, but the lexer state stored back is the resumed state advanced TWICE
(the line is parsed a second time by the storing call), so for n > 0 the
resumption is from that twice-advanced state, not from the state produced
by processing line n-1 once.  The theme key is unchanged. -/
theorem c6_amended_state_chaining :
    ∀ (PState HState Ops : Type) (sy : SyntectIface PState HState Ops)
      (inner : SyntaxHighlighterInner PState HState)
      (line : List Char) (language : String) (line_number : Nat),
      ¬ sy.has_syntax language = false →
      alLookup (highlight_line sy inner line language line_number).2.parse_states
          language
        = some (parseStored sy language
            (parseOnce sy (hlParseResumed sy inner language line_number) line)
            line) ∧
      alLookup
          (highlight_line sy inner line language line_number).2.highlight_states
          (language ++ "-" ++ inner.current_theme)
        = some ((sy.highlight_iter
            (hlHighlightResumed sy inner language line_number)
            (opsOf sy (hlParseResumed sy inner language line_number) line)
            line).2) ∧
      (highlight_line sy inner line language line_number).2.current_theme
        = inner.current_theme ∧
      (line_number = 0 →
        hlParseResumed sy inner language line_number = sy.parse_new language ∧
        hlHighlightResumed sy inner language line_number
          = sy.highlight_new inner.current_theme) := by
  intro PState HState Ops sy inner line language line_number h
  rw [highlight_line_state_eq sy inner line language line_number h]
  refine ⟨alLookup_alInsert _ _ _, alLookup_alInsert _ _ _, rfl, ?_⟩
  intro hn
  constructor
  · unfold hlParseResumed
    rw [if_pos hn]
  · unfold hlHighlightResumed
    rw [if_pos hn]

/-- C6 witness: the amended characterization applied at the counting
model on line 1 with a warm cache. -/
theorem c6_amended_state_chaining_witness :
    alLookup (highlight_line syCount
        { current_theme := "Monokai", parse_states := [("L", 5)],
          highlight_states := [("L-Monokai", 7)] } ['x'] "L" 1).2.parse_states
        "L"
      = some (parseStored syCount "L"
          (parseOnce syCount (hlParseResumed syCount
            { current_theme := "Monokai", parse_states := [("L", 5)],
              highlight_states := [("L-Monokai", 7)] } "L" 1) ['x']) ['x']) :=
  (c6_amended_state_chaining Nat Nat Unit syCount
    { current_theme := "Monokai", parse_states := [("L", 5)],
      highlight_states := [("L-Monokai", 7)] } ['x'] "L" 1 (by decide)).1

/-- Setting an index at or past the take bound leaves the prefix unchanged. -/
theorem take_set_of_le {α : Type} :
    ∀ (l : List α) (n m : Nat) (a : α), m ≤ n →
      (l.set n a).take m = l.take m := by
  intro l
  induction l with
  | nil => intro n m a h; rfl
  | cons x xs ih =>
    intro n m a h
    cases n with
    | zero =>
      have hm : m = 0 := Nat.le_zero.mp h
      subst hm
      rfl
    | succ n =>
      cases m with
      | zero => rfl
      | succ m =>
        show x :: (xs.set n a).take m = x :: xs.take m
        rw [ih n m a (Nat.le_of_succ_le_succ h)]

/-- Inserting at or past the take bound leaves the prefix unchanged. -/
theorem take_insertIdx_of_le {α : Type} :
    ∀ (l : List α) (n m : Nat) (a : α), m ≤ n →
      (l.insertIdx n a).take m = l.take m := by
  intro l
  induction l with
  | nil =>
    intro n m a h
    cases n with
    | zero =>
      have hm : m = 0 := Nat.le_zero.mp h
      subst hm
      rfl
    | succ n => cases m <;> rfl
  | cons x xs ih =>
    intro n m a h
    cases n with
    | zero =>
      have hm : m = 0 := Nat.le_zero.mp h
      subst hm
      rfl
    | succ n =>
      cases m with
      | zero => rfl
      | succ m =>
        show x :: (xs.insertIdx n a).take m = x :: xs.take m
        rw [ih n m a (Nat.le_of_succ_le_succ h)]

/-- Erasing an index at or past the take bound leaves the prefix
unchanged. -/
theorem take_eraseIdx_of_le {α : Type} :
    ∀ (l : List α) (n m : Nat), m ≤ n →
      (l.eraseIdx n).take m = l.take m := by
  intro l
  induction l with
  | nil => intro n m h; rfl
  | cons x xs ih =>
    intro n m h
    cases n with
    | zero =>
      have hm : m = 0 := Nat.le_zero.mp h
      subst hm
      rfl
    | succ n =>
      cases m with
      | zero => rfl
      | succ m =>
        show x :: (xs.eraseIdx n).take m = x :: xs.take m
        rw [ih n m (Nat.le_of_succ_le_succ h)]

namespace Editor

/-- Cache effect of `insert_char` without a selection: cleared from the
edited (cursor) row; earlier lines untouched. -/
theorem c7aux_insert_char (σ : Type) (e : Editor σ) (ch : Char)
    (e' : Editor σ) (ha : e.selection_anchor = none)
    (hop : e.insert_char ch = some e') :
    e'.cache = clear_state_from_line e.cache e.cursor_position.row e.language
    ∧ e'.buffer.lines.take e.cursor_position.row
        = e.buffer.lines.take e.cursor_position.row
    ∧ e'.language = e.language := by
  unfold insert_char at hop
  rw [delete_selection_none σ e ha] at hop
  simp only [Option.bind_eq_bind, Option.some_bind] at hop
  cases hline : e.buffer.lines.get? e.cursor_position.row with
  | none =>
    rw [hline] at hop
    simp only [Option.none_bind] at hop
    exact Option.noConfusion hop
  | some line =>
    rw [hline] at hop
    simp only [Option.some_bind] at hop
    cases hins : byteInsert line (min e.cursor_position.col (utf8Len line)) ch with
    | none =>
      rw [hins] at hop
      simp only [Option.none_bind] at hop
      exact Option.noConfusion hop
    | some line2 =>
      rw [hins] at hop
      simp only [Option.some_bind, Option.pure_def, Option.some.injEq] at hop
      subst hop
      have hlen0 : e.cursor_position.row < e.buffer.lines.length := by
        by_contra hh
        rw [List.get?_eq_none.mpr (by omega)] at hline
        exact Option.noConfusion hline
      have hne : e.buffer.lines.set e.cursor_position.row line2 ≠ [] := by
        intro hz
        have hz' := congrArg List.length hz
        rw [List.length_set, List.length_nil] at hz'
        omega
      refine ⟨rfl, ?_, rfl⟩
      show (SimpleBuffer.new
          (e.buffer.lines.set e.cursor_position.row line2)).lines.take
          e.cursor_position.row
        = e.buffer.lines.take e.cursor_position.row
      rw [sbNew_lines _ hne]
      exact take_set_of_le _ _ _ _ le_rfl

/-- Cache effect of `insert_newline` without a selection: cleared from
the split (original cursor) row; earlier lines untouched. -/
theorem c7aux_insert_newline (σ : Type) (e : Editor σ) (e' : Editor σ)
    (ha : e.selection_anchor = none) (hop : e.insert_newline = some e') :
    e'.cache = clear_state_from_line e.cache e.cursor_position.row e.language
    ∧ e'.buffer.lines.take e.cursor_position.row
        = e.buffer.lines.take e.cursor_position.row
    ∧ e'.language = e.language := by
  unfold insert_newline at hop
  rw [delete_selection_none σ e ha] at hop
  simp only [Option.bind_eq_bind, Option.some_bind] at hop
  cases hline : e.buffer.lines.get? e.cursor_position.row with
  | none =>
    rw [hline] at hop
    simp only [Option.none_bind] at hop
    exact Option.noConfusion hop
  | some current_line =>
    rw [hline] at hop
    simp only [Option.some_bind] at hop
    cases hsp : byteSplit current_line
        (min e.cursor_position.col (utf8Len current_line)) with
    | none =>
      rw [hsp] at hop
      simp only [Option.none_bind] at hop
      exact Option.noConfusion hop
    | some ba =>
      obtain ⟨before, after⟩ := ba
      rw [hsp] at hop
      simp only [Option.some_bind, Option.pure_def, Option.some.injEq] at hop
      subst hop
      have hlen0 : e.cursor_position.row < e.buffer.lines.length := by
        by_contra hh
        rw [List.get?_eq_none.mpr (by omega)] at hline
        exact Option.noConfusion hline
      refine ⟨by rw [Nat.add_sub_cancel], ?_, rfl⟩
      have hne : (e.buffer.lines.set e.cursor_position.row before).insertIdx
          (e.cursor_position.row + 1) after ≠ [] := by
        cases hset : e.buffer.lines.set e.cursor_position.row before with
        | nil =>
          have hz' := congrArg List.length hset
          rw [List.length_set, List.length_nil] at hz'
          omega
        | cons y ys =>
          have hred : ((y :: ys).insertIdx (e.cursor_position.row + 1) after)
              = y :: ys.insertIdx e.cursor_position.row after := rfl
          rw [hred]
          intro hz
          exact List.noConfusion hz
      show (SimpleBuffer.new
          ((e.buffer.lines.set e.cursor_position.row before).insertIdx
            (e.cursor_position.row + 1) after)).lines.take e.cursor_position.row
        = e.buffer.lines.take e.cursor_position.row
      rw [sbNew_lines _ hne]
      rw [take_insertIdx_of_le _ _ _ _ (Nat.le_succ _)]
      exact take_set_of_le _ _ _ _ le_rfl

/-- Cache effect of `backspace` without a selection: in-line deletion
clears from the cursor row, line join clears from the previous row (the
first modified row), and at (0,0) the cache and buffer are untouched. -/
theorem c7aux_backspace (σ : Type) (e : Editor σ) (e' : Editor σ)
    (ha : e.selection_anchor = none) (hop : e.backspace = some e') :
    (0 < e.cursor_position.col →
      e'.cache = clear_state_from_line e.cache e.cursor_position.row e.language
      ∧ e'.buffer.lines.take e.cursor_position.row
          = e.buffer.lines.take e.cursor_position.row)
    ∧ (e.cursor_position.col = 0 → 0 < e.cursor_position.row →
      e'.cache = clear_state_from_line e.cache (e.cursor_position.row - 1)
          e.language
      ∧ e'.buffer.lines.take (e.cursor_position.row - 1)
          = e.buffer.lines.take (e.cursor_position.row - 1))
    ∧ (e.cursor_position.col = 0 → e.cursor_position.row = 0 →
      e'.cache = e.cache ∧ e'.buffer = e.buffer) := by
  unfold backspace at hop
  rw [delete_selection_none σ e ha] at hop
  simp only [Option.bind_eq_bind, Option.some_bind] at hop
  rw [if_neg Bool.false_ne_true] at hop
  refine ⟨?_, ?_, ?_⟩
  · intro hcol
    rw [if_pos hcol] at hop
    cases hline : e.buffer.lines.get? e.cursor_position.row with
    | none =>
      rw [hline] at hop
      simp only [Option.none_bind] at hop
      exact Option.noConfusion hop
    | some line =>
      rw [hline] at hop
      simp only [Option.some_bind] at hop
      have hlen0 : e.cursor_position.row < e.buffer.lines.length := by
        by_contra hh
        rw [List.get?_eq_none.mpr (by omega)] at hline
        exact Option.noConfusion hline
      by_cases hcle : e.cursor_position.col ≤ utf8Len line
      · rw [if_pos hcle] at hop
        cases hc2 : byteRemoveAt line (e.cursor_position.col - 1) with
        | none =>
          rw [hc2] at hop
          simp only [Option.none_bind] at hop
          exact Option.noConfusion hop
        | some line2 =>
          rw [hc2] at hop
          simp only [Option.some_bind, Option.pure_def, Option.some.injEq] at hop
          subst hop
          have hne : e.buffer.lines.set e.cursor_position.row line2 ≠ [] := by
            intro hz
            have hz' := congrArg List.length hz
            rw [List.length_set, List.length_nil] at hz'
            omega
          refine ⟨rfl, ?_⟩
          show (SimpleBuffer.new
              (e.buffer.lines.set e.cursor_position.row line2)).lines.take
              e.cursor_position.row
            = e.buffer.lines.take e.cursor_position.row
          rw [sbNew_lines _ hne]
          exact take_set_of_le _ _ _ _ le_rfl
      · rw [if_neg hcle] at hop
        simp only [Option.pure_def, Option.some_bind, Option.some.injEq] at hop
        subst hop
        have hne : e.buffer.lines.set e.cursor_position.row line ≠ [] := by
          intro hz
          have hz' := congrArg List.length hz
          rw [List.length_set, List.length_nil] at hz'
          omega
        refine ⟨rfl, ?_⟩
        show (SimpleBuffer.new
            (e.buffer.lines.set e.cursor_position.row line)).lines.take
            e.cursor_position.row
          = e.buffer.lines.take e.cursor_position.row
        rw [sbNew_lines _ hne]
        exact take_set_of_le _ _ _ _ le_rfl
  · intro h0 hrow
    rw [if_neg (by omega), if_pos hrow] at hop
    cases hline : e.buffer.lines.get? e.cursor_position.row with
    | none =>
      rw [hline] at hop
      simp only [Option.none_bind] at hop
      exact Option.noConfusion hop
    | some current_line =>
      rw [hline] at hop
      simp only [Option.some_bind] at hop
      cases hprev : (e.buffer.lines.eraseIdx e.cursor_position.row).get?
          (e.cursor_position.row - 1) with
      | none =>
        rw [hprev] at hop
        simp only [Option.none_bind] at hop
        exact Option.noConfusion hop
      | some prev =>
        rw [hprev] at hop
        simp only [Option.some_bind, Option.pure_def, Option.some.injEq] at hop
        subst hop
        have hlen0 : e.cursor_position.row < e.buffer.lines.length := by
          by_contra hh
          rw [List.get?_eq_none.mpr (by omega)] at hline
          exact Option.noConfusion hline
        have hlenE : (e.buffer.lines.eraseIdx e.cursor_position.row).length
            = e.buffer.lines.length - 1 :=
          List.length_eraseIdx_of_lt hlen0
        have hne : (e.buffer.lines.eraseIdx e.cursor_position.row).set
            (e.cursor_position.row - 1) (prev ++ current_line) ≠ [] := by
          intro hz
          have hz' := congrArg List.length hz
          rw [List.length_set, hlenE, List.length_nil] at hz'
          omega
        refine ⟨rfl, ?_⟩
        show (SimpleBuffer.new
            ((e.buffer.lines.eraseIdx e.cursor_position.row).set
              (e.cursor_position.row - 1) (prev ++ current_line))).lines.take
            (e.cursor_position.row - 1)
          = e.buffer.lines.take (e.cursor_position.row - 1)
        rw [sbNew_lines _ hne]
        rw [take_set_of_le _ _ _ _ le_rfl]
        exact take_eraseIdx_of_le _ _ _ (by omega)
  · intro h0 hr0
    rw [if_neg (by omega), if_neg (by omega)] at hop
    simp only [Option.pure_def, Option.some.injEq] at hop
    subst hop
    exact ⟨rfl, rfl⟩

/-- Cache effect of `delete` without a selection: both the in-line
deletion and the join with the next line clear from the cursor row;
at end of document the cache and buffer are untouched. -/
theorem c7aux_delete (σ : Type) (e : Editor σ) (e' : Editor σ)
    (ha : e.selection_anchor = none) (hop : e.delete = some e') :
    (e.cursor_position.col < e.buffer.line_len e.cursor_position.row →
      e'.cache = clear_state_from_line e.cache e.cursor_position.row e.language
      ∧ e'.buffer.lines.take e.cursor_position.row
          = e.buffer.lines.take e.cursor_position.row)
    ∧ (¬ e.cursor_position.col < e.buffer.line_len e.cursor_position.row →
       e.cursor_position.row < e.buffer.line_count - 1 →
      e'.cache = clear_state_from_line e.cache e.cursor_position.row e.language
      ∧ e'.buffer.lines.take e.cursor_position.row
          = e.buffer.lines.take e.cursor_position.row)
    ∧ (¬ e.cursor_position.col < e.buffer.line_len e.cursor_position.row →
       ¬ e.cursor_position.row < e.buffer.line_count - 1 →
      e'.cache = e.cache ∧ e'.buffer = e.buffer) := by
  unfold delete at hop
  rw [delete_selection_none σ e ha] at hop
  simp only [Option.bind_eq_bind, Option.some_bind] at hop
  rw [if_neg Bool.false_ne_true] at hop
  refine ⟨?_, ?_, ?_⟩
  · intro hcol
    rw [if_pos hcol] at hop
    cases hline : e.buffer.lines.get? e.cursor_position.row with
    | none =>
      rw [hline] at hop
      simp only [Option.none_bind] at hop
      exact Option.noConfusion hop
    | some line =>
      rw [hline] at hop
      simp only [Option.some_bind] at hop
      have hlen0 : e.cursor_position.row < e.buffer.lines.length := by
        by_contra hh
        rw [List.get?_eq_none.mpr (by omega)] at hline
        exact Option.noConfusion hline
      by_cases hcle : e.cursor_position.col < utf8Len line
      · rw [if_pos hcle] at hop
        cases hc2 : byteRemoveAt line e.cursor_position.col with
        | none =>
          rw [hc2] at hop
          simp only [Option.none_bind] at hop
          exact Option.noConfusion hop
        | some line2 =>
          rw [hc2] at hop
          simp only [Option.some_bind, Option.pure_def, Option.some.injEq] at hop
          subst hop
          have hne : e.buffer.lines.set e.cursor_position.row line2 ≠ [] := by
            intro hz
            have hz' := congrArg List.length hz
            rw [List.length_set, List.length_nil] at hz'
            omega
          refine ⟨rfl, ?_⟩
          show (SimpleBuffer.new
              (e.buffer.lines.set e.cursor_position.row line2)).lines.take
              e.cursor_position.row
            = e.buffer.lines.take e.cursor_position.row
          rw [sbNew_lines _ hne]
          exact take_set_of_le _ _ _ _ le_rfl
      · rw [if_neg hcle] at hop
        simp only [Option.pure_def, Option.some_bind, Option.some.injEq] at hop
        subst hop
        have hne : e.buffer.lines.set e.cursor_position.row line ≠ [] := by
          intro hz
          have hz' := congrArg List.length hz
          rw [List.length_set, List.length_nil] at hz'
          omega
        refine ⟨rfl, ?_⟩
        show (SimpleBuffer.new
            (e.buffer.lines.set e.cursor_position.row line)).lines.take
            e.cursor_position.row
          = e.buffer.lines.take e.cursor_position.row
        rw [sbNew_lines _ hne]
        exact take_set_of_le _ _ _ _ le_rfl
  · intro hcol hrow
    rw [if_neg hcol, if_pos hrow] at hop
    cases hnext : e.buffer.lines.get? (e.cursor_position.row + 1) with
    | none =>
      rw [hnext] at hop
      simp only [Option.none_bind] at hop
      exact Option.noConfusion hop
    | some next_line =>
      rw [hnext] at hop
      simp only [Option.some_bind] at hop
      cases hcur : (e.buffer.lines.eraseIdx (e.cursor_position.row + 1)).get?
          e.cursor_position.row with
      | none =>
        rw [hcur] at hop
        simp only [Option.none_bind] at hop
        exact Option.noConfusion hop
      | some cur =>
        rw [hcur] at hop
        simp only [Option.some_bind, Option.pure_def, Option.some.injEq] at hop
        subst hop
        have hlenE : e.cursor_position.row
            < (e.buffer.lines.eraseIdx (e.cursor_position.row + 1)).length := by
          by_contra hh
          rw [List.get?_eq_none.mpr (by omega)] at hcur
          exact Option.noConfusion hcur
        have hne : (e.buffer.lines.eraseIdx (e.cursor_position.row + 1)).set
            e.cursor_position.row (cur ++ next_line) ≠ [] := by
          intro hz
          have hz' := congrArg List.length hz
          rw [List.length_set, List.length_nil] at hz'
          omega
        refine ⟨rfl, ?_⟩
        show (SimpleBuffer.new
            ((e.buffer.lines.eraseIdx (e.cursor_position.row + 1)).set
              e.cursor_position.row (cur ++ next_line))).lines.take
            e.cursor_position.row
          = e.buffer.lines.take e.cursor_position.row
        rw [sbNew_lines _ hne]
        rw [take_set_of_le _ _ _ _ le_rfl]
        exact take_eraseIdx_of_le _ _ _ (Nat.le_succ _)
  · intro hcol hrow
    rw [if_neg hcol, if_neg hrow] at hop
    simp only [Option.pure_def, Option.some.injEq] at hop
    subst hop
    exact ⟨rfl, rfl⟩

/-- Cache effect of `delete_selection` with a selection: cleared from the
selection start row; earlier lines untouched. -/
theorem c7aux_delete_selection (σ : Type) (e : Editor σ)
    (s en : CursorPosition) (e' : Editor σ) (b : Bool)
    (hsr : e.get_selection_range = some (s, en))
    (hds : e.delete_selection = some (e', b)) :
    e'.cache = clear_state_from_line e.cache s.row e.language
    ∧ e'.buffer.lines.take s.row = e.buffer.lines.take s.row := by
  unfold delete_selection at hds
  simp only [hsr] at hds
  by_cases hre : s.row = en.row
  · rw [if_pos hre] at hds
    cases hline : e.buffer.lines.get? s.row with
    | none =>
      rw [hline] at hds
      simp only [Option.bind_eq_bind, Option.none_bind] at hds
      exact Option.noConfusion hds
    | some line =>
      rw [hline] at hds
      simp only [Option.bind_eq_bind, Option.some_bind] at hds
      cases hta : byteTake line (min s.col (utf8Len line)) with
      | none =>
        rw [hta] at hds
        simp only [Option.none_bind] at hds
        exact Option.noConfusion hds
      | some ta =>
        rw [hta] at hds
        simp only [Option.some_bind] at hds
        cases hdb : byteDrop line (min en.col (utf8Len line)) with
        | none =>
          rw [hdb] at hds
          simp only [Option.none_bind] at hds
          exact Option.noConfusion hds
        | some db =>
          rw [hdb] at hds
          simp only [Option.some_bind, Option.pure_def, Option.some.injEq,
            Prod.mk.injEq] at hds
          obtain ⟨hds, -⟩ := hds
          subst hds
          have hlen0 : s.row < e.buffer.lines.length := by
            by_contra hh
            rw [List.get?_eq_none.mpr (by omega)] at hline
            exact Option.noConfusion hline
          have hne : e.buffer.lines.set s.row (ta ++ db) ≠ [] := by
            intro hz
            have hz' := congrArg List.length hz
            rw [List.length_set, List.length_nil] at hz'
            omega
          refine ⟨rfl, ?_⟩
          show (SimpleBuffer.new
              (e.buffer.lines.set s.row (ta ++ db))).lines.take s.row
            = e.buffer.lines.take s.row
          rw [sbNew_lines _ hne]
          exact take_set_of_le _ _ _ _ le_rfl
  · rw [if_neg hre] at hds
    cases hfirst : e.buffer.lines.get? s.row with
    | none =>
      rw [hfirst] at hds
      simp only [Option.bind_eq_bind, Option.none_bind] at hds
      exact Option.noConfusion hds
    | some first_line =>
      rw [hfirst] at hds
      simp only [Option.bind_eq_bind, Option.some_bind] at hds
      cases hlast : e.buffer.lines.get? en.row with
      | none =>
        rw [hlast] at hds
        simp only [Option.none_bind] at hds
        exact Option.noConfusion hds
      | some last_line =>
        rw [hlast] at hds
        simp only [Option.some_bind] at hds
        cases hta : byteTake first_line (min s.col (utf8Len first_line)) with
        | none =>
          rw [hta] at hds
          simp only [Option.none_bind] at hds
          exact Option.noConfusion hds
        | some ta =>
          rw [hta] at hds
          simp only [Option.some_bind] at hds
          cases hdb : byteDrop last_line (min en.col (utf8Len last_line)) with
          | none =>
            rw [hdb] at hds
            simp only [Option.none_bind] at hds
            exact Option.noConfusion hds
          | some db =>
            rw [hdb] at hds
            simp only [Option.some_bind, Option.pure_def, Option.some.injEq,
              Prod.mk.injEq] at hds
            obtain ⟨hds, -⟩ := hds
            subst hds
            have hlen0 : s.row < e.buffer.lines.length := by
              by_contra hh
              rw [List.get?_eq_none.mpr (by omega)] at hfirst
              exact Option.noConfusion hfirst
            have hne : e.buffer.lines.take s.row ++ [ta ++ db]
                ++ e.buffer.lines.drop (en.row + 1) ≠ [] := by
              intro hz
              have hz' := congrArg List.length hz
              rw [List.length_append, List.length_append, List.length_nil]
                at hz'
              simp only [List.length_cons, List.length_nil] at hz'
              omega
            refine ⟨rfl, ?_⟩
            show (SimpleBuffer.new (e.buffer.lines.take s.row ++ [ta ++ db]
                ++ e.buffer.lines.drop (en.row + 1))).lines.take s.row
              = e.buffer.lines.take s.row
            rw [sbNew_lines _ hne]
            have hlt : (e.buffer.lines.take s.row).length = s.row := by
              rw [List.length_take]
              omega
            rw [List.take_append_of_le_length (by
              rw [List.length_append, hlt]
              simp only [List.length_cons, List.length_nil]
              omega)]
            rw [List.take_append_of_le_length (by rw [hlt])]
            rw [List.take_take, min_self]

end Editor

/-- A concrete editor with three lines and a warm three-row highlight
cache, used to witness the invalidation claim. -/
def eDemoC7 : Editor Nat :=
  { buffer := SimpleBuffer.new [['a'], ['b'], ['c']]
    cursor_position := ⟨1, 1⟩
    goal_column := none
    selection_anchor := none
    language := "Rust"
    cache := [(("Rust", 0), 10), (("Rust", 1), 11), (("Rust", 2), 12)] }

/-- C7 (spec-modelled invalidation): every edit operation replaces the
highlight cache by `clear_state_from_line` at the first modified row r —
which keeps exactly the entries of other languages or of rows < r and
discards every entry of the active language at rows ≥ r — and leaves the
lines before r unchanged: `insert_char` and the in-line branches of
`backspace`/`delete` clear from the cursor row, `insert_newline` from the
split row, the backspace line-join from the previous row (the first
modified row), the delete line-join from the cursor row,
`delete_selection` from the selection start row, `update_line i` from i,
and `update_buffer` discards the whole cache. -/
theorem c7_edit_invalidation (σ : Type) (e : Editor σ) :
    (∀ (cache : HCache σ) (r : Nat) (lang : String)
        (ent : (String × Nat) × σ),
      ent ∈ clear_state_from_line cache r lang
        ↔ ent ∈ cache ∧ ¬ (ent.1.1 = lang ∧ r ≤ ent.1.2)) ∧
    (∀ (ch : Char) (e' : Editor σ), e.selection_anchor = none →
      e.insert_char ch = some e' →
      e'.cache = clear_state_from_line e.cache e.cursor_position.row e.language
      ∧ e'.buffer.lines.take e.cursor_position.row
          = e.buffer.lines.take e.cursor_position.row) ∧
    (∀ (e' : Editor σ), e.selection_anchor = none →
      e.insert_newline = some e' →
      e'.cache = clear_state_from_line e.cache e.cursor_position.row e.language
      ∧ e'.buffer.lines.take e.cursor_position.row
          = e.buffer.lines.take e.cursor_position.row) ∧
    (∀ (e' : Editor σ), e.selection_anchor = none → e.backspace = some e' →
      (0 < e.cursor_position.col →
        e'.cache
          = clear_state_from_line e.cache e.cursor_position.row e.language
        ∧ e'.buffer.lines.take e.cursor_position.row
            = e.buffer.lines.take e.cursor_position.row)
      ∧ (e.cursor_position.col = 0 → 0 < e.cursor_position.row →
        e'.cache = clear_state_from_line e.cache (e.cursor_position.row - 1)
            e.language
        ∧ e'.buffer.lines.take (e.cursor_position.row - 1)
            = e.buffer.lines.take (e.cursor_position.row - 1))
      ∧ (e.cursor_position.col = 0 → e.cursor_position.row = 0 →
        e'.cache = e.cache ∧ e'.buffer = e.buffer)) ∧
    (∀ (e' : Editor σ), e.selection_anchor = none → e.delete = some e' →
      (e.cursor_position.col < e.buffer.line_len e.cursor_position.row →
        e'.cache
          = clear_state_from_line e.cache e.cursor_position.row e.language
        ∧ e'.buffer.lines.take e.cursor_position.row
            = e.buffer.lines.take e.cursor_position.row)
      ∧ (¬ e.cursor_position.col < e.buffer.line_len e.cursor_position.row →
         e.cursor_position.row < e.buffer.line_count - 1 →
        e'.cache
          = clear_state_from_line e.cache e.cursor_position.row e.language
        ∧ e'.buffer.lines.take e.cursor_position.row
            = e.buffer.lines.take e.cursor_position.row)
      ∧ (¬ e.cursor_position.col < e.buffer.line_len e.cursor_position.row →
         ¬ e.cursor_position.row < e.buffer.line_count - 1 →
        e'.cache = e.cache ∧ e'.buffer = e.buffer)) ∧
    (∀ (s en : CursorPosition) (e' : Editor σ) (b : Bool),
      e.get_selection_range = some (s, en) →
      e.delete_selection = some (e', b) →
      e'.cache = clear_state_from_line e.cache s.row e.language
      ∧ e'.buffer.lines.take s.row = e.buffer.lines.take s.row) ∧
    (∀ (i : Nat) (c : List Char),
      (i < e.buffer.lines.length →
        (e.update_line i c).cache = clear_state_from_line e.cache i e.language
        ∧ (e.update_line i c).buffer.lines.take i = e.buffer.lines.take i)
      ∧ (¬ i < e.buffer.lines.length → e.update_line i c = e)) ∧
    (∀ (ls : List (List Char)), (e.update_buffer ls).cache = []) := by
  refine ⟨?_, ?_, ?_, ?_, ?_, ?_, ?_, ?_⟩
  · intro cache r lang ent
    simp [clear_state_from_line, List.mem_filter]
    intro hmem
    constructor
    · intro h ha
      rcases h with h | h
      · exact absurd ha h
      · omega
    · intro h
      by_cases ha : ent.1.1 = lang
      · exact Or.inr (h ha)
      · exact Or.inl ha
  · intro ch e' ha hop
    exact ⟨(Editor.c7aux_insert_char σ e ch e' ha hop).1,
           (Editor.c7aux_insert_char σ e ch e' ha hop).2.1⟩
  · intro e' ha hop
    exact ⟨(Editor.c7aux_insert_newline σ e e' ha hop).1,
           (Editor.c7aux_insert_newline σ e e' ha hop).2.1⟩
  · intro e' ha hop
    exact Editor.c7aux_backspace σ e e' ha hop
  · intro e' ha hop
    exact Editor.c7aux_delete σ e e' ha hop
  · intro s en e' b hsr hds
    exact Editor.c7aux_delete_selection σ e s en e' b hsr hds
  · intro i c
    constructor
    · intro hi
      unfold Editor.update_line
      rw [if_pos hi]
      have hne : e.buffer.lines.set i c ≠ [] := by
        intro hz
        have hz' := congrArg List.length hz
        rw [List.length_set, List.length_nil] at hz'
        omega
      refine ⟨rfl, ?_⟩
      show (SimpleBuffer.new (e.buffer.lines.set i c)).lines.take i
        = e.buffer.lines.take i
      rw [sbNew_lines _ hne]
      exact take_set_of_le _ _ _ _ le_rfl
    · intro hi
      unfold Editor.update_line
      rw [if_neg hi]
  · intro ls
    rfl

/-- C7 witness: inserting a character at row 1 of the demo editor keeps
exactly the cached state of row 0 and discards the states of rows 1, 2. -/
theorem c7_edit_invalidation_witness :
    ((eDemoC7.insert_char 'x').getD eDemoC7).cache
        = clear_state_from_line eDemoC7.cache 1 "Rust"
    ∧ clear_state_from_line eDemoC7.cache 1 "Rust" = [(("Rust", 0), 10)] :=
  ⟨((c7_edit_invalidation Nat eDemoC7).2.1 'x'
      ((eDemoC7.insert_char 'x').getD eDemoC7) rfl rfl).1, rfl⟩

/-- A separator-free string splits into a single piece. -/
theorem splitOnChar_nosep (sep : Char) (l : List Char) (h : ¬ sep ∈ l) :
    splitOnChar sep l = [l] := by
  induction l with
  | nil => rfl
  | cons c cs ih =>
    rw [splitOnChar]
    rw [if_neg (fun hc => h (by rw [← hc]; exact List.mem_cons_self c cs))]
    rw [ih (fun hm => h (List.mem_cons_of_mem c hm))]

/-- Splitting a string that starts with a separator-free piece followed
by the separator peels off that piece. -/
theorem splitOnChar_append_sep (sep : Char) (l rest : List Char)
    (h : ¬ sep ∈ l) :
    splitOnChar sep (l ++ sep :: rest) = l :: splitOnChar sep rest := by
  induction l with
  | nil =>
    show splitOnChar sep (sep :: rest) = [] :: splitOnChar sep rest
    rw [splitOnChar, if_pos rfl]
  | cons c cs ih =>
    rw [List.cons_append, splitOnChar]
    rw [if_neg (fun hc => h (by rw [← hc]; exact List.mem_cons_self c cs))]
    rw [ih (fun hm => h (List.mem_cons_of_mem c hm))]

/-- `splitOnChar` is a left inverse of `joinSep` on non-empty lists of
separator-free lines. -/
theorem splitOnChar_joinSep (sep : Char) (L : List (List Char))
    (hne : L ≠ []) (hnl : ∀ l ∈ L, ¬ sep ∈ l) :
    splitOnChar sep (joinSep sep L) = L := by
  induction L with
  | nil => exact absurd rfl hne
  | cons l ls ih =>
    cases ls with
    | nil =>
      show splitOnChar sep (joinSep sep [l]) = [l]
      rw [show joinSep sep [l] = l from rfl]
      exact splitOnChar_nosep sep l (hnl l (List.mem_cons_self l []))
    | cons m ms =>
      rw [joinSep_cons_cons]
      rw [splitOnChar_append_sep sep l _ (hnl l (List.mem_cons_self l _))]
      rw [ih (by simp) (fun x hx => hnl x (List.mem_cons_of_mem l hx))]

/-- No piece of a split contains the separator. -/
theorem splitOnChar_no_sep (sep : Char) (s : List Char) :
    ∀ p ∈ splitOnChar sep s, ¬ sep ∈ p := by
  induction s with
  | nil =>
    intro p hp
    simp [splitOnChar] at hp
    subst hp
    simp
  | cons c cs ih =>
    intro p hp
    rw [splitOnChar] at hp
    by_cases hc : c = sep
    · rw [if_pos hc] at hp
      rcases List.mem_cons.mp hp with h | h
      · subst h
        simp
      · exact ih p h
    · rw [if_neg hc] at hp
      cases hsp : splitOnChar sep cs with
      | nil => exact absurd hsp (splitOnChar_ne_nil sep cs)
      | cons l ls =>
        rw [hsp] at hp
        rcases List.mem_cons.mp hp with h | h
        · subst h
          intro hmem
          rcases List.mem_cons.mp hmem with h2 | h2
          · exact hc h2.symm
          · exact ih l (hsp ▸ List.mem_cons_self l ls) h2
        · exact ih p (hsp ▸ List.mem_cons_of_mem l h)

/-- Every character of a split piece comes from the split string. -/
theorem splitOnChar_sub (sep : Char) (s : List Char) :
    ∀ p ∈ splitOnChar sep s, ∀ x ∈ p, x ∈ s := by
  induction s with
  | nil =>
    intro p hp x hx
    simp [splitOnChar] at hp
    subst hp
    simp at hx
  | cons c cs ih =>
    intro p hp x hx
    rw [splitOnChar] at hp
    by_cases hc : c = sep
    · rw [if_pos hc] at hp
      rcases List.mem_cons.mp hp with h | h
      · subst h
        simp at hx
      · exact List.mem_cons_of_mem c (ih p h x hx)
    · rw [if_neg hc] at hp
      cases hsp : splitOnChar sep cs with
      | nil => exact absurd hsp (splitOnChar_ne_nil sep cs)
      | cons l ls =>
        rw [hsp] at hp
        rcases List.mem_cons.mp hp with h | h
        · subst h
          rcases List.mem_cons.mp hx with h2 | h2
          · subst h2
            exact List.mem_cons_self x cs
          · exact List.mem_cons_of_mem c
              (ih l (hsp ▸ List.mem_cons_self l ls) x h2)
        · exact List.mem_cons_of_mem c
            (ih p (hsp ▸ List.mem_cons_of_mem l h) x hx)

/-- A string containing the separator splits into at least two pieces. -/
theorem splitOnChar_len2 (sep : Char) (s : List Char) (h : sep ∈ s) :
    2 ≤ (splitOnChar sep s).length := by
  induction s with
  | nil => simp at h
  | cons c cs ih =>
    rw [splitOnChar]
    by_cases hc : c = sep
    · rw [if_pos hc]
      have h1 : splitOnChar sep cs ≠ [] := splitOnChar_ne_nil sep cs
      cases hsp : splitOnChar sep cs with
      | nil => exact absurd hsp h1
      | cons l ls => simp
    · rw [if_neg hc]
      have hmem : sep ∈ cs := by
        rcases List.mem_cons.mp h with h2 | h2
        · exact absurd h2.symm hc
        · exact h2
      cases hsp : splitOnChar sep cs with
      | nil => exact absurd hsp (splitOnChar_ne_nil sep cs)
      | cons l ls =>
        have := ih hmem
        rw [hsp] at this
        simpa using this

/-- `to_string` is the '\n'-join of `to_lines`. -/
theorem GapBuffer.to_string_join (gb : GapBuffer) :
    gb.to_string = joinSep '\n' gb.to_lines := by
  rw [GapBuffer.to_lines_eq_split, joinSep_splitOnChar]

theorem GapBuffer.to_lines_ne_nil (gb : GapBuffer) : gb.to_lines ≠ [] := by
  rw [GapBuffer.to_lines_eq_split]
  exact splitOnChar_ne_nil '\n' gb.to_string

/-- No line of `to_lines` contains a newline. -/
theorem GapBuffer.noNl_to_lines (gb : GapBuffer) :
    ∀ l ∈ gb.to_lines, ¬ '\n' ∈ l := by
  rw [GapBuffer.to_lines_eq_split]
  exact splitOnChar_no_sep '\n' gb.to_string

/-- A string all of whose characters come from an ASCII string is ASCII. -/
theorem asciiStr_of_sub {s p : List Char} (h : asciiStr s = true)
    (hsub : ∀ x ∈ p, x ∈ s) : asciiStr p = true := by
  simp only [asciiStr, List.all_eq_true, decide_eq_true_eq] at *
  intro c hc
  exact h c (hsub c hc)

/-- The join of ASCII lines is ASCII. -/
theorem asciiStr_joinSep {L : List (List Char)} (h : asciiLines L = true) :
    asciiStr (joinSep '\n' L) = true := by
  induction L with
  | nil => rfl
  | cons l ls ih =>
    simp only [asciiLines, List.all_eq_true] at h
    have hl : asciiStr l = true := h l (List.mem_cons_self l ls)
    have hls : asciiLines ls = true := by
      simp only [asciiLines, List.all_eq_true]
      exact fun x hx => h x (List.mem_cons_of_mem l hx)
    cases ls with
    | nil => exact hl
    | cons m ms =>
      rw [joinSep_cons_cons]
      refine asciiStr_append hl ?_
      have hmid : asciiStr ['\n'] = true := by decide
      have := asciiStr_append hmid (ih hls)
      simpa using this

/-- The row-start offset grows by the previous line's length plus one
newline from one row to the next. -/
theorem preLen_succ (L : List (List Char)) (r : Nat) (h0 : 0 < r)
    (h : r < L.length) :
    preLen L r = preLen L (r - 1) + utf8Len (L.getD (r - 1) []) + 1 := by
  induction L generalizing r with
  | nil => simp at h
  | cons l ls ih =>
    cases r with
    | zero => omega
    | succ rr =>
      cases rr with
      | zero =>
        have hls : ls ≠ [] := by
          intro hx
          rw [hx] at h
          simp at h
        show utf8Len l + (if ls = [] then 0 else 1) + preLen ls 0
          = 0 + utf8Len l + 1
        rw [if_neg hls]
        rw [show preLen ls 0 = 0 from by cases ls <;> rfl]
        omega
      | succ r2 =>
        have hr : r2 + 1 < ls.length := by simpa using h
        have hls : ls ≠ [] := by
          intro hx
          rw [hx] at hr
          simp at hr
        have ihh := ih (r2 + 1) (by omega) hr
        show utf8Len l + (if ls = [] then 0 else 1) + preLen ls (r2 + 1)
          = preLen (l :: ls) (r2 + 1) + utf8Len ((l :: ls).getD (r2 + 1) []) + 1
        rw [if_neg hls]
        rw [ihh]
        show utf8Len l + 1 + (preLen ls r2 + utf8Len (ls.getD r2 []) + 1)
          = (utf8Len l + (if ls = [] then 0 else 1) + preLen ls r2)
            + utf8Len (ls.getD r2 []) + 1
        rw [if_neg hls]
        omega

/-- Erasing row `r` and overwriting row `r - 1` is the canonical
line-join splice. -/
theorem eraseIdx_set_pred {α : Type} [Inhabited α] (L : List α) (r : Nat)
    (h : r < L.length) (h0 : 0 < r) (v : α) :
    (L.eraseIdx r).set (r - 1) v = L.take (r - 1) ++ v :: L.drop (r + 1) := by
  rw [List.eraseIdx_eq_take_drop_succ]
  rw [List.set_append_left _ _ (by rw [List.length_take]; omega)]
  rw [List.set_eq_take_append_cons_drop]
  rw [if_pos (by rw [List.length_take]; omega)]
  rw [List.take_take]
  rw [show min (r - 1) r = r - 1 from by omega]
  rw [show r - 1 + 1 = r from by omega]
  rw [List.drop_eq_nil_of_le (by rw [List.length_take]; omega)]
  simp

/-- The line list produced by inserting `T` at (row `r`, character column
`c`): a newline-free `T` is spliced into the row; otherwise the row is
split around the pieces of `T` exactly as `SimpleBuffer::insert_at`
builds them. -/
def spliceLines (L : List (List Char)) (r c : Nat) (T : List Char) :
    List (List Char) :=
  let line := L.getD r []
  if T.contains '\n' then
    let ps := splitOnChar '\n' T
    L.take r ++ [line.take c ++ ps.headI] ++ (ps.drop 1).dropLast
      ++ [ps.getLast?.getD [] ++ line.drop c] ++ L.drop (r + 1)
  else
    L.set r (line.take c ++ T ++ line.drop c)

theorem contains_iff_mem (T : List Char) (a : Char) :
    T.contains a = true ↔ a ∈ T := by
  simp [List.elem_eq_mem]

theorem spliceLines_ne_nil (L : List (List Char)) (r c : Nat)
    (T : List Char) (hr : r < L.length) : spliceLines L r c T ≠ [] := by
  unfold spliceLines
  by_cases hcont : T.contains '\n'
  · rw [if_pos hcont]
    simp
  · rw [if_neg hcont]
    intro hz
    have hz' := congrArg List.length hz
    rw [List.length_set, List.length_nil] at hz'
    omega

theorem spliceLines_noNl (L : List (List Char)) (r c : Nat) (T : List Char)
    (hnl : ∀ l ∈ L, ¬ '\n' ∈ l) :
    ∀ l ∈ spliceLines L r c T, ¬ '\n' ∈ l := by
  have hline : ¬ '\n' ∈ L.getD r [] := by
    by_cases hrl : r < L.length
    · rw [List.getD_eq_getElem?_getD, List.getElem?_eq_getElem hrl]
      exact hnl _ (List.getElem_mem hrl)
    · rw [List.getD_eq_getElem?_getD, List.getElem?_eq_none (by omega)]
      simp
  have hlt : ¬ '\n' ∈ (L.getD r []).take c :=
    fun hm => hline (List.mem_of_mem_take hm)
  have hld : ¬ '\n' ∈ (L.getD r []).drop c :=
    fun hm => hline (List.mem_of_mem_drop hm)
  unfold spliceLines
  by_cases hcont : T.contains '\n'
  · rw [if_pos hcont]
    intro l hl
    have hpieces := splitOnChar_no_sep '\n' T
    rcases List.mem_append.mp hl with hl | hl
    · rcases List.mem_append.mp hl with hl | hl
      · rcases List.mem_append.mp hl with hl | hl
        · rcases List.mem_append.mp hl with hl | hl
          · exact hnl l (List.mem_of_mem_take hl)
          · rw [List.mem_singleton.mp hl]
            intro hm
            rcases List.mem_append.mp hm with hm | hm
            · exact hlt hm
            · refine hpieces _ ?_ hm
              cases hps : splitOnChar '\n' T with
              | nil => exact absurd hps (splitOnChar_ne_nil '\n' T)
              | cons p0 qs =>
                exact List.mem_cons_self p0 qs
        · refine fun hm => hpieces l ?_ hm
          have h1 : l ∈ (splitOnChar '\n' T).drop 1 :=
            List.mem_of_mem_dropLast hl
          exact List.mem_of_mem_drop h1
      · rw [List.mem_singleton.mp hl]
        intro hm
        rcases List.mem_append.mp hm with hm | hm
        · refine hpieces _ ?_ hm
          cases hps : (splitOnChar '\n' T).getLast? with
          | none =>
            rw [hps] at hm
            simp at hm
          | some pl =>
            exact List.mem_of_mem_getLast? hps
        · exact hld hm
    · exact hnl l (List.mem_of_mem_drop hl)
  · rw [if_neg hcont]
    intro l hl
    rcases List.mem_or_eq_of_mem_set hl with hl | hl
    · exact hnl l hl
    · rw [hl]
      intro hm
      rcases List.mem_append.mp hm with hm | hm
      · rcases List.mem_append.mp hm with hm | hm
        · exact hlt hm
        · exact hcont ((contains_iff_mem T '\n').mpr hm)
      · exact hld hm

theorem spliceLines_ascii (L : List (List Char)) (r c : Nat) (T : List Char)
    (hasc : asciiLines L = true) (hT : asciiStr T = true) :
    asciiLines (spliceLines L r c T) = true := by
  have hline := asciiLines_getD hasc r
  have hlt := asciiStr_take hline c
  have hld := asciiStr_drop hline c
  have hpsub := splitOnChar_sub '\n' T
  have hhead : asciiStr (splitOnChar '\n' T).headI = true := by
    cases hps : splitOnChar '\n' T with
    | nil => rfl
    | cons p qs =>
      exact asciiStr_of_sub hT
        (fun x hx => hpsub p (by rw [hps]; exact List.mem_cons_self p qs) x hx)
  have hlastp : asciiStr ((splitOnChar '\n' T).getLast?.getD []) = true := by
    cases hps : (splitOnChar '\n' T).getLast? with
    | none => rfl
    | some pl =>
      exact asciiStr_of_sub hT
        (fun x hx => hpsub pl (List.mem_of_mem_getLast? hps) x hx)
  have hmid : asciiLines (((splitOnChar '\n' T).drop 1).dropLast) = true := by
    simp only [asciiLines, List.all_eq_true]
    intro p hp
    exact asciiStr_of_sub hT
      (fun x hx => hpsub p
        (List.mem_of_mem_drop (List.mem_of_mem_dropLast hp)) x hx)
  unfold spliceLines
  by_cases hcont : T.contains '\n'
  · rw [if_pos hcont]
    refine asciiLines_append (asciiLines_append (asciiLines_append
      (asciiLines_append (asciiLines_take hasc r) ?_) hmid) ?_)
      (asciiLines_drop hasc (r + 1))
    · simp only [asciiLines, List.all_eq_true]
      intro p hp
      rw [List.mem_singleton.mp hp]
      exact asciiStr_append hlt hhead
    · simp only [asciiLines, List.all_eq_true]
      intro p hp
      rw [List.mem_singleton.mp hp]
      exact asciiStr_append hlastp hld
  · rw [if_neg hcont]
    exact asciiLines_set hasc r (asciiStr_append (asciiStr_append hlt hT) hld)

/-- The join of the spliced line list is the document with `T` inserted
at row `r`, character column `c`. -/
theorem join_spliceLines (L : List (List Char)) (r c : Nat) (T : List Char)
    (hr : r < L.length) :
    joinSep '\n' (spliceLines L r c T)
      = joinNlAll (L.take r) ++ (L.getD r []).take c ++ T
        ++ (L.getD r []).drop c
        ++ (if L.drop (r + 1) = [] then []
            else '\n' :: joinSep '\n' (L.drop (r + 1))) := by
  simp only [spliceLines]
  by_cases hcont : T.contains '\n'
  · rw [if_pos hcont]
    have hTmem : '\n' ∈ T := (contains_iff_mem T '\n').mp hcont
    have hlen2 := splitOnChar_len2 '\n' T hTmem
    obtain ⟨p0, qs, hps⟩ : ∃ p0 qs, splitOnChar '\n' T = p0 :: qs := by
      cases hx : splitOnChar '\n' T with
      | nil => exact absurd hx (splitOnChar_ne_nil '\n' T)
      | cons a b => exact ⟨a, b, rfl⟩
    have hqs : qs ≠ [] := by
      intro hx
      rw [hps, hx] at hlen2
      simp at hlen2
    have hql := List.dropLast_concat_getLast hqs
    have hT : T = joinSep '\n' (splitOnChar '\n' T) :=
      (joinSep_splitOnChar '\n' T).symm
    rw [hps]
    rw [show (p0 :: qs).headI = p0 from rfl]
    rw [show ((p0 :: qs).drop 1).dropLast = qs.dropLast from rfl]
    have hlast : (p0 :: qs).getLast?.getD [] = qs.getLast hqs := by
      conv_lhs => rw [← hql]
      rw [show p0 :: (qs.dropLast ++ [qs.getLast hqs])
        = (p0 :: qs.dropLast) ++ [qs.getLast hqs] from rfl]
      rw [List.getLast?_concat]
      rfl
    rw [hlast]
    rw [show L.take r ++ [(L.getD r []).take c ++ p0] ++ qs.dropLast
        ++ [qs.getLast hqs ++ (L.getD r []).drop c] ++ L.drop (r + 1)
      = L.take r ++ ((L.getD r []).take c ++ p0)
          :: (qs.dropLast
            ++ (qs.getLast hqs ++ (L.getD r []).drop c) :: L.drop (r + 1))
      from by simp]
    rw [joinSep_decomp]
    rw [if_neg (by simp)]
    rw [joinSep_decomp qs.dropLast
      (qs.getLast hqs ++ (L.getD r []).drop c) (L.drop (r + 1))]
    conv_rhs => rw [hT, hps, ← hql]
    rw [joinSep_cons_of_ne_nil p0 (qs.dropLast ++ [qs.getLast hqs]) (by simp)]
    rw [joinSep_decomp qs.dropLast (qs.getLast hqs) []]
    rw [if_pos rfl]
    simp [List.append_assoc]
  · rw [if_neg hcont]
    rw [List.set_eq_take_append_cons_drop]
    rw [if_pos hr]
    rw [joinSep_decomp]
    simp [List.append_assoc]

/-- `GapBuffer::insert_at` at an in-range row of an ASCII document edits
the line list exactly like the `SimpleBuffer` splice. -/
theorem gb_insert_at_lines (gb : GapBuffer) (r col : Nat) (T : List Char)
    (hwf : gb.WF) (hr : r < gb.to_lines.length)
    (hasc : asciiLines gb.to_lines = true) :
    (gb.insert_at r col T).WF ∧
    (gb.insert_at r col T).to_lines
      = spliceLines gb.to_lines r
          (min col (utf8Len (gb.to_lines.getD r []))) T := by
  have hlineasc : asciiStr (gb.to_lines.getD r []) = true := asciiLines_getD hasc r
  have hlen_line : utf8Len (gb.to_lines.getD r [])
      = (gb.to_lines.getD r []).length := utf8Len_of_ascii hlineasc
  have hminle : min col (utf8Len (gb.to_lines.getD r []))
      ≤ utf8Len (gb.to_lines.getD r []) := min_le_right _ _
  have hcle : min col (utf8Len (gb.to_lines.getD r []))
      ≤ (gb.to_lines.getD r []).length := by omega
  have hdoc : gb.to_string = joinSep '\n' gb.to_lines := gb.to_string_join
  have hdocasc : asciiStr gb.to_string = true := by
    rw [hdoc]
    exact asciiStr_joinSep hasc
  have hdst : utf8Len gb.to_string = gb.to_string.length :=
    utf8Len_of_ascii hdocasc
  have hlstr : gb.to_string.length = gb.len := GapBuffer.length_to_string gb hwf
  have hple := preLen_add_le gb.to_lines r hr
  rw [← hdoc] at hple
  have hpos_le : preLen gb.to_lines r
      + min col (utf8Len (gb.to_lines.getD r [])) ≤ gb.len := by omega
  have hpos : gb.cursor_to_position r col
      = preLen gb.to_lines r + min col (utf8Len (gb.to_lines.getD r [])) := by
    unfold GapBuffer.cursor_to_position
    rw [← GapBuffer.to_lines_eq_split]
    rw [ctpLoop_eq gb.to_lines r col 0 hr]
    omega
  obtain ⟨hWF2, hstr, -⟩ :=
    GapBuffer.insert_spec gb (gb.cursor_to_position r col) T hwf
  constructor
  · exact hWF2
  · show (gb.insert (gb.cursor_to_position r col) T).to_lines = _
    rw [GapBuffer.to_lines_eq_split]
    rw [hstr]
    rw [hpos]
    rw [show min (preLen gb.to_lines r
        + min col (utf8Len (gb.to_lines.getD r []))) gb.len
      = preLen gb.to_lines r + min col (utf8Len (gb.to_lines.getD r []))
      from by omega]
    have hbs_line : byteSplit (gb.to_lines.getD r [])
        (min col (utf8Len (gb.to_lines.getD r [])))
      = some ((gb.to_lines.getD r []).take
            (min col (utf8Len (gb.to_lines.getD r []))),
          (gb.to_lines.getD r []).drop
            (min col (utf8Len (gb.to_lines.getD r [])))) :=
      byteSplit_of_ascii hlineasc hcle
    have hbd := byteSplit_doc gb.to_lines r hr
      (min col (utf8Len (gb.to_lines.getD r []))) _ _ hbs_line
    have hbd2 : byteSplit (joinSep '\n' gb.to_lines)
        (preLen gb.to_lines r + min col (utf8Len (gb.to_lines.getD r [])))
      = some ((joinSep '\n' gb.to_lines).take
            (preLen gb.to_lines r
              + min col (utf8Len (gb.to_lines.getD r []))),
          (joinSep '\n' gb.to_lines).drop
            (preLen gb.to_lines r
              + min col (utf8Len (gb.to_lines.getD r [])))) := by
      refine byteSplit_of_ascii ?_ ?_
      · rw [← hdoc]
        exact hdocasc
      · rw [← hdoc]
        omega
    rw [hbd] at hbd2
    have hpair := Option.some.inj hbd2
    have h1 := congrArg Prod.fst hpair
    have h2 := congrArg Prod.snd hpair
    simp only at h1 h2
    rw [hdoc]
    rw [← h1, ← h2]
    have harg : (joinNlAll (gb.to_lines.take r)
          ++ (gb.to_lines.getD r []).take
            (min col (utf8Len (gb.to_lines.getD r [])))) ++ T
        ++ ((gb.to_lines.getD r []).drop
            (min col (utf8Len (gb.to_lines.getD r [])))
          ++ (if gb.to_lines.drop (r + 1) = [] then []
              else '\n' :: joinSep '\n' (gb.to_lines.drop (r + 1))))
      = joinSep '\n' (spliceLines gb.to_lines r
          (min col (utf8Len (gb.to_lines.getD r []))) T) := by
      rw [join_spliceLines gb.to_lines r
        (min col (utf8Len (gb.to_lines.getD r []))) T hr]
      simp [List.append_assoc]
    rw [harg]
    rw [splitOnChar_joinSep '\n' _ (spliceLines_ne_nil _ _ _ _ hr)
      (spliceLines_noNl _ _ _ _ gb.noNl_to_lines)]

/-- `SimpleBuffer::insert_at` at an in-range row of an ASCII line returns
the spliced line list. -/
theorem sb_insert_at_eq (sb : SimpleBuffer) (r col : Nat) (T : List Char)
    (hr : r < sb.lines.length)
    (hline : asciiStr (sb.lines.getD r []) = true) :
    sb.insert_at r col T
      = some { lines := (spliceLines sb.lines r
          (min col (utf8Len (sb.lines.getD r []))) T) } := by
  have hll := utf8Len_of_ascii hline
  have hminle : min col (utf8Len (sb.lines.getD r []))
      ≤ utf8Len (sb.lines.getD r []) := min_le_right _ _
  have hcle : min col (utf8Len (sb.lines.getD r []))
      ≤ (sb.lines.getD r []).length := by omega
  simp only [SimpleBuffer.insert_at, spliceLines]
  rw [if_pos hr]
  by_cases hcont : T.contains '\n'
  · rw [if_pos hcont, if_pos hcont]
    simp only [byteTake, byteDrop]
    rw [byteSplit_of_ascii hline hcle]
    simp only [Option.map_some', Option.bind_eq_bind, Option.some_bind,
      Option.pure_def]
  · rw [if_neg hcont, if_neg hcont]
    rw [byteSplit_of_ascii hline hcle]
    simp only [Option.map_some', Option.bind_eq_bind, Option.some_bind,
      Option.pure_def]

/-- Character-level take/drop of an ASCII joined document at the offset
of (row `r`, column `c`). -/
theorem doc_take_drop (L : List (List Char)) (r : Nat) (hr : r < L.length)
    (hasc : asciiLines L = true) (c : Nat) (hc : c ≤ (L.getD r []).length) :
    (joinSep '\n' L).take (preLen L r + c)
        = joinNlAll (L.take r) ++ (L.getD r []).take c
    ∧ (joinSep '\n' L).drop (preLen L r + c)
        = (L.getD r []).drop c
          ++ (if L.drop (r + 1) = [] then []
              else '\n' :: joinSep '\n' (L.drop (r + 1))) := by
  have hlineasc : asciiStr (L.getD r []) = true := asciiLines_getD hasc r
  have hll := utf8Len_of_ascii hlineasc
  have hdocasc : asciiStr (joinSep '\n' L) = true := asciiStr_joinSep hasc
  have hdl := utf8Len_of_ascii hdocasc
  have hple := preLen_add_le L r hr
  have hbs_line : byteSplit (L.getD r []) c
      = some ((L.getD r []).take c, (L.getD r []).drop c) :=
    byteSplit_of_ascii hlineasc hc
  have hbd := byteSplit_doc L r hr c _ _ hbs_line
  have hbd2 : byteSplit (joinSep '\n' L) (preLen L r + c)
      = some ((joinSep '\n' L).take (preLen L r + c),
          (joinSep '\n' L).drop (preLen L r + c)) :=
    byteSplit_of_ascii hdocasc (by omega)
  rw [hbd] at hbd2
  have hpair := Option.some.inj hbd2
  have h1 := congrArg Prod.fst hpair
  have h2 := congrArg Prod.snd hpair
  simp only at h1 h2
  exact ⟨h1.symm, h2.symm⟩

/-- Deleting the character at (row `r`, column `c`) of the joined
document edits exactly that row. -/
theorem split_doc_delete (L : List (List Char)) (r : Nat) (hr : r < L.length)
    (hasc : asciiLines L = true) (hnl : ∀ l ∈ L, ¬ '\n' ∈ l) (c : Nat)
    (hc : c < (L.getD r []).length) :
    splitOnChar '\n' ((joinSep '\n' L).take (preLen L r + c)
        ++ (joinSep '\n' L).drop (preLen L r + c + 1))
      = L.set r ((L.getD r []).take c ++ (L.getD r []).drop (c + 1)) := by
  obtain ⟨ht, hd⟩ := doc_take_drop L r hr hasc c (le_of_lt hc)
  have hdrop1 : (joinSep '\n' L).drop (preLen L r + c + 1)
      = (L.getD r []).drop (c + 1)
        ++ (if L.drop (r + 1) = [] then []
            else '\n' :: joinSep '\n' (L.drop (r + 1))) := by
    rw [← List.drop_drop]
    rw [hd]
    cases hld : (L.getD r []).drop c with
    | nil =>
      have := congrArg List.length hld
      rw [List.length_drop, List.length_nil] at this
      omega
    | cons x xs =>
      have hxs : xs = (L.getD r []).drop (c + 1) := by
        have : ((L.getD r []).drop c).drop 1 = (L.getD r []).drop (c + 1) := by
          rw [List.drop_drop]
        rw [hld] at this
        exact this
      rw [List.cons_append]
      rw [show (x :: (xs ++ _)).drop 1 = xs ++ _ from rfl]
      rw [hxs]
  rw [ht, hdrop1]
  have harg : joinNlAll (L.take r) ++ (L.getD r []).take c
      ++ ((L.getD r []).drop (c + 1)
        ++ (if L.drop (r + 1) = [] then []
            else '\n' :: joinSep '\n' (L.drop (r + 1))))
    = joinSep '\n'
        (L.set r ((L.getD r []).take c ++ (L.getD r []).drop (c + 1))) := by
    rw [List.set_eq_take_append_cons_drop]
    rw [if_pos hr]
    rw [joinSep_decomp]
    simp [List.append_assoc]
  rw [harg]
  refine splitOnChar_joinSep '\n' _ ?_ ?_
  · intro hz
    have hz' := congrArg List.length hz
    rw [List.length_set, List.length_nil] at hz'
    omega
  · intro l hl
    rcases List.mem_or_eq_of_mem_set hl with hl | hl
    · exact hnl l hl
    · rw [hl]
      intro hm
      have hlr : ¬ '\n' ∈ L.getD r [] := by
        rw [List.getD_eq_getElem?_getD, List.getElem?_eq_getElem hr]
        exact hnl _ (List.getElem_mem hr)
      rcases List.mem_append.mp hm with hm | hm
      · exact hlr (List.mem_of_mem_take hm)
      · exact hlr (List.mem_of_mem_drop hm)

/-- Deleting the newline at the end of row `r` of the joined document
joins rows `r` and `r + 1`. -/
theorem split_doc_merge (L : List (List Char)) (r : Nat)
    (hr2 : r + 1 < L.length) (hasc : asciiLines L = true)
    (hnl : ∀ l ∈ L, ¬ '\n' ∈ l) :
    splitOnChar '\n'
        ((joinSep '\n' L).take (preLen L r + utf8Len (L.getD r []))
          ++ (joinSep '\n' L).drop (preLen L r + utf8Len (L.getD r []) + 1))
      = (L.eraseIdx (r + 1)).set r (L.getD r [] ++ L.getD (r + 1) []) := by
  have hr : r < L.length := by omega
  have hlineasc := asciiLines_getD hasc r
  have hll := utf8Len_of_ascii hlineasc
  obtain ⟨ht, hd⟩ := doc_take_drop L r hr hasc ((L.getD r []).length) le_rfl
  rw [List.take_length] at ht
  rw [List.drop_length] at hd
  rw [← hll] at ht hd
  have hdp : L.drop (r + 1) ≠ [] := by
    intro hz
    have hz' := congrArg List.length hz
    rw [List.length_drop, List.length_nil] at hz'
    omega
  rw [if_neg hdp] at hd
  rw [List.nil_append] at hd
  have hnext : L.drop (r + 1) = L.getD (r + 1) [] :: L.drop (r + 2) := by
    rw [List.drop_eq_getElem_cons hr2]
    rw [List.getD_eq_getElem?_getD, List.getElem?_eq_getElem hr2]
    rfl
  have hdrop1 : (joinSep '\n' L).drop
      (preLen L r + utf8Len (L.getD r []) + 1)
    = joinSep '\n' (L.drop (r + 1)) := by
    rw [← List.drop_drop, hd]
    rfl
  rw [ht, hdrop1]
  have hes := eraseIdx_set_pred L (r + 1) hr2 (by omega)
    (L.getD r [] ++ L.getD (r + 1) [])
  rw [show r + 1 - 1 = r from rfl] at hes
  rw [hes]
  have harg : joinNlAll (L.take r) ++ L.getD r []
      ++ joinSep '\n' (L.drop (r + 1))
    = joinSep '\n' (L.take r
        ++ (L.getD r [] ++ L.getD (r + 1) []) :: L.drop (r + 2)) := by
    rw [joinSep_decomp]
    rw [hnext]
    cases hdr2 : L.drop (r + 2) with
    | nil =>
      rw [if_pos rfl]
      rw [show joinSep '\n' [L.getD (r + 1) []] = L.getD (r + 1) [] from rfl]
      simp [List.append_assoc]
    | cons y ys =>
      rw [if_neg (by simp)]
      rw [joinSep_cons_of_ne_nil _ _ (by simp)]
      simp [List.append_assoc]
  rw [harg]
  refine splitOnChar_joinSep '\n' _ (by simp) ?_
  intro l hl
  have hlr : ¬ '\n' ∈ L.getD r [] := by
    rw [List.getD_eq_getElem?_getD, List.getElem?_eq_getElem hr]
    exact hnl _ (List.getElem_mem hr)
  have hlr2 : ¬ '\n' ∈ L.getD (r + 1) [] := by
    rw [List.getD_eq_getElem?_getD, List.getElem?_eq_getElem hr2]
    exact hnl _ (List.getElem_mem hr2)
  rcases List.mem_append.mp hl with hl | hl
  · exact hnl l (List.mem_of_mem_take hl)
  · rcases List.mem_cons.mp hl with hl | hl
    · rw [hl]
      intro hm
      rcases List.mem_append.mp hm with hm | hm
      · exact hlr hm
      · exact hlr2 hm
    · exact hnl l (List.mem_of_mem_drop hl)

/-- The line list after `delete_at` (row `r`, column `c`): in-line
character removal, or a join with the next line at end of line. -/
def deleteLines (L : List (List Char)) (r c : Nat) : List (List Char) :=
  let line := L.getD r []
  if c < utf8Len line then
    L.set r (line.take c ++ line.drop (c + 1))
  else if r < L.length - 1 then
    (L.eraseIdx (r + 1)).set r (line ++ L.getD (r + 1) [])
  else L

/-- The line list after `backspace_at` (row `r`, column `c`): in-line
removal before the column, or a join with the previous line at column 0. -/
def backspaceLines (L : List (List Char)) (r c : Nat) : List (List Char) :=
  let line := L.getD r []
  if 0 < c then
    L.set r (line.take (c - 1) ++ line.drop c)
  else if 0 < r then
    (L.eraseIdx r).set (r - 1) (L.getD (r - 1) [] ++ line)
  else L

theorem sb_delete_at_eq (sb : SimpleBuffer) (r col : Nat)
    (hr : r < sb.lines.length)
    (hline : asciiStr (sb.lines.getD r []) = true) :
    sb.delete_at r col = some { lines := (deleteLines sb.lines r col) } := by
  have hll := utf8Len_of_ascii hline
  simp only [SimpleBuffer.delete_at, deleteLines]
  rw [if_pos hr]
  by_cases hc : col < utf8Len (sb.lines.getD r [])
  · rw [if_pos hc, if_pos hc]
    rw [byteRemoveAt_ascii hline (by omega)]
    simp only [Option.bind_eq_bind, Option.some_bind, Option.pure_def]
  · rw [if_neg hc, if_neg hc]
    by_cases h2 : r < sb.lines.length - 1
    · rw [if_pos h2, if_pos h2]
      rfl
    · rw [if_neg h2, if_neg h2]
      rfl

theorem sb_backspace_at_eq (sb : SimpleBuffer) (r col : Nat)
    (hr : r < sb.lines.length)
    (hline : asciiStr (sb.lines.getD r []) = true)
    (hcol : col ≤ utf8Len (sb.lines.getD r [])) :
    sb.backspace_at r col
      = some { lines := (backspaceLines sb.lines r col) } := by
  have hll := utf8Len_of_ascii hline
  simp only [SimpleBuffer.backspace_at, backspaceLines]
  rw [if_pos hr]
  by_cases h0 : 0 < col
  · rw [if_pos h0, if_pos h0]
    rw [byteRemoveAt_ascii hline (by omega)]
    rw [show col - 1 + 1 = col from by omega]
    simp only [Option.bind_eq_bind, Option.some_bind, Option.pure_def]
  · rw [if_neg h0, if_neg h0]
    by_cases h0r : 0 < r
    · rw [if_pos h0r, if_pos h0r]
      rfl
    · rw [if_neg h0r, if_neg h0r]
      rfl

/-- `GapBuffer::delete_at` at an in-range row of an ASCII document edits
the line list exactly like the `SimpleBuffer` branch structure. -/
theorem gb_delete_at_lines (gb : GapBuffer) (r col : Nat) (hwf : gb.WF)
    (hr : r < gb.to_lines.length) (hasc : asciiLines gb.to_lines = true) :
    (gb.delete_at r col).WF ∧
    (gb.delete_at r col).to_lines = deleteLines gb.to_lines r col := by
  have hlineasc := asciiLines_getD hasc r
  have hll := utf8Len_of_ascii hlineasc
  have hdoc := gb.to_string_join
  have hdocasc : asciiStr gb.to_string = true := by
    rw [hdoc]
    exact asciiStr_joinSep hasc
  have hdst := utf8Len_of_ascii hdocasc
  have hlstr := GapBuffer.length_to_string gb hwf
  have hple := preLen_add_le gb.to_lines r hr
  rw [← hdoc] at hple
  have hpos : gb.cursor_to_position r col
      = preLen gb.to_lines r + min col (utf8Len (gb.to_lines.getD r [])) := by
    unfold GapBuffer.cursor_to_position
    rw [← GapBuffer.to_lines_eq_split]
    rw [ctpLoop_eq gb.to_lines r col 0 hr]
    omega
  have hminr : min col (utf8Len (gb.to_lines.getD r []))
      ≤ utf8Len (gb.to_lines.getD r []) := min_le_right _ _
  obtain ⟨m1, m2, m3, m4, m5⟩ :=
    GapBuffer.move_gap_to_spec gb (gb.cursor_to_position r col) hwf
  obtain ⟨d1, d2, -⟩ := GapBuffer.delete_forward_spec
    (gb.move_gap_to (gb.cursor_to_position r col)) m2
  have hstart : (gb.move_gap_to (gb.cursor_to_position r col)).gap_start
      = preLen gb.to_lines r + min col (utf8Len (gb.to_lines.getD r [])) := by
    rw [m3, hpos]
    omega
  obtain ⟨w1, w2⟩ := m2
  obtain ⟨g1, g2⟩ := hwf
  have hlen_def : gb.len = gb.buffer.length - (gb.gap_end - gb.gap_start) := rfl
  constructor
  · exact d1
  · show ((gb.move_gap_to
        (gb.cursor_to_position r col)).delete_forward).to_lines = _
    rw [GapBuffer.to_lines_eq_split, d2]
    by_cases hc : col < utf8Len (gb.to_lines.getD r [])
    · have hminc : min col (utf8Len (gb.to_lines.getD r [])) = col := by omega
      have hlt : preLen gb.to_lines r + col < gb.len := by omega
      rw [hminc] at hstart
      have hcond : (gb.move_gap_to (gb.cursor_to_position r col)).gap_end
          < (gb.move_gap_to (gb.cursor_to_position r col)).buffer.length := by
        omega
      rw [if_pos hcond]
      rw [hstart, m1, hdoc]
      have hRHS : deleteLines gb.to_lines r col
          = gb.to_lines.set r ((gb.to_lines.getD r []).take col
            ++ (gb.to_lines.getD r []).drop (col + 1)) := by
        simp only [deleteLines]
        rw [if_pos hc]
      rw [hRHS]
      exact split_doc_delete gb.to_lines r hr hasc gb.noNl_to_lines col
        (by omega)
    · have hminc : min col (utf8Len (gb.to_lines.getD r []))
          = utf8Len (gb.to_lines.getD r []) := by omega
      rw [hminc] at hstart
      by_cases h2 : r < gb.to_lines.length - 1
      · have hr2 : r + 1 < gb.to_lines.length := by omega
        obtain ⟨ht0, hd0⟩ := doc_take_drop gb.to_lines r hr hasc
          ((gb.to_lines.getD r []).length) le_rfl
        have hdp : gb.to_lines.drop (r + 1) ≠ [] := by
          intro hz
          have hz' := congrArg List.length hz
          rw [List.length_drop, List.length_nil] at hz'
          omega
        rw [if_neg hdp] at hd0
        have hlt : preLen gb.to_lines r
            + utf8Len (gb.to_lines.getD r []) < gb.len := by
          have hne : (joinSep '\n' gb.to_lines).drop
              (preLen gb.to_lines r + (gb.to_lines.getD r []).length)
              ≠ [] := by
            rw [hd0]
            simp
          have hlen2 := List.length_lt_of_drop_ne_nil hne
          rw [← hdoc] at hlen2
          omega
        have hcond : (gb.move_gap_to (gb.cursor_to_position r col)).gap_end
            < (gb.move_gap_to
              (gb.cursor_to_position r col)).buffer.length := by
          omega
        rw [if_pos hcond]
        rw [hstart, m1, hdoc]
        have hRHS : deleteLines gb.to_lines r col
            = (gb.to_lines.eraseIdx (r + 1)).set r
              (gb.to_lines.getD r [] ++ gb.to_lines.getD (r + 1) []) := by
          simp only [deleteLines]
          rw [if_neg hc, if_pos h2]
        rw [hRHS]
        exact split_doc_merge gb.to_lines r hr2 hasc gb.noNl_to_lines
      · have hr2 : gb.to_lines.drop (r + 1) = [] := by
          rw [List.drop_eq_nil_iff]
          omega
        obtain ⟨ht0, hd0⟩ := doc_take_drop gb.to_lines r hr hasc
          ((gb.to_lines.getD r []).length) le_rfl
        rw [if_pos hr2] at hd0
        rw [List.drop_length, List.append_nil] at hd0
        have hge : gb.len
            ≤ preLen gb.to_lines r + utf8Len (gb.to_lines.getD r []) := by
          have hz' := congrArg List.length hd0
          rw [List.length_drop, List.length_nil] at hz'
          rw [← hdoc] at hz'
          omega
        have hcond : ¬ ((gb.move_gap_to
              (gb.cursor_to_position r col)).gap_end
            < (gb.move_gap_to
              (gb.cursor_to_position r col)).buffer.length) := by
          omega
        rw [if_neg hcond]
        rw [m1, ← GapBuffer.to_lines_eq_split]
        simp only [deleteLines]
        rw [if_neg hc, if_neg h2]

/-- `GapBuffer::backspace_at` at an in-range row of an ASCII document
with a column within the line edits the line list exactly like the
`SimpleBuffer` branch structure. -/
theorem gb_backspace_at_lines (gb : GapBuffer) (r col : Nat) (hwf : gb.WF)
    (hr : r < gb.to_lines.length) (hasc : asciiLines gb.to_lines = true)
    (hcol : col ≤ utf8Len (gb.to_lines.getD r [])) :
    (gb.backspace_at r col).WF ∧
    (gb.backspace_at r col).to_lines = backspaceLines gb.to_lines r col := by
  have hlineasc := asciiLines_getD hasc r
  have hll := utf8Len_of_ascii hlineasc
  have hdoc := gb.to_string_join
  have hdocasc : asciiStr gb.to_string = true := by
    rw [hdoc]
    exact asciiStr_joinSep hasc
  have hdst := utf8Len_of_ascii hdocasc
  have hlstr := GapBuffer.length_to_string gb hwf
  have hple := preLen_add_le gb.to_lines r hr
  rw [← hdoc] at hple
  have hpos : gb.cursor_to_position r col
      = preLen gb.to_lines r + min col (utf8Len (gb.to_lines.getD r [])) := by
    unfold GapBuffer.cursor_to_position
    rw [← GapBuffer.to_lines_eq_split]
    rw [ctpLoop_eq gb.to_lines r col 0 hr]
    omega
  have hminc : min col (utf8Len (gb.to_lines.getD r [])) = col := by omega
  rw [hminc] at hpos
  obtain ⟨m1, m2, m3, m4, m5⟩ :=
    GapBuffer.move_gap_to_spec gb (gb.cursor_to_position r col) hwf
  obtain ⟨d1, d2, -⟩ := GapBuffer.delete_backward_spec
    (gb.move_gap_to (gb.cursor_to_position r col)) m2
  have hstart : (gb.move_gap_to (gb.cursor_to_position r col)).gap_start
      = preLen gb.to_lines r + col := by
    rw [m3, hpos]
    omega
  obtain ⟨w1, w2⟩ := m2
  obtain ⟨g1, g2⟩ := hwf
  have hlen_def : gb.len = gb.buffer.length - (gb.gap_end - gb.gap_start) := rfl
  constructor
  · exact d1
  · show ((gb.move_gap_to
        (gb.cursor_to_position r col)).delete_backward).to_lines = _
    rw [GapBuffer.to_lines_eq_split, d2]
    by_cases h0 : 0 < col
    · have hcond : 0 < (gb.move_gap_to
          (gb.cursor_to_position r col)).gap_start := by
        omega
      rw [if_pos hcond]
      rw [hstart, m1, hdoc]
      rw [show preLen gb.to_lines r + col - 1
        = preLen gb.to_lines r + (col - 1) from by omega]
      rw [show preLen gb.to_lines r + col
        = preLen gb.to_lines r + (col - 1) + 1 from by omega]
      have hRHS : backspaceLines gb.to_lines r col
          = gb.to_lines.set r ((gb.to_lines.getD r []).take (col - 1)
            ++ (gb.to_lines.getD r []).drop (col - 1 + 1)) := by
        simp only [backspaceLines]
        rw [if_pos h0]
        rw [show col - 1 + 1 = col from by omega]
      rw [hRHS]
      exact split_doc_delete gb.to_lines r hr hasc gb.noNl_to_lines (col - 1)
        (by omega)
    · have hc0 : col = 0 := by omega
      subst hc0
      by_cases h0r : 0 < r
      · have hps := preLen_succ gb.to_lines r h0r hr
        have hcond : 0 < (gb.move_gap_to
            (gb.cursor_to_position r 0)).gap_start := by
          omega
        rw [if_pos hcond]
        rw [hstart, m1, hdoc]
        rw [show preLen gb.to_lines r + 0 - 1
          = preLen gb.to_lines (r - 1)
            + utf8Len (gb.to_lines.getD (r - 1) []) from by omega]
        rw [show preLen gb.to_lines r + 0
          = preLen gb.to_lines (r - 1)
            + utf8Len (gb.to_lines.getD (r - 1) []) + 1 from by omega]
        have hRHS : backspaceLines gb.to_lines r 0
            = (gb.to_lines.eraseIdx (r - 1 + 1)).set (r - 1)
              (gb.to_lines.getD (r - 1) []
                ++ gb.to_lines.getD (r - 1 + 1) []) := by
          simp only [backspaceLines]
          rw [if_neg (by omega), if_pos h0r]
          rw [show r - 1 + 1 = r from by omega]
        rw [hRHS]
        exact split_doc_merge gb.to_lines (r - 1) (by omega) hasc
          gb.noNl_to_lines
      · have hr0 : r = 0 := by omega
        subst hr0
        have hpre0 : preLen gb.to_lines 0 = 0 := by
          cases gb.to_lines <;> rfl
        have hcond : ¬ 0 < (gb.move_gap_to
            (gb.cursor_to_position 0 0)).gap_start := by
          omega
        rw [if_neg hcond]
        rw [m1, ← GapBuffer.to_lines_eq_split]
        simp only [backspaceLines]
        rw [if_neg (by omega), if_neg (by omega)]

/-- `from_text` stores exactly the given text. -/
theorem GapBuffer.from_text_to_string (text : List Char) :
    (GapBuffer.from_text text).to_string = text := by
  show (text ++ List.replicate (max 64 (text.length / 4)) '\x00').take
      text.length
    ++ (text ++ List.replicate (max 64 (text.length / 4)) '\x00').drop
      (text.length + max 64 (text.length / 4)) = text
  rw [List.take_left]
  rw [List.drop_eq_nil_of_le]
  · rw [List.append_nil]
  · rw [List.length_append, List.length_replicate]

/-- If a non-empty string does not end in the separator, the last split
piece is non-empty. -/
theorem splitOnChar_getLast_ne_nil (sep : Char) :
    ∀ (s : List Char), s ≠ [] → s.getLast? ≠ some sep →
      (splitOnChar sep s).getLast? ≠ some [] := by
  intro s
  induction s with
  | nil => intro h; exact absurd rfl h
  | cons c cs ih =>
    intro _ hlast
    cases cs with
    | nil =>
      have hc : ¬ c = sep := by
        intro hc
        exact hlast (by rw [hc]; rfl)
      rw [splitOnChar, if_neg hc]
      rw [show splitOnChar sep [] = [[]] from rfl]
      intro hz
      simp at hz
    | cons d ds =>
      have hlast2 : (d :: ds).getLast? ≠ some sep := by
        intro hx
        exact hlast (by rw [List.getLast?_cons_cons]; exact hx)
      have ihh := ih (by simp) hlast2
      rw [splitOnChar]
      by_cases hc : c = sep
      · rw [if_pos hc]
        cases hsp : splitOnChar sep (d :: ds) with
        | nil => exact absurd hsp (splitOnChar_ne_nil sep (d :: ds))
        | cons l ls =>
          rw [List.getLast?_cons_cons]
          rw [← hsp]
          exact ihh
      · rw [if_neg hc]
        cases hsp : splitOnChar sep (d :: ds) with
        | nil => exact absurd hsp (splitOnChar_ne_nil sep (d :: ds))
        | cons l ls =>
          cases ls with
          | nil =>
            intro hz
            simp at hz
          | cons m ms =>
            rw [List.getLast?_cons_cons]
            rw [show (m :: ms).getLast? = (l :: m :: ms).getLast?
              from List.getLast?_cons_cons.symm]
            rw [← hsp]
            exact ihh

/-- Simulation relation between the two `TextBuffer` implementations: the
`SimpleBuffer` line vector is exactly the gap buffer's `to_lines`, the
gap invariant holds, and the document is ASCII. -/
def BufSim (sb : SimpleBuffer) (gb : GapBuffer) : Prop :=
  sb.lines = gb.to_lines ∧ gb.WF ∧ asciiLines sb.lines = true

instance (sb : SimpleBuffer) (gb : GapBuffer) : Decidable (BufSim sb gb) := by
  unfold BufSim
  infer_instance

/-- `from_text` on ASCII text without a trailing newline builds related
buffers. -/
theorem dropLast_map_stripCr_append (s : List Char) (hcr : ¬ '\r' ∈ s) :
    (splitOnChar '\n' s).dropLast.map SimpleBuffer.stripCr
      ++ [(splitOnChar '\n' s).getLast?.getD []] = splitOnChar '\n' s := by
  have hne := splitOnChar_ne_nil '\n' s
  have hid : ∀ p ∈ (splitOnChar '\n' s).dropLast,
      SimpleBuffer.stripCr p = p := by
    intro p hp
    unfold SimpleBuffer.stripCr
    rw [if_neg]
    intro hlast
    exact hcr (splitOnChar_sub '\n' s p (List.mem_of_mem_dropLast hp) '\r'
      (List.mem_of_mem_getLast? hlast))
  rw [List.map_congr_left hid, List.map_id']
  rw [List.getLast?_eq_getLast _ hne]
  exact List.dropLast_concat_getLast hne

/-- `from_text` on ASCII text without carriage returns and without a
trailing newline builds related buffers. -/
theorem from_text_sim (text : List Char) (hasc : asciiStr text = true)
    (hcr : ¬ '\r' ∈ text) (hnl : text.getLast? ≠ some '\n') :
    BufSim (SimpleBuffer.from_text text) (GapBuffer.from_text text) := by
  have hts := GapBuffer.from_text_to_string text
  have hlines : (GapBuffer.from_text text).to_lines
      = splitOnChar '\n' text := by
    rw [GapBuffer.to_lines_eq_split, hts]
  have hasclines : asciiLines (splitOnChar '\n' text) = true := by
    simp only [asciiLines, List.all_eq_true]
    intro p hp
    exact asciiStr_of_sub hasc (fun x hx => splitOnChar_sub '\n' text p hp x hx)
  cases htext : text with
  | nil =>
    subst htext
    refine ⟨?_, GapBuffer.from_text_wf [], ?_⟩
    · rw [hlines]
      rfl
    · rfl
  | cons c cs =>
    have hne : text ≠ [] := by rw [htext]; simp
    have hlast := splitOnChar_getLast_ne_nil '\n' text hne hnl
    rw [← htext]
    refine ⟨?_, GapBuffer.from_text_wf text, ?_⟩
    · show (SimpleBuffer.new (SimpleBuffer.rustLines text)).lines = _
      rw [hlines]
      have hrust : SimpleBuffer.rustLines text = splitOnChar '\n' text := by
        simp only [SimpleBuffer.rustLines]
        rw [dropLast_map_stripCr_append text hcr]
        rw [if_neg hlast]
      rw [hrust]
      exact sbNew_lines _ (splitOnChar_ne_nil '\n' text)
    · show asciiLines (SimpleBuffer.new (SimpleBuffer.rustLines text)).lines
        = true
      have hrust : SimpleBuffer.rustLines text = splitOnChar '\n' text := by
        simp only [SimpleBuffer.rustLines]
        rw [dropLast_map_stripCr_append text hcr]
        rw [if_neg hlast]
      rw [hrust, sbNew_lines _ (splitOnChar_ne_nil '\n' text)]
      exact hasclines

theorem deleteLines_ascii (L : List (List Char)) (r c : Nat)
    (hasc : asciiLines L = true) : asciiLines (deleteLines L r c) = true := by
  have hline := asciiLines_getD hasc r
  simp only [deleteLines]
  by_cases hc : c < utf8Len (L.getD r [])
  · rw [if_pos hc]
    exact asciiLines_set hasc r
      (asciiStr_append (asciiStr_take hline c) (asciiStr_drop hline (c + 1)))
  · rw [if_neg hc]
    by_cases h2 : r < L.length - 1
    · rw [if_pos h2]
      have herase : asciiLines (L.eraseIdx (r + 1)) = true := by
        rw [List.eraseIdx_eq_take_drop_succ]
        exact asciiLines_append (asciiLines_take hasc (r + 1))
          (asciiLines_drop hasc (r + 2))
      exact asciiLines_set herase r
        (asciiStr_append hline (asciiLines_getD hasc (r + 1)))
    · rw [if_neg h2]
      exact hasc

theorem backspaceLines_ascii (L : List (List Char)) (r c : Nat)
    (hasc : asciiLines L = true) :
    asciiLines (backspaceLines L r c) = true := by
  have hline := asciiLines_getD hasc r
  simp only [backspaceLines]
  by_cases h0 : 0 < c
  · rw [if_pos h0]
    exact asciiLines_set hasc r
      (asciiStr_append (asciiStr_take hline (c - 1)) (asciiStr_drop hline c))
  · rw [if_neg h0]
    by_cases h0r : 0 < r
    · rw [if_pos h0r]
      have herase : asciiLines (L.eraseIdx r) = true := by
        rw [List.eraseIdx_eq_take_drop_succ]
        exact asciiLines_append (asciiLines_take hasc r)
          (asciiLines_drop hasc (r + 1))
      exact asciiLines_set herase (r - 1)
        (asciiStr_append (asciiLines_getD hasc (r - 1)) hline)
    · rw [if_neg h0r]
      exact hasc

/-- Related buffers agree on every `TextBuffer` observable. -/
theorem bufSim_obs (sb : SimpleBuffer) (gb : GapBuffer) (h : BufSim sb gb) :
    sb.line_count = gb.line_count ∧ sb.all_lines = gb.all_lines
    ∧ ∀ i, sb.line_len i = gb.line_len i := by
  obtain ⟨heq, -, -⟩ := h
  have hlc : gb.line_count = gb.to_lines.length := by
    rw [GapBuffer.line_count_eq_split, GapBuffer.to_lines_eq_split]
  refine ⟨?_, ?_, ?_⟩
  · show sb.lines.length = gb.line_count
    rw [heq, hlc]
  · show sb.lines = gb.to_lines
    exact heq
  · intro i
    show ((sb.lines.get? i).map utf8Len).getD 0
      = ((gb.to_lines.get? i).map utf8Len).getD 0
    rw [heq]

/-- `insert_at` preserves the simulation on in-range rows with ASCII
text, and never fails on the `SimpleBuffer` side. -/
theorem bufSim_insert (sb : SimpleBuffer) (gb : GapBuffer) (h : BufSim sb gb)
    (r col : Nat) (T : List Char) (hr : r < sb.line_count)
    (hT : asciiStr T = true) :
    ∃ sb', sb.insert_at r col T = some sb'
      ∧ BufSim sb' (gb.insert_at r col T) := by
  obtain ⟨heq, hwf, hasc⟩ := h
  have hr' : r < gb.to_lines.length := by
    rw [← heq]
    exact hr
  have hascg : asciiLines gb.to_lines = true := by
    rw [← heq]
    exact hasc
  have hline : asciiStr (sb.lines.getD r []) = true := asciiLines_getD hasc r
  obtain ⟨hwf2, hlines2⟩ := gb_insert_at_lines gb r col T hwf hr' hascg
  refine ⟨_, sb_insert_at_eq sb r col T hr hline, ?_, hwf2, ?_⟩
  · show spliceLines sb.lines r (min col (utf8Len (sb.lines.getD r []))) T
      = (gb.insert_at r col T).to_lines
    rw [hlines2, heq]
  · show asciiLines (spliceLines sb.lines r
      (min col (utf8Len (sb.lines.getD r []))) T) = true
    exact spliceLines_ascii _ _ _ _ hasc hT

/-- `delete_at` preserves the simulation on in-range rows, and never
fails on the `SimpleBuffer` side. -/
theorem bufSim_delete (sb : SimpleBuffer) (gb : GapBuffer) (h : BufSim sb gb)
    (r col : Nat) (hr : r < sb.line_count) :
    ∃ sb', sb.delete_at r col = some sb'
      ∧ BufSim sb' (gb.delete_at r col) := by
  obtain ⟨heq, hwf, hasc⟩ := h
  have hr' : r < gb.to_lines.length := by
    rw [← heq]
    exact hr
  have hascg : asciiLines gb.to_lines = true := by
    rw [← heq]
    exact hasc
  have hline : asciiStr (sb.lines.getD r []) = true := asciiLines_getD hasc r
  obtain ⟨hwf2, hlines2⟩ := gb_delete_at_lines gb r col hwf hr' hascg
  refine ⟨_, sb_delete_at_eq sb r col hr hline, ?_, hwf2, ?_⟩
  · show deleteLines sb.lines r col = (gb.delete_at r col).to_lines
    rw [hlines2, heq]
  · show asciiLines (deleteLines sb.lines r col) = true
    exact deleteLines_ascii _ _ _ hasc

/-- `backspace_at` preserves the simulation on in-range rows with a
column inside the line, and never fails on the `SimpleBuffer` side. -/
theorem bufSim_backspace (sb : SimpleBuffer) (gb : GapBuffer)
    (h : BufSim sb gb) (r col : Nat) (hr : r < sb.line_count)
    (hcol : col ≤ sb.line_len r) :
    ∃ sb', sb.backspace_at r col = some sb'
      ∧ BufSim sb' (gb.backspace_at r col) := by
  obtain ⟨heq, hwf, hasc⟩ := h
  have hr' : r < gb.to_lines.length := by
    rw [← heq]
    exact hr
  have hascg : asciiLines gb.to_lines = true := by
    rw [← heq]
    exact hasc
  have hline : asciiStr (sb.lines.getD r []) = true := asciiLines_getD hasc r
  have hcol' : col ≤ utf8Len (sb.lines.getD r []) := by
    have hg : sb.lines.get? r = some (sb.lines.getD r []) :=
      get?_eq_some_getD hr
    have : sb.line_len r = utf8Len (sb.lines.getD r []) := by
      show ((sb.lines.get? r).map utf8Len).getD 0 = _
      rw [hg]
      rfl
    omega
  have hcolg : col ≤ utf8Len (gb.to_lines.getD r []) := by
    rw [← heq]
    exact hcol'
  obtain ⟨hwf2, hlines2⟩ := gb_backspace_at_lines gb r col hwf hr' hascg hcolg
  refine ⟨_, sb_backspace_at_eq sb r col hr hline hcol', ?_, hwf2, ?_⟩
  · show backspaceLines sb.lines r col = (gb.backspace_at r col).to_lines
    rw [hlines2, heq]
  · show asciiLines (backspaceLines sb.lines r col) = true
    exact backspaceLines_ascii _ _ _ hasc

/-- C10 counterexample: the implementations diverge.  On the text "a\n"
(ending in a newline) `SimpleBuffer::from_text` keeps one line (Rust
`str::lines` drops the trailing empty line) while the gap buffer's
`split('\n')` keeps two; `insert_at` with a row past the end is a
no-op on `SimpleBuffer` but appends at the end of the document on
`GapBuffer` (whose `cursor_to_position` falls through to the text
length); and on the CRLF text "a\r\nb" `str::lines` strips the `'\r'`
while `split('\n')` keeps it, so the buffers disagree on `all_lines`
and on `line_len 0`. -/
theorem c10_equivalence_counterexample :
    (SimpleBuffer.from_text ['a', '\n']).line_count = 1
    ∧ (GapBuffer.from_text ['a', '\n']).line_count = 2
    ∧ ((SimpleBuffer.from_text ['a']).insert_at 5 0 ['b']).map
        SimpleBuffer.all_lines = some [['a']]
    ∧ ((GapBuffer.from_text ['a']).insert_at 5 0 ['b']).all_lines
        = [['a', 'b']]
    ∧ (SimpleBuffer.from_text ['a', '\r', '\n', 'b']).all_lines
        = [['a'], ['b']]
    ∧ (GapBuffer.from_text ['a', '\r', '\n', 'b']).all_lines
        = [['a', '\r'], ['b']]
    ∧ (SimpleBuffer.from_text ['a', '\r', '\n', 'b']).line_len 0 = 1
    ∧ (GapBuffer.from_text ['a', '\r', '\n', 'b']).line_len 0 = 2 := by
  refine ⟨rfl, by decide, rfl, by decide, by decide, by decide, by decide,
    by decide⟩

/-- C10 (amended): starting from any ASCII text without carriage returns
that does not end in a newline, the two `TextBuffer` implementations are
observationally equivalent under in-range operations: `from_text`
establishes the simulation `BufSim` (equal line vectors, gap invariant,
ASCII document);
related buffers agree on `line_count`, `all_lines`, and `line_len`; and
the simulation is preserved by `insert_at` (row in range, ASCII text,
single- or multi-line), by `delete_at` (row in range, any column), and by
`backspace_at` (row in range, column at most the line length) — so it is
preserved by every sequence of such operations. -/
theorem c10_amended_equivalence :
    (∀ text : List Char, asciiStr text = true → ¬ '\r' ∈ text →
      text.getLast? ≠ some '\n' →
      BufSim (SimpleBuffer.from_text text) (GapBuffer.from_text text)) ∧
    (∀ (sb : SimpleBuffer) (gb : GapBuffer), BufSim sb gb →
      sb.line_count = gb.line_count ∧ sb.all_lines = gb.all_lines
      ∧ ∀ i, sb.line_len i = gb.line_len i) ∧
    (∀ (sb : SimpleBuffer) (gb : GapBuffer) (r col : Nat) (T : List Char),
      BufSim sb gb → r < sb.line_count → asciiStr T = true →
      ∃ sb', sb.insert_at r col T = some sb'
        ∧ BufSim sb' (gb.insert_at r col T)) ∧
    (∀ (sb : SimpleBuffer) (gb : GapBuffer) (r col : Nat),
      BufSim sb gb → r < sb.line_count →
      ∃ sb', sb.delete_at r col = some sb'
        ∧ BufSim sb' (gb.delete_at r col)) ∧
    (∀ (sb : SimpleBuffer) (gb : GapBuffer) (r col : Nat),
      BufSim sb gb → r < sb.line_count → col ≤ sb.line_len r →
      ∃ sb', sb.backspace_at r col = some sb'
        ∧ BufSim sb' (gb.backspace_at r col)) :=
  ⟨from_text_sim,
   bufSim_obs,
   fun sb gb r col T h hr hT => bufSim_insert sb gb h r col T hr hT,
   fun sb gb r col h hr => bufSim_delete sb gb h r col hr,
   fun sb gb r col h hr hcol => bufSim_backspace sb gb h r col hr hcol⟩

/-- C10 witness: the simulation established on the two-line ASCII
document "ab\ncd", stepped through one in-range insertion. -/
theorem c10_amended_equivalence_witness :
    BufSim (SimpleBuffer.from_text ['a', 'b', '\n', 'c', 'd'])
      (GapBuffer.from_text ['a', 'b', '\n', 'c', 'd'])
    ∧ ∃ sb', (SimpleBuffer.from_text ['a', 'b', '\n', 'c', 'd']).insert_at
          1 1 ['x'] = some sb'
      ∧ BufSim sb'
          ((GapBuffer.from_text ['a', 'b', '\n', 'c', 'd']).insert_at
            1 1 ['x']) :=
  ⟨c10_amended_equivalence.1 ['a', 'b', '\n', 'c', 'd'] (by decide)
      (by decide) (by decide),
   c10_amended_equivalence.2.2.1
     (SimpleBuffer.from_text ['a', 'b', '\n', 'c', 'd'])
     (GapBuffer.from_text ['a', 'b', '\n', 'c', 'd']) 1 1 ['x']
     (c10_amended_equivalence.1 ['a', 'b', '\n', 'c', 'd'] (by decide)
       (by decide) (by decide))
     (by decide) (by decide)⟩
